import Mathlib

/-!
# Plorth: quotes, their parser and their evaluator

A shallow embedding of `src/src/token.cpp`, `src/src/value-quote.cpp`,
`word::equals`, `word::exec` and `w_define` of
`src/libplorth/src/value-word.cpp`, and the array words `+` and `@` of
`src/src/runtime-array.cpp`.

* C++ references (`ref<value>`) are values; the null reference is `Value.null`.
* A call that dereferences a null reference, reads a token at or behind `end`,
  or uses an object through a cast to a class it does not have, has no defined
  result in C++: it is `Run.undefined` here.
* The evaluator can loop (`: f f ; f`), so it takes fuel; `Run.out_of_fuel`
  says the fuel was used up.
* The operand stack is a list whose head is the top of the stack.
-/

namespace Plorth

/-! ## Results of running code -/

/-- Result of running a piece of the program: it returns `a`, or its behaviour
is undefined, or the fuel given to the model ran out. -/
inductive Run (α : Type) where
  | ret (a : α)
  | undefined
  | out_of_fuel
deriving DecidableEq, Repr

/-! ## Tokens (`token.cpp`) -/

/-- The `token::type` enumeration. -/
inductive TokenType where
  | lparen | rparen | lbrack | rbrack | lbrace | rbrace
  | colon | semicolon | comma | word | string
deriving DecidableEq, Repr

/-- A token: `m_type` and `m_text`. -/
structure Token where
  type : TokenType
  text : String
deriving DecidableEq, Repr

/-- `token::equals` (token.cpp:43-46). -/
def Token.equals (self that : Token) : Bool :=
  self.type == that.type && self.text == that.text

/-- `token::to_source` (token.cpp:48-98). `json_stringify` comes from
`utils.hpp`, which is not part of the sources at hand, so it is an argument. -/
def Token.to_source (json_stringify : String → String) (self : Token) : String :=
  match self.type with
  | .lparen => "("
  | .rparen => ")"
  | .lbrack => "["
  | .rbrack => "]"
  | .lbrace => "\x7b"
  | .rbrace => "\x7d"
  | .colon => ":"
  | .semicolon => ";"
  | .comma => ","
  | .word => self.text
  | .string => json_stringify self.text

/-! ## Values and quotes -/

/-- The error codes of the specification (section 3, Error). -/
inductive ErrorCode where
  | syntax_error | reference_error | type_error | value_error
  | range_error | import_error | io_error | unknown_error
deriving DecidableEq, Repr

mutual
/-- A value as seen through a `ref<value>`. `null` is the null reference.
Numbers are integers in this model (doubles are left out). -/
inductive Value where
  | null
  | boolean (b : Bool)
  | number (n : Int)
  | string (s : String)
  | array (elements : List Value)
  | object (properties : List (String × Value))
  | symbol (id : String)
  | word (symbol : String) (quote : Quote)
  | quote (q : Quote)
  | error (code : ErrorCode) (message : String)
/-- The quote classes of value-quote.cpp. A native quote is given by the
identity `id` of the object (its address); the callback that object wraps is
found in the runtime under `id`, so two native quotes with different `id` are
two objects, whether or not they wrap the same callback. -/
inductive Quote where
  | compiled (tokens : List Token)
  | native (id : Nat)
  | curried (argument : Value) (quote : Quote)
  | composed (left right : Quote)
  | negated (quote : Quote)
  | constant (value : Value)
end

/-- The loop of `compiled_quote::equals` (value-quote.cpp:151-157): compares
`m_tokens[i]` with `q->m_tokens[i]` for every `i` below `m_tokens.size()`. It
is entered only when both vectors have the same size. -/
def tokens_equal : List Token → List Token → Bool
  | [], _ => true
  | _ :: _, [] => true
  | t :: ts, u :: us => if !(Token.equals t u) then false else tokens_equal ts us

/-- The comparison of `compiled_quote::equals` behind its type guard
(value-quote.cpp:147-159): the sizes, then the tokens one by one. -/
def compiled_quote_compare (m_tokens q_tokens : List Token) : Bool :=
  if m_tokens.length ≠ q_tokens.length then false else tokens_equal m_tokens q_tokens

mutual
/-- The virtual call `this->equals(that)`. Calling it through a null `this`
is undefined. `word::equals` is value-word.cpp:35-46, the quotes are in
`Quote.equals`. For the other kinds, whose classes are not part of the sources
at hand: Modelled from the spec: "a structural equality with other values";
"String ... Equality is code-point-wise". -/
def Value.equals : Value → Value → Run Bool
  | .null, _ => .undefined
  | .boolean b, .boolean c => .ret (b == c)
  | .boolean _, _ => .ret false
  | .number n, .number m => .ret (n == m)
  | .number _, _ => .ret false
  | .string s, .string t => .ret (s == t)
  | .string _, _ => .ret false
  | .array xs, .array ys => Value.equals_elements xs ys
  | .array _, _ => .ret false
  | .object ps, .object qs => Value.equals_properties ps qs
  | .object _, _ => .ret false
  | .symbol s, .symbol t => .ret (s == t)
  | .symbol _, _ => .ret false
  | .error c m, .error d n => .ret (c == d && m == n)
  | .error _ _, _ => .ret false
  -- if (!that || !that->is(type_word)) return false;
  | .word _ _, .null => .ret false
  | .word s q, .word t r =>
      -- m_symbol->equals(w->m_symbol) && m_quote->equals(w->m_quote)
      if s == t then Quote.equals q (.quote r) else .ret false
  | .word _ _, _ => .ret false
  | .quote q, that => Quote.equals q that
/-- The `equals` members of the quote classes of value-quote.cpp. -/
def Quote.equals : Quote → Value → Run Bool
  -- compiled_quote::equals, lines 138-160
  | .compiled _, .null => .undefined  -- that->is(...) through a null reference
  | .compiled _, .quote (.compiled _) =>
      -- `that.cast<quote>()->is(quote_type_compiled)` holds: return false
      .ret false
  | .compiled _, .quote _ =>
      -- `that` is a quote of another class and is read as a compiled_quote
      .undefined
  | .compiled _, _ => .ret false  -- !that->is(type_quote)
  -- native_quote::equals, lines 193-198: this == that.get()
  | .native i, .quote (.native j) => .ret (i == j)
  | .native _, _ => .ret false
  -- curried_quote::equals, lines 227-238
  | .curried _ _, .null => .undefined
  | .curried a q, .quote (.curried b r) =>
      match Value.equals a b with
      | .ret true => Quote.equals q (.quote r)
      | other => other
  | .curried _ _, _ => .ret false
  -- composed_quote::equals, lines 278-289
  | .composed _ _, .null => .undefined
  | .composed l r, .quote (.composed l2 r2) =>
      match Quote.equals l (.quote l2) with
      | .ret true => Quote.equals r (.quote r2)
      | other => other
  | .composed _ _, _ => .ret false
  -- negated_quote::equals, lines 335-346
  | .negated _, .null => .undefined
  | .negated q, .quote (.negated r) => Quote.equals q (.quote r)
  | .negated _, _ => .ret false
  -- constant_quote::equals, lines 379-390
  | .constant _, .null => .undefined
  | .constant _, .quote (.negated _) =>
      -- `that` is a negated_quote and is read as a constant_quote
      .undefined
  | .constant _, _ =>
      -- !that->is(type_quote) || !that.cast<quote>()->is(quote_type_negated)
      .ret false
/-- Modelled from the spec: structural equality of two arrays, element by
element and of equal length (the array class is not part of the sources). -/
def Value.equals_elements : List Value → List Value → Run Bool
  | [], [] => .ret true
  | x :: xs, y :: ys =>
      match Value.equals x y with
      | .ret true => Value.equals_elements xs ys
      | other => other
  | _, _ => .ret false
/-- Modelled from the spec: structural equality of two objects, property by
property in insertion order (the object class is not part of the sources). -/
def Value.equals_properties : List (String × Value) → List (String × Value) → Run Bool
  | [], [] => .ret true
  | (k, x) :: ps, (l, y) :: qs =>
      if k == l then
        match Value.equals x y with
        | .ret true => Value.equals_properties ps qs
        | other => other
      else .ret false
  | _, _ => .ret false
end

/-! ## The execution context

`context.cpp` is not part of the sources at hand; the operations below follow
section 4.6 of the specification. The source filename and the argument list of
a context play no part in what follows and are left out. -/

/-- Modelled from the spec: the context (context.cpp is missing) "Owns: an
operand stack (ordered sequence of values), a local dictionary (mapping
symbol-id → value), a current error slot (optional error)". The head of
`stack` is the top of the stack. -/
structure Context where
  stack : List Value
  dictionary : List (String × Value)
  error : Option (ErrorCode × String)

/-- Modelled from the spec: `push(v)` of the missing context.cpp. -/
def Context.push (ctx : Context) (v : Value) : Context :=
  { ctx with stack := v :: ctx.stack }

/-- Modelled from the spec: `set_error(code, message)` of the missing
context.cpp (written `ctx->error(code, message)` by its callers): the error is
latched in the error slot. -/
def Context.set_error (ctx : Context) (code : ErrorCode) (message : String) : Context :=
  { ctx with error := some (code, message) }

/-- Modelled from the spec: `pop() → v | fail(Range if empty)` of the missing
context.cpp. The message of the error is not given by the specification. -/
def Context.pop (ctx : Context) : Option Value × Context :=
  match ctx.stack with
  | [] => (none, ctx.set_error .range_error "Stack underflow.")
  | v :: rest => (some v, { ctx with stack := rest })

/-- Modelled from the spec: `pop_boolean` of the missing context.cpp, one of
the "typed variants `pop_<kind>(out) → bool` that pop then type-check, failing
with Type error if the tag does not match". -/
def Context.pop_boolean (ctx : Context) : Option Bool × Context :=
  match ctx.pop with
  | (none, ctx1) => (none, ctx1)
  | (some (.boolean b), ctx1) => (some b, ctx1)
  | (some _, ctx1) => (none, ctx1.set_error .type_error "Expected boolean.")

/-- Modelled from the spec: `push_boolean` of the missing context.cpp. -/
def Context.push_boolean (ctx : Context) (b : Bool) : Context :=
  ctx.push (.boolean b)

/-- Lookup in a dictionary or in the properties of an object: the value of
the first entry with the given key. -/
def dictionary_find (name : String) : List (String × Value) → Option Value
  | [] => none
  | (k, v) :: rest => if k == name then some v else dictionary_find name rest

/-- Assignment `container[key] = value` of a map: an entry with that key is
overwritten in place, otherwise the entry is added behind the others. -/
def dictionary_set (name : String) (v : Value) : List (String × Value) → List (String × Value)
  | [] => [(name, v)]
  | (k, w) :: rest =>
      if k == name then (k, v) :: rest else (k, w) :: dictionary_set name v rest

/-- Modelled from the spec: `declare(name, value)` of the missing context.cpp
"writes the local dictionary". -/
def Context.declare (ctx : Context) (name : String) (v : Value) : Context :=
  { ctx with dictionary := dictionary_set name v ctx.dictionary }

/-- The type tags of the specification (section 3, Value). -/
inductive TypeTag where
  | null | boolean | number | string | array | object | symbol | word | quote | error
deriving DecidableEq, Repr

/-- The type tag of a value. -/
def Value.type : Value → TypeTag
  | .null => .null
  | .boolean _ => .boolean
  | .number _ => .number
  | .string _ => .string
  | .array _ => .array
  | .object _ => .object
  | .symbol _ => .symbol
  | .word _ _ => .word
  | .quote _ => .quote
  | .error _ _ => .error

/-- The runtime, as far as the quotes use it. The runtime class and
`utils.hpp` are not part of the sources at hand, so what they provide is given
here: `is_number` and `json_stringify` (utils.hpp), `number` (the number
factory of the runtime), the global dictionary, the prototype registry (the
properties of the prototype object registered for a type tag, and those of the
object prototype), and the callbacks of the native quote objects. A callback
receives the evaluator, with which it may call quotes, and the context. -/
structure Runtime where
  is_number : String → Bool
  number : String → Value
  json_stringify : String → String
  dictionary : List (String × Value)
  prototypes : TypeTag → Option (List (String × Value))
  object_prototype : Option (List (String × Value))
  callbacks : Nat → (Quote → Context → Run (Bool × Context)) → Context → Run Context

/-- Modelled from the spec: prototype resolution (the value classes are
missing): "the runtime's registered prototype for `v`'s type tag; else the
object prototype; else null". Objects carry no prototype slot of their own in
this model. -/
def Runtime.prototype (rt : Runtime) (v : Value) : Option (List (String × Value)) :=
  match rt.prototypes v.type with
  | some p => some p
  | none => rt.object_prototype

/-- Modelled from the spec: `lookup(name)` of the missing context.cpp
"searches in order: local dictionary → prototype of current top-of-stack (if
any) → global dictionary → fail Reference error". -/
def Context.lookup (rt : Runtime) (ctx : Context) (name : String) : Option Value :=
  match dictionary_find name ctx.dictionary with
  | some v => some v
  | none =>
    let in_prototype : Option Value :=
      match ctx.stack with
      | [] => none
      | top :: _ =>
        match rt.prototype top with
        | some p => dictionary_find name p
        | none => none
    match in_prototype with
    | some v => some v
    | none => dictionary_find name rt.dictionary

/-! ## The parser (value-quote.cpp:443-704)

An iterator into the token vector is the list of the tokens from its position
to `end`; `it == end` is the empty list. A parsing function returns what the
C++ function returns together with the context and the iterator it leaves. -/

/-- The `while` loop of `parse_quote` (value-quote.cpp:450-463), from the
iterator, the counter and the tokens collected so far to their values when the
loop is left. The `int` counter is an integer here: it cannot overflow on a
vector of fewer than 2^31 - 1 tokens. -/
def parse_quote_loop : List Token → Int → List Token → List Token × Int × List Token
  | [], counter, result => ([], counter, result)
  | token :: it, counter, result =>
      if token.type = .lparen then
        parse_quote_loop it (counter + 1) (result ++ [token])
      else if token.type = .rparen then
        -- `!--counter`: the counter is decremented, zero leaves the loop
        if counter - 1 = 0 then (it, counter - 1, result)
        else parse_quote_loop it (counter - 1) (result ++ [token])
      else
        parse_quote_loop it counter (result ++ [token])

/-- `parse_quote` (value-quote.cpp:443-472); `none` is the null reference. -/
def parse_quote (ctx : Context) (it : List Token) : Option Quote × Context × List Token :=
  match parse_quote_loop it 1 [] with
  | (it1, counter, result) =>
      if counter > 0 then
        (none, ctx.set_error .syntax_error "Unterminated quote.", it1)
      else
        (some (.compiled result), ctx, it1)

/-- The `while` loop of `parse_declaration` (value-quote.cpp:681-694). -/
def parse_declaration_loop : List Token → Int → List Token → List Token × Int × List Token
  | [], counter, tokens => ([], counter, tokens)
  | token :: current, counter, tokens =>
      if token.type = .colon then
        parse_declaration_loop current (counter + 1) (tokens ++ [token])
      else if token.type = .semicolon then
        if counter - 1 = 0 then (current, counter - 1, tokens)
        else parse_declaration_loop current (counter - 1) (tokens ++ [token])
      else
        parse_declaration_loop current counter (tokens ++ [token])

/-- `parse_declaration` (value-quote.cpp:666-704). It is called with `current`
at the colon token. -/
def parse_declaration (ctx : Context) (current : List Token) : Run (Bool × Context × List Token) :=
  match current with
  | [] => .undefined  -- `++current` on the end iterator
  | _ :: current1 =>
    match current1 with
    | [] =>
        .ret (false, ctx.set_error .syntax_error "Missing name after word declaration.", current1)
    | name_token :: current2 =>
        if name_token.type ≠ .word then
          .ret (false, ctx.set_error .syntax_error "Missing name after word declaration.",
            current1)
        else
          match parse_declaration_loop current2 1 [] with
          | (current3, counter, tokens) =>
              if counter > 0 then
                .ret (false, ctx.set_error .syntax_error "Unterminated declaration.", current3)
              else
                .ret (true, ctx.declare name_token.text (.quote (.compiled tokens)), current3)

mutual
/-- `parse_value` (value-quote.cpp:586-664). `some v` is the value left in
`slot` when the function returns `true` (`Value.null` after `slot.release()`),
`none` stands for the return value `false`. -/
def parse_value_fuel (rt : Runtime) :
    Nat → Context → List Token → Run (Option Value × Context × List Token)
  | 0, _, _ => .out_of_fuel
  | _ + 1, _, [] => .undefined  -- `*it++` on the end iterator
  | fuel + 1, ctx, token :: it =>
    let unexpected : Run (Option Value × Context × List Token) :=
      .ret (none, ctx.set_error .syntax_error
        ("Unexpected \x60" ++ token.to_source rt.json_stringify ++ "', missing value."), it)
    match token.type with
    | .string => .ret (some (.string token.text), ctx, it)
    | .lparen =>
        match parse_quote ctx it with
        | (none, ctx1, it1) => .ret (none, ctx1, it1)
        | (some q, ctx1, it1) => .ret (some (.quote q), ctx1, it1)
    | .lbrack => parse_array_fuel rt fuel ctx it []
    | .lbrace => parse_object_fuel rt fuel ctx it []
    | .word =>
        if token.text = "null" then .ret (some .null, ctx, it)
        else if token.text = "true" then .ret (some (.boolean true), ctx, it)
        else if token.text = "false" then .ret (some (.boolean false), ctx, it)
        else if token.text = "drop" then
          match ctx.pop with
          | (none, ctx1) => .ret (none, ctx1, it)
          | (some v, ctx1) => .ret (some v, ctx1, it)
        else if rt.is_number token.text then .ret (some (rt.number token.text), ctx, it)
        else unexpected
    | _ => unexpected
/-- The `for (;;)` loop of `parse_array` (value-quote.cpp:474-521), entered
with the elements collected so far. -/
def parse_array_fuel (rt : Runtime) :
    Nat → Context → List Token → List Value → Run (Option Value × Context × List Token)
  | 0, _, _, _ => .out_of_fuel
  | fuel + 1, ctx, it, elements =>
    match it with
    | [] => .ret (none, ctx.set_error .syntax_error "Unterminated array literal.", it)
    | token :: it1 =>
      if token.type = .rbrack then .ret (some (.array elements), ctx, it1)
      else
        match parse_value_fuel rt fuel ctx it with
        | .ret (none, ctx1, it2) => .ret (none, ctx1, it2)
        | .ret (some val, ctx1, it2) =>
          match it2 with
          | [] => .ret (none, ctx1.set_error .syntax_error "Unterminated array literal.", it2)
          | next :: it3 =>
            if next.type = .comma then parse_array_fuel rt fuel ctx1 it3 (elements ++ [val])
            else if next.type ≠ .rbrack then
              .ret (none, ctx1.set_error .syntax_error
                ("Unexpected \x60" ++ next.to_source rt.json_stringify ++ "'; Missing \x60]'"),
                it2)
            else parse_array_fuel rt fuel ctx1 it2 (elements ++ [val])
        | .undefined => .undefined
        | .out_of_fuel => .out_of_fuel
/-- The `for (;;)` loop of `parse_object` (value-quote.cpp:523-584), entered
with the properties collected so far. -/
def parse_object_fuel (rt : Runtime) :
    Nat → Context → List Token → List (String × Value) →
      Run (Option Value × Context × List Token)
  | 0, _, _, _ => .out_of_fuel
  | fuel + 1, ctx, it, properties =>
    match it with
    | [] => .ret (none, ctx.set_error .syntax_error "Unterminated object literal.", it)
    | token :: it1 =>
      if token.type = .rbrace then .ret (some (.object properties), ctx, it1)
      else if token.type ≠ .string then
        .ret (none, ctx.set_error .syntax_error "Missing key for object literal.", it)
      else
        -- id = it++->text();
        match it1 with
        | [] =>
            .ret (none, ctx.set_error .syntax_error "Missing \x60:' after key of an object.",
              it1)
        | colon :: it2 =>
          -- `!it++->is(token::type_colon)`: the iterator moves on in both cases
          if colon.type ≠ .colon then
            .ret (none, ctx.set_error .syntax_error "Missing \x60:' after key of an object.",
              it2)
          else
            match parse_value_fuel rt fuel ctx it2 with
            | .ret (none, ctx1, it3) => .ret (none, ctx1, it3)
            | .ret (some val, ctx1, it3) =>
              match it3 with
              | [] =>
                  .ret (none, ctx1.set_error .syntax_error "Unterminated object literal.", it3)
              | next :: it4 =>
                if next.type = .comma then
                  parse_object_fuel rt fuel ctx1 it4 (dictionary_set token.text val properties)
                else if next.type ≠ .rbrace then
                  .ret (none, ctx1.set_error .syntax_error
                    ("Unexpected \x60" ++ next.to_source rt.json_stringify ++
                      "'; Missing \x60]'"), it3)
                else
                  parse_object_fuel rt fuel ctx1 it3 (dictionary_set token.text val properties)
            | .undefined => .undefined
            | .out_of_fuel => .out_of_fuel
end

/-- Fuel that lets the parsing functions run through `it`: every level of the
recursion takes one unit, and two levels consume at least one token. -/
def parse_fuel (it : List Token) : Nat := 2 * it.length + 2

/-- `parse_value` (value-quote.cpp:586-664) on the tokens from `it` to `end`. -/
def parse_value (rt : Runtime) (ctx : Context) (it : List Token) :
    Run (Option Value × Context × List Token) :=
  parse_value_fuel rt (parse_fuel it) ctx it

/-- `parse_array` (value-quote.cpp:474-521), called behind the opening bracket. -/
def parse_array (rt : Runtime) (ctx : Context) (it : List Token) :
    Run (Option Value × Context × List Token) :=
  parse_array_fuel rt (parse_fuel it) ctx it []

/-- `parse_object` (value-quote.cpp:523-584), called behind the opening brace. -/
def parse_object (rt : Runtime) (ctx : Context) (it : List Token) :
    Run (Option Value × Context × List Token) :=
  parse_object_fuel rt (parse_fuel it) ctx it []

/-! ## Calling quotes (value-quote.cpp:60-115, 181-186, 220-225, 273-276,
322-333, 367-372) -/

mutual
/-- The virtual call `quote->call(ctx)`, one case for each quote class. -/
def Quote.call (rt : Runtime) : Nat → Quote → Context → Run (Bool × Context)
  | 0, _, _ => .out_of_fuel
  -- compiled_quote::call: current = begin(m_tokens)
  | fuel + 1, .compiled tokens, ctx => compiled_quote_loop rt fuel ctx tokens
  -- native_quote::call: m_callback(ctx); return !ctx->error();
  | fuel + 1, .native id, ctx =>
      match rt.callbacks id (fun q c => Quote.call rt fuel q c) ctx with
      | .ret ctx1 => .ret (ctx1.error.isNone, ctx1)
      | .undefined => .undefined
      | .out_of_fuel => .out_of_fuel
  -- curried_quote::call: ctx->push(m_argument); return m_quote->call(ctx);
  | fuel + 1, .curried argument quote, ctx => Quote.call rt fuel quote (ctx.push argument)
  -- composed_quote::call: return m_left->call(ctx) && m_right->call(ctx);
  | fuel + 1, .composed left right, ctx =>
      match Quote.call rt fuel left ctx with
      | .ret (true, ctx1) => Quote.call rt fuel right ctx1
      | .ret (false, ctx1) => .ret (false, ctx1)
      | .undefined => .undefined
      | .out_of_fuel => .out_of_fuel
  -- negated_quote::call
  | fuel + 1, .negated quote, ctx =>
      match Quote.call rt fuel quote ctx with
      | .ret (false, ctx1) => .ret (false, ctx1)
      | .ret (true, ctx1) =>
          match ctx1.pop_boolean with
          | (none, ctx2) => .ret (false, ctx2)
          | (some result, ctx2) => .ret (true, ctx2.push_boolean (!result))
      | .undefined => .undefined
      | .out_of_fuel => .out_of_fuel
  -- constant_quote::call: ctx->push(m_value); return true;
  | _ + 1, .constant value, ctx => .ret (true, ctx.push value)
/-- The `while (current != end)` loop of `compiled_quote::call`
(value-quote.cpp:65-114), entered with `current` at the head of the list. -/
def compiled_quote_loop (rt : Runtime) : Nat → Context → List Token → Run (Bool × Context)
  | _, ctx, [] => .ret (true, ctx)
  | 0, _, _ :: _ => .out_of_fuel
  | fuel + 1, ctx, token :: rest =>
    match token.type with
    | .string | .lparen | .lbrack | .lbrace =>
        match parse_value rt ctx (token :: rest) with
        | .ret (none, ctx1, _) => .ret (false, ctx1)
        | .ret (some val, ctx1, current) => compiled_quote_loop rt fuel (ctx1.push val) current
        | .undefined => .undefined
        | .out_of_fuel => .out_of_fuel
    | .colon =>
        match parse_declaration ctx (token :: rest) with
        | .ret (false, ctx1, _) => .ret (false, ctx1)
        | .ret (true, ctx1, current) => compiled_quote_loop rt fuel ctx1 current
        | .undefined => .undefined
        | .out_of_fuel => .out_of_fuel
    | .word =>
        match Context.call rt fuel ctx token.text with
        | .ret (false, ctx1) => .ret (false, ctx1)
        | .ret (true, ctx1) => compiled_quote_loop rt fuel ctx1 rest
        | .undefined => .undefined
        | .out_of_fuel => .out_of_fuel
    | .rparen | .rbrack | .rbrace | .comma | .semicolon =>
        .ret (false, ctx.set_error .syntax_error
          ("Unexpected \x60" ++ token.to_source rt.json_stringify ++ "'"))
/-- Modelled from the spec: `call(name)` of the missing context.cpp: "resolve
`name` via lookup; if the result is a quote, call it; if it is any other
value, push it onto the stack". A name that no dictionary holds is tried as a
number ("else try numeric parse", and scenario E1, where the word `3` pushes
the number 3), and is a Reference error otherwise. -/
def Context.call (rt : Runtime) : Nat → Context → String → Run (Bool × Context)
  | 0, _, _ => .out_of_fuel
  | fuel + 1, ctx, name =>
    match ctx.lookup rt name with
    | some (.quote q) => Quote.call rt fuel q ctx
    | some v => .ret (true, ctx.push v)
    | none =>
        if rt.is_number name then .ret (true, ctx.push (rt.number name))
        else .ret (false, ctx.set_error .reference_error ("Unrecognized word: " ++ name))
end

/-! ## Source form of a compiled quote (value-quote.cpp:117-136) -/

/-- The `for` loop of `compiled_quote::to_source` (value-quote.cpp:123-132),
from the tokens still to write, the flag `first` and the text so far. -/
def to_source_loop (json_stringify : String → String) : List Token → Bool → String → String
  | [], _, result => result
  | token :: rest, first, result =>
      let separated := if first then result else result ++ " "
      to_source_loop json_stringify rest false (separated ++ token.to_source json_stringify)

/-- `compiled_quote::to_source` (value-quote.cpp:117-136). -/
def compiled_quote_to_source (json_stringify : String → String) (m_tokens : List Token) :
    String :=
  to_source_loop json_stringify m_tokens true "(" ++ ")"

/-! ## What the specification says of a quote literal -/

/-- Number of tokens of type `ty` in `ts`. -/
def count_type (ty : TokenType) (ts : List Token) : Nat :=
  (ts.filter (fun t => t.type = ty)).length

/-- The tokens `body` are what stands strictly between an opening paren and
the closing paren that matches it under paren nesting: no closing paren inside
`body` closes more than `body` has opened before it, and `body` leaves none of
its own opening parens open. The matching closing paren is then the token
right behind `body`. -/
def paren_balanced (body : List Token) : Prop :=
  (∀ p s : List Token, body = p ++ s → count_type .rparen p ≤ count_type .lparen p) ∧
  count_type .rparen body = count_type .lparen body

/-! ## A runtime and a context to evaluate with -/

/-- A runtime without words: no number syntax, empty dictionaries, and native
quote objects whose callbacks all leave the context as it is. -/
def bare_runtime : Runtime where
  is_number := fun _ => false
  number := fun _ => .null
  json_stringify := fun s => "\"" ++ s ++ "\""
  dictionary := []
  prototypes := fun _ => none
  object_prototype := none
  callbacks := fun _ _ ctx => .ret ctx

/-- The context a program starts with: empty stack, empty dictionary, no
error. -/
def empty_context : Context := ⟨[], [], none⟩

/-! ## Predicates used by the proofs -/

/-- With the counter at `c`, the tokens `body` stay inside the quote (the
counter never reaches zero in them) and the token behind them brings the
counter to zero. -/
def closes_at (c : Int) (body : List Token) : Prop :=
  (∀ p s : List Token, body = p ++ s →
    (count_type .rparen p : Int) < (count_type .lparen p : Int) + c) ∧
  (count_type .rparen body : Int) + 1 = (count_type .lparen body : Int) + c

/-- How a parsing step leaves the error slot: a failure has latched an error,
a success has left the slot as it was. -/
def error_tracks (ctx : Context) (ok : Bool) (ctx1 : Context) : Prop :=
  (ok = false → ctx1.error ≠ none) ∧ (ok = true → ctx1.error = ctx.error)

/-- A call that starts without an error reports by its return value whether
it ends without one. -/
def reports_error (ctx : Context) (ok : Bool) (ctx1 : Context) : Prop :=
  ctx.error = none → (ok = true ↔ ctx1.error = none)

/-! ## Words (value-word.cpp:48-55, 145-162) -/

/-- `word::exec` (value-word.cpp:48-55): `dictionary[m_symbol->id()] = m_quote;
return true;` on the dictionary of the context. -/
def word_exec (m_symbol : String) (m_quote : Quote) (ctx : Context) : Bool × Context :=
  (true, { ctx with dictionary := dictionary_set m_symbol (.quote m_quote) ctx.dictionary })

/-- Modelled from the spec: `pop_word` of the missing context.cpp, one of the
typed variants of `pop` that "pop then type-check, failing with Type error if
the tag does not match". -/
def Context.pop_word (ctx : Context) : Option (String × Quote) × Context :=
  match ctx.pop with
  | (none, ctx1) => (none, ctx1)
  | (some (.word symbol quote), ctx1) => (some (symbol, quote), ctx1)
  | (some _, ctx1) => (none, ctx1.set_error .type_error "Expected word.")

/-- `w_define` (value-word.cpp:154-162). -/
def w_define (ctx : Context) : Context :=
  match ctx.pop_word with
  | (none, ctx1) => ctx1
  | (some (symbol, quote), ctx1) => (word_exec symbol quote ctx1).2

/-! ## Array words (runtime-array.cpp)

This file uses the context through `PopArray`, `PopNumber`, `Push`,
`PushArray` and `SetError`, whose class is not part of the sources at hand. -/

/-- Modelled from the spec: `PopArray` of the missing context class, a typed
variant of `pop` ("pop then type-check, failing with Type error if the tag
does not match"). -/
def Context.pop_array (ctx : Context) : Option (List Value) × Context :=
  match ctx.pop with
  | (none, ctx1) => (none, ctx1)
  | (some (.array elements), ctx1) => (some elements, ctx1)
  | (some _, ctx1) => (none, ctx1.set_error .type_error "Expected array.")

/-- Modelled from the spec: `PopNumber` of the missing context class, a typed
variant of `pop`. -/
def Context.pop_number (ctx : Context) : Option Int × Context :=
  match ctx.pop with
  | (none, ctx1) => (none, ctx1)
  | (some (.number n), ctx1) => (some n, ctx1)
  | (some _, ctx1) => (none, ctx1.set_error .type_error "Expected number.")

/-- Modelled from the spec: `PushArray` of the missing context class: a new
array value with the given elements is pushed. -/
def Context.push_array (ctx : Context) (elements : List Value) : Context :=
  ctx.push (.array elements)

/-- The value of a 64-bit two's complement word, as `std::int64_t`. -/
def to_int64 (x : Int) : Int := (x + 2 ^ 63) % 2 ^ 64 - 2 ^ 63

/-- `w_plus` (runtime-array.cpp:423-439). -/
def w_plus (context : Context) : Context :=
  match context.pop_array with
  | (none, ctx1) => ctx1
  | (some a, ctx1) =>
    match ctx1.pop_array with
    | (none, ctx2) => ctx2
    | (some b, ctx2) =>
        -- result.insert(end(result), begin(b), end(b)); then the same with a
        ctx2.push_array (([] ++ b) ++ a)

/-- `w_get` (runtime-array.cpp:363-384). The number popped is the
`std::int64_t` that `AsInt()` gives; `i += elements.size()` is computed in 64
bits. Reading `elements[i]` outside the vector is undefined. -/
def w_get (context : Context) : Run Context :=
  match context.pop_array with
  | (none, ctx1) => .ret ctx1
  | (some elements, ctx1) =>
    match ctx1.pop_number with
    | (none, ctx2) => .ret ctx2
    | (some index, ctx2) =>
      let i : Int := if index < 0 then to_int64 (index + elements.length) else index
      if i < 0 ∨ elements.length ≤ i.toNat then
        .ret (ctx2.set_error .range_error "Array index out of bounds.")
      else
        match elements.get? i.toNat with
        | some element => .ret (ctx2.push element)
        | none => .undefined
/-! ## What the specification says of an array literal -/

/-- The tokens `c` are a well-formed value construct: from the context `ctx`,
`parse_value` reads exactly `c`, whatever tokens follow, and gives the value
`v` and the context `ctx1`. -/
def parses_to (rt : Runtime) (ctx : Context) (c : List Token) (v : Value) (ctx1 : Context) :
    Prop :=
  ∀ rest, parse_value rt ctx (c ++ rest) = .ret (some v, ctx1, rest)

/-- The value constructs `cs`, read one after the other from the context
`ctx`, give their values and leave the context `ctx1`. -/
def constructs_parse (rt : Runtime) : Context → List (List Token × Value) → Context → Prop
  | ctx, [], ctx1 => ctx1 = ctx
  | ctx, (c, v) :: cs, ctx1 =>
      ∃ ctx2, parses_to rt ctx c v ctx2 ∧ constructs_parse rt ctx2 cs ctx1

/-- The tokens of the constructs with the comma token `sep` between each two
of them: `v1 , v2 , ... , vn`. -/
def array_tokens (sep : Token) : List (List Token) → List Token
  | [] => []
  | [c] => c
  | c :: c2 :: cs => c ++ sep :: array_tokens sep (c2 :: cs)
/-! ## What the specification says of a word declaration -/

/-- The tokens `body` are what stands between the name of a declaration and
the semicolon that ends it, under the nesting of colons and semicolons: no
semicolon inside `body` closes more than the colons of `body` before it have
opened, and `body` leaves none of its colons open. -/
def declaration_balanced (body : List Token) : Prop :=
  (∀ p s : List Token, body = p ++ s → count_type .semicolon p ≤ count_type .colon p) ∧
  count_type .semicolon body = count_type .colon body

/-- With the counter of `parse_declaration` at `c`, the counter never reaches
zero in the tokens `body` and the token behind them brings it to zero. -/
def declaration_closes_at (c : Int) (body : List Token) : Prop :=
  (∀ p s : List Token, body = p ++ s →
    (count_type .semicolon p : Int) < (count_type .colon p : Int) + c) ∧
  (count_type .semicolon body : Int) + 1 = (count_type .colon body : Int) + c

/-! ## A runtime with numbers, `dup` and `*` -/

/-- A text of one or more decimal digits. -/
def decimal_digits (s : String) : Bool :=
  !s.data.isEmpty && s.data.all Char.isDigit

/-- The number that a text of decimal digits denotes. -/
def decimal_value (s : String) : Int :=
  s.data.foldl (fun n c => 10 * n + ((c.toNat - 48 : Nat) : Int)) 0

/-- A runtime whose numbers are the decimal numerals and whose global
dictionary holds two native quotes: `dup`, which duplicates the top of the
stack, and `*`, which replaces the two numbers on top of the stack by their
product. -/
def arith_runtime : Runtime where
  is_number := decimal_digits
  number := fun s => .number (decimal_value s)
  json_stringify := fun s => "\"" ++ s ++ "\""
  dictionary := [("dup", .quote (.native 0)), ("*", .quote (.native 1))]
  prototypes := fun _ => none
  object_prototype := none
  callbacks := fun id _ ctx =>
    match id with
    | 0 =>
      match ctx.stack with
      | v :: s => .ret { ctx with stack := v :: v :: s }
      | [] => .ret (ctx.set_error .range_error "Stack underflow.")
    | 1 =>
      match ctx.stack with
      | .number a :: .number b :: s => .ret { ctx with stack := .number (b * a) :: s }
      | _ => .ret (ctx.set_error .type_error "Expected number.")
    | _ => .ret ctx

/-! ## More array words (runtime-array.cpp) and the error words (error.cpp)

These files call quotes through `quote->Call(context)`, whose class is not part
of the sources at hand; the words below take the call as the argument `call`,
which value-quote.cpp instantiates with `Quote.call`. -/

/-- Modelled from the spec: `PopQuote` of the missing context class, a typed
variant of `pop` ("pop then type-check, failing with Type error if the tag
does not match"). -/
def Context.pop_quote (ctx : Context) : Option Quote × Context :=
  match ctx.pop with
  | (none, ctx1) => (none, ctx1)
  | (some (.quote q), ctx1) => (some q, ctx1)
  | (some _, ctx1) => (none, ctx1.set_error .type_error "Expected quote.")

/-- `w_set` (runtime-array.cpp:393-416). `elements` is a copy of the vector of
the array; `i += elements.size()` is computed in 64 bits; `elements[i] = value`
is reached only with `i` inside the vector. -/
def w_set (context : Context) : Context :=
  match context.pop_array with
  | (none, ctx1) => ctx1
  | (some array, ctx1) =>
    match ctx1.pop_number with
    | (none, ctx2) => ctx2
    | (some index, ctx2) =>
      match ctx2.pop with
      | (none, ctx3) => ctx3
      | (some value, ctx3) =>
        let elements := array
        let i : Int := if index < 0 then to_int64 (index + elements.length) else index
        if i < 0 ∨ elements.length ≤ i.toNat then
          ctx3.push_array (elements ++ [value])
        else
          ctx3.push_array (elements.set i.toNat value)

/-- The `for` loop of `w_map` (runtime-array.cpp:231-241) over the elements
still to visit, with the vector `result` so far. -/
def w_map_loop (call : Quote → Context → Run (Bool × Context)) (quote : Quote) :
    List Value → Context → List Value → Run Context
  | [], context, result => .ret (context.push_array result)
  | element :: rest, context, result =>
    match call quote (context.push element) with
    | .ret (false, ctx1) => .ret ctx1
    | .ret (true, ctx1) =>
      match ctx1.pop with
      | (none, ctx2) => .ret ctx2
      | (some quote_result, ctx2) => w_map_loop call quote rest ctx2 (result ++ [quote_result])
    | .undefined => .undefined
    | .out_of_fuel => .out_of_fuel

/-- `w_map` (runtime-array.cpp:221-243): `map ( quote ary -- ary )`. -/
def w_map (call : Quote → Context → Run (Bool × Context)) (context : Context) : Run Context :=
  match context.pop_array with
  | (none, ctx1) => .ret ctx1
  | (some array, ctx1) =>
    match ctx1.pop_quote with
    | (none, ctx2) => .ret ctx2
    | (some quote, ctx2) => w_map_loop call quote array ctx2 []

/-- The `for (i = 1; i < size; ++i)` loop of `w_reduce`
(runtime-array.cpp:268-276) over the elements from index 1 on. -/
def w_reduce_loop (call : Quote → Context → Run (Bool × Context)) (quote : Quote) :
    List Value → Context → Value → Run Context
  | [], context, result => .ret (context.push result)
  | element :: rest, context, result =>
    match call quote ((context.push result).push element) with
    | .ret (false, ctx1) => .ret ctx1
    | .ret (true, ctx1) =>
      match ctx1.pop with
      | (none, ctx2) => .ret ctx2
      | (some result1, ctx2) => w_reduce_loop call quote rest ctx2 result1
    | .undefined => .undefined
    | .out_of_fuel => .out_of_fuel

/-- `w_reduce` (runtime-array.cpp:251-279): `reduce ( quote ary -- any )`. -/
def w_reduce (call : Quote → Context → Run (Bool × Context)) (context : Context) :
    Run Context :=
  match context.pop_array with
  | (none, ctx1) => .ret ctx1
  | (some array, ctx1) =>
    match ctx1.pop_quote with
    | (none, ctx2) => .ret ctx2
    | (some quote, ctx2) =>
      match array with
      | [] => .ret (ctx2.set_error .range_error "Cannot reduce empty array.")
      | first :: rest => w_reduce_loop call quote rest ctx2 first

/-- What a word that builds a `std::vector` ends with: it returns, or
`reserve` throws `std::length_error` and the word is left at once, with the
context as it is at that point. -/
inductive Thrown (α : Type) where
  | ret (a : α)
  | length_error (a : α)
deriving DecidableEq, Repr

/-- The loops of `w_times` (runtime-array.cpp:461-468, 472-479): `turns` times,
the elements of the array are put behind `result`. -/
def w_times_loop (elements : List Value) : Nat → List Value → List Value
  | 0, result => result
  | turns + 1, result => w_times_loop elements turns (result ++ elements)

/-- `w_times` (runtime-array.cpp:446-482): `* ( num ary -- ary )`.
Modelled from the spec: "Number. Either a signed 64-bit integer, an IEEE-754
double, or an arbitrary-precision integer"; `number_type_int` says that the
number popped is held as the 64-bit integer (`GetNumberType() ==
NUMBER_TYPE_INT`), otherwise it is held as the arbitrary-precision integer.
In the first branch the argument of `reserve` is the product of a
`std::size_t` and a `std::int64_t`, computed in unsigned 64 bits; `reserve`
throws when it is above `max_size()`, which is the argument `max_size`. The
loops run while `i < times` from 0, that is `times` turns and none for a
negative `times`. -/
def w_times (max_size : Nat) (number_type_int : Bool) (context : Context) : Thrown Context :=
  match context.pop_array with
  | (none, ctx1) => .ret ctx1
  | (some array, ctx1) =>
    match ctx1.pop_number with
    | (none, ctx2) => .ret ctx2
    | (some number, ctx2) =>
      if number_type_int then
        let times : Int := number
        if max_size < (((array.length : Int) * times) % 2 ^ 64).toNat then
          .length_error ctx2
        else .ret (ctx2.push_array (w_times_loop array times.toNat []))
      else
        let times : Int := number
        .ret (ctx2.push_array (w_times_loop array times.toNat []))

/-- `w_try` (error.cpp:106-121): `try ( quote quote -- )`.
Modelled from the spec: `GetError` and `ClearError` of the missing state class
("`clear_error()`, `error() → optional<Error>`"): the error of the slot is
pushed as an error value, a null reference when the slot is empty, and the
slot is emptied. -/
def w_try (call : Quote → Context → Run (Bool × Context)) (state : Context) : Run Context :=
  match state.pop_quote with
  | (none, s1) => .ret s1
  | (some catch_block, s1) =>
    match s1.pop_quote with
    | (none, s2) => .ret s2
    | (some try_block, s2) =>
      match call try_block s2 with
      | .ret (true, s3) => .ret s3
      | .ret (false, s3) =>
        let error : Value :=
          match s3.error with
          | some (code, message) => .error code message
          | none => .null
        let s4 : Context := { s3.push error with error := none }
        match call catch_block s4 with
        | .ret (_, s5) => .ret s5
        | .undefined => .undefined
        | .out_of_fuel => .out_of_fuel
      | .undefined => .undefined
      | .out_of_fuel => .out_of_fuel

/-- Modelled from the spec: `PeekError` of the missing state class, a typed
look at the top of the stack that leaves it in place; an empty stack is a
Range error and another kind of value a Type error, as for the typed pops. -/
def Context.peek_error (ctx : Context) : Option (ErrorCode × String) × Context :=
  match ctx.stack with
  | [] => (none, ctx.set_error .range_error "Stack underflow.")
  | .error code message :: _ => (some (code, message), ctx)
  | _ :: _ => (none, ctx.set_error .type_error "Expected error.")

/-- `w_code` (error.cpp:128-136): `code ( error -- error num )`. The numbers
of the enumeration of error codes are declared in a header that is not part of
the sources at hand; `code_number` gives them. -/
def w_code (code_number : ErrorCode → Int) (state : Context) : Context :=
  match state.peek_error with
  | (some (code, _), s1) => s1.push (.number (code_number code))
  | (none, s1) => s1

/-- The runtime `arith_runtime` with one more native quote, `error.code`,
whose callback is `w_code`. -/
def error_runtime (code_number : ErrorCode → Int) : Runtime where
  is_number := arith_runtime.is_number
  number := arith_runtime.number
  json_stringify := arith_runtime.json_stringify
  dictionary := ("error.code", .quote (.native 2)) :: arith_runtime.dictionary
  prototypes := fun _ => none
  object_prototype := none
  callbacks := fun id call ctx =>
    match id with
    | 2 => .ret (w_code code_number ctx)
    | _ => arith_runtime.callbacks id call ctx

/-! ## Array objects that several holders share (runtime-array.cpp)

In the words above an array value is its sequence of elements. The store below
keeps the identity of the array objects: the stack and the arrays hold
references, an array object lives at an address, and the same address may be
held in several places. The array words are written once more over the store,
line by line as in the source, to see which array objects they write to. -/

/-- A reference (`Ref<Value>`) as the stack and the arrays hold it: to an array
object, by its address, or to a value of another kind. -/
inductive Ref where
  | array (address : Nat)
  | other (v : Value)

/-- The array objects, by address, with the stack and the error slot of the
context. -/
structure Store where
  arrays : List (List Ref)
  stack : List Ref
  error : Option (ErrorCode × String)

/-- `array->GetElements()`: the vector of the array object at `address`. -/
def Store.get_elements (st : Store) (address : Nat) : List Ref :=
  st.arrays.getD address []

/-- `SetError` on the store. -/
def Store.set_error (st : Store) (code : ErrorCode) (message : String) : Store :=
  { st with error := some (code, message) }

/-- `Push` on the store. -/
def Store.push (st : Store) (v : Ref) : Store :=
  { st with stack := v :: st.stack }

/-- Modelled from the spec: `Pop` of the missing context class, as
`Context.pop`. -/
def Store.pop (st : Store) : Option Ref × Store :=
  match st.stack with
  | [] => (none, st.set_error .range_error "Stack underflow.")
  | v :: rest => (some v, { st with stack := rest })

/-- Modelled from the spec: `PopArray` of the missing context class, as
`Context.pop_array`; it gives the reference to the array object. -/
def Store.pop_array (st : Store) : Option Nat × Store :=
  match st.pop with
  | (none, st1) => (none, st1)
  | (some (.array address), st1) => (some address, st1)
  | (some _, st1) => (none, st1.set_error .type_error "Expected array.")

/-- Modelled from the spec: `PopNumber` of the missing context class, as
`Context.pop_number`. -/
def Store.pop_number (st : Store) : Option Int × Store :=
  match st.pop with
  | (none, st1) => (none, st1)
  | (some (.other (.number n)), st1) => (some n, st1)
  | (some _, st1) => (none, st1.set_error .type_error "Expected number.")

/-- Modelled from the spec: `PopQuote` of the missing context class, as
`Context.pop_quote`. -/
def Store.pop_quote (st : Store) : Option Quote × Store :=
  match st.pop with
  | (none, st1) => (none, st1)
  | (some (.other (.quote q)), st1) => (some q, st1)
  | (some _, st1) => (none, st1.set_error .type_error "Expected quote.")

/-- Modelled from the spec: `PopBool` of the missing context class, as
`Context.pop_boolean`. -/
def Store.pop_boolean (st : Store) : Option Bool × Store :=
  match st.pop with
  | (none, st1) => (none, st1)
  | (some (.other (.boolean b)), st1) => (some b, st1)
  | (some _, st1) => (none, st1.set_error .type_error "Expected boolean.")

/-- Modelled from the spec: `PushArray` of the missing context class: a new
array object is made from the vector given, at the next free address, and the
reference to it is pushed. -/
def Store.push_array (st : Store) (elements : List Ref) : Store :=
  { st with arrays := st.arrays ++ [elements], stack := .array st.arrays.length :: st.stack }

/-- Every array object of `before` is at its address in `after`, with the
elements it had. -/
def Store.keeps (before after : Store) : Prop :=
  ∀ address : Nat, address < before.arrays.length →
    after.arrays.get? address = before.arrays.get? address

namespace Shared

/-- `w_reverse` (runtime-array.cpp:320-335) on the store. -/
def w_reverse (context : Store) : Store :=
  match context.pop_array with
  | (none, st1) => st1
  | (some array, st1) =>
      -- const std::vector<Ref<Value>>& elements = array->GetElements();
      let elements := st1.get_elements array
      st1.push_array elements.reverse

/-- `w_plus` (runtime-array.cpp:423-439) on the store. -/
def w_plus (context : Store) : Store :=
  match context.pop_array with
  | (none, st1) => st1
  | (some array_a, st1) =>
    match st1.pop_array with
    | (none, st2) => st2
    | (some array_b, st2) =>
        let a := st2.get_elements array_a
        let b := st2.get_elements array_b
        st2.push_array (([] ++ b) ++ a)

/-- `w_set` (runtime-array.cpp:393-416) on the store. The local `elements` is
declared as a vector, not as a reference to one, so it is a copy of the vector
of the array object; the assignment `elements[i] = value` and `push_back`
write to the copy. -/
def w_set (context : Store) : Store :=
  match context.pop_array with
  | (none, st1) => st1
  | (some array, st1) =>
    match st1.pop_number with
    | (none, st2) => st2
    | (some index, st2) =>
      match st2.pop with
      | (none, st3) => st3
      | (some value, st3) =>
        let elements := st3.get_elements array
        let i : Int := if index < 0 then to_int64 (index + elements.length) else index
        if i < 0 ∨ elements.length ≤ i.toNat then
          st3.push_array (elements ++ [value])
        else
          st3.push_array (elements.set i.toNat value)

/-- The loops of `w_times` on the store, as `Plorth.w_times_loop`. -/
def w_times_loop (elements : List Ref) : Nat → List Ref → List Ref
  | 0, result => result
  | turns + 1, result => w_times_loop elements turns (result ++ elements)

/-- `w_times` (runtime-array.cpp:446-482) on the store, as `Plorth.w_times`. -/
def w_times (max_size : Nat) (number_type_int : Bool) (context : Store) : Thrown Store :=
  match context.pop_array with
  | (none, st1) => .ret st1
  | (some array, st1) =>
    match st1.pop_number with
    | (none, st2) => .ret st2
    | (some number, st2) =>
      if number_type_int then
        let times : Int := number
        if max_size < ((((st2.get_elements array).length : Int) * times) % 2 ^ 64).toNat then
          .length_error st2
        else .ret (st2.push_array (w_times_loop (st2.get_elements array) times.toNat []))
      else
        let times : Int := number
        .ret (st2.push_array (w_times_loop (st2.get_elements array) times.toNat []))

/-- The `for` loop of `w_map` (runtime-array.cpp:231-241) on the store. The
elements are those of the array object as the loop finds them. -/
def w_map_loop (call : Quote → Store → Run (Bool × Store)) (quote : Quote) :
    List Ref → Store → List Ref → Run Store
  | [], context, result => .ret (context.push_array result)
  | element :: rest, context, result =>
    match call quote (context.push element) with
    | .ret (false, st1) => .ret st1
    | .ret (true, st1) =>
      match st1.pop with
      | (none, st2) => .ret st2
      | (some quote_result, st2) => w_map_loop call quote rest st2 (result ++ [quote_result])
    | .undefined => .undefined
    | .out_of_fuel => .out_of_fuel

/-- `w_map` (runtime-array.cpp:221-243) on the store. -/
def w_map (call : Quote → Store → Run (Bool × Store)) (context : Store) : Run Store :=
  match context.pop_array with
  | (none, st1) => .ret st1
  | (some array, st1) =>
    match st1.pop_quote with
    | (none, st2) => .ret st2
    | (some quote, st2) => w_map_loop call quote (st2.get_elements array) st2 []

/-- The `for` loop of `w_filter` (runtime-array.cpp:198-211) on the store. -/
def w_filter_loop (call : Quote → Store → Run (Bool × Store)) (quote : Quote) :
    List Ref → Store → List Ref → Run Store
  | [], context, result => .ret (context.push_array result)
  | element :: rest, context, result =>
    match call quote (context.push element) with
    | .ret (false, st1) => .ret st1
    | .ret (true, st1) =>
      match st1.pop_boolean with
      | (none, st2) => .ret st2
      | (some quote_result, st2) =>
          if quote_result then w_filter_loop call quote rest st2 (result ++ [element])
          else w_filter_loop call quote rest st2 result
    | .undefined => .undefined
    | .out_of_fuel => .out_of_fuel

/-- `w_filter` (runtime-array.cpp:188-213) on the store. -/
def w_filter (call : Quote → Store → Run (Bool × Store)) (context : Store) : Run Store :=
  match context.pop_array with
  | (none, st1) => .ret st1
  | (some array, st1) =>
    match st1.pop_quote with
    | (none, st2) => .ret st2
    | (some quote, st2) => w_filter_loop call quote (st2.get_elements array) st2 []

end Shared

/-- The store that a word ends with, whether it returns or throws. -/
def Thrown.get {α : Type} : Thrown α → α
  | .ret a => a
  | .length_error a => a

/-- The numbers of the error codes in the order in which the specification
lists them, for the examples. -/
def example_code_number : ErrorCode → Int
  | .syntax_error => 1
  | .reference_error => 2
  | .type_error => 3
  | .value_error => 4
  | .range_error => 5
  | .import_error => 6
  | .io_error => 7
  | .unknown_error => 8

/-! ## The bracket counter of the command line front end (main.cpp:401-449)

The input is the text of a C string, without its terminating NUL; the stack
`open_braces` is a list whose head is the top. A byte of a multi-byte UTF-8
sequence is none of the characters the function looks for, so the text may as
well be given by its code points. -/

/-- The `while (i < length)` loop of the case of the double quote
(main.cpp:434-446), started at index `i`; the result is the index at which the
loop is left. Each turn moves the index up, so `length + 1` turns are
enough. -/
def skip_string (input : List Char) : Nat → Nat → Nat
  | 0, i => i
  | fuel + 1, i =>
    if i < input.length then
      if input.getD i ' ' = '"' then i  -- break
      else if input.getD i ' ' = '\\' ∧ i + 1 < input.length then
        skip_string input fuel (i + 2)
      else skip_string input fuel (i + 1)
    else i

/-- The `for (i = 0; i < length; ++i)` loop of `count_open_braces`
(main.cpp:405-448) from index `i`. Each turn moves the index up, so
`length + 1` turns are enough. -/
def count_open_braces_loop (input : List Char) : Nat → Nat → List Char → List Char
  | 0, _, open_braces => open_braces
  | fuel + 1, i, open_braces =>
    if i < input.length then
      let c := input.getD i ' '
      if c = '#' then open_braces  -- return
      else if c = '(' then count_open_braces_loop input fuel (i + 1) (')' :: open_braces)
      else if c = '[' then count_open_braces_loop input fuel (i + 1) (']' :: open_braces)
      else if c = '\x7b' then count_open_braces_loop input fuel (i + 1) ('\x7d' :: open_braces)
      else if c = ')' ∨ c = ']' ∨ c = '\x7d' then
        match open_braces with
        | top :: below =>
            if top = c then count_open_braces_loop input fuel (i + 1) below
            else count_open_braces_loop input fuel (i + 1) open_braces
        | [] => count_open_braces_loop input fuel (i + 1) open_braces
      else if c = '"' then
        -- the while loop starts at the quote itself; `++i` of the for loop follows
        count_open_braces_loop input fuel (skip_string input (input.length + 1) i + 1)
          open_braces
      else count_open_braces_loop input fuel (i + 1) open_braces
    else open_braces

/-- `count_open_braces` (main.cpp:401-449). -/
def count_open_braces (input : List Char) (open_braces : List Char) : List Char :=
  count_open_braces_loop input (input.length + 1) 0 open_braces

/-- What one character that is not `#` does to the stack, read off the `switch`
of `count_open_braces`: an opening bracket pushes its closer, a closing
bracket pops when it is the top, any other character does nothing. -/
def bracket_step (c : Char) (open_braces : List Char) : List Char :=
  if c = '(' then ')' :: open_braces
  else if c = '[' then ']' :: open_braces
  else if c = '\x7b' then '\x7d' :: open_braces
  else if c = ')' ∨ c = ']' ∨ c = '\x7d' then
    match open_braces with
    | top :: below => if top = c then below else open_braces
    | [] => open_braces
  else open_braces

/-- The characters of a text taken one after the other up to the first `#`. -/
def bracket_scan : List Char → List Char → List Char
  | [], open_braces => open_braces
  | c :: rest, open_braces =>
      if c = '#' then open_braces else bracket_scan rest (bracket_step c open_braces)

/-- The lines of a text: the stretches between its line feeds. -/
def lines_of : List Char → List (List Char)
  | [] => [[]]
  | c :: rest =>
      if c = '\n' then [] :: lines_of rest
      else
        match lines_of rest with
        | line :: more => (c :: line) :: more
        | [] => [[c]]

/-- The closing bracket that an opening bracket expects. -/
def closer_of (c : Char) : Option Char :=
  if c = '(' then some ')' else if c = '[' then some ']'
  else if c = '\x7b' then some '\x7d' else none

/-- A character that is no bracket, no `#` and no double quote. -/
def plain_char (c : Char) : Prop :=
  c ≠ '(' ∧ c ≠ ')' ∧ c ≠ '[' ∧ c ≠ ']' ∧ c ≠ '\x7b' ∧ c ≠ '\x7d' ∧ c ≠ '#' ∧ c ≠ '"'

/-- A text without `#` and `"` whose brackets are properly nested and
balanced. -/
inductive Nested : List Char → Prop where
  | nil : Nested []
  | plain (c : Char) (t : List Char) : plain_char c → Nested t → Nested (c :: t)
  | bracket (o cl : Char) (a b : List Char) :
      closer_of o = some cl → Nested a → Nested b → Nested (o :: (a ++ cl :: b))

/-- A text without `#` and `"` that leaves openers unclosed; the list holds
the closers they expect, the one of the innermost opener first. -/
inductive Unclosed : List Char → List Char → Prop where
  | closed (t : List Char) : Nested t → Unclosed t []
  | opened (a : List Char) (o cl : Char) (b cs : List Char) :
      Nested a → closer_of o = some cl → Unclosed b cs → Unclosed (a ++ o :: b) (cs ++ [cl])

/-- Whether a character is plain can be computed. -/
instance plain_char_decidable (c : Char) : Decidable (plain_char c) := by
  unfold plain_char
  infer_instance

/-! ## The words `dip` and `2dip` (value-quote.cpp:797-858) -/

/-- `w_dip` (value-quote.cpp:813-824). The result of `quo->call(ctx)` is not
looked at. -/
def w_dip (rt : Runtime) (fuel : Nat) (ctx : Context) : Run Context :=
  match ctx.pop_quote with
  | (none, ctx1) => .ret ctx1
  | (some quo, ctx1) =>
    match ctx1.pop with
    | (none, ctx2) => .ret ctx2
    | (some val, ctx2) =>
      match Quote.call rt fuel quo ctx2 with
      | .ret (_, ctx3) => .ret (ctx3.push val)
      | .undefined => .undefined
      | .out_of_fuel => .out_of_fuel

/-- `w_2dip` (value-quote.cpp:844-858). -/
def w_2dip (rt : Runtime) (fuel : Nat) (ctx : Context) : Run Context :=
  match ctx.pop_quote with
  | (none, ctx1) => .ret ctx1
  | (some quo, ctx1) =>
    match ctx1.pop with
    | (none, ctx2) => .ret ctx2
    | (some val2, ctx2) =>
      match ctx2.pop with
      | (none, ctx3) => .ret ctx3
      | (some val1, ctx3) =>
        match Quote.call rt fuel quo ctx3 with
        | .ret (_, ctx4) => .ret ((ctx4.push val1).push val2)
        | .undefined => .undefined
        | .out_of_fuel => .out_of_fuel

/-! ## The word `filter` (runtime-array.cpp:188-213) -/

/-- The `for` loop of `w_filter` (runtime-array.cpp:198-211) over the elements
still to visit, with the vector `result` so far. -/
def w_filter_loop (call : Quote → Context → Run (Bool × Context)) (quote : Quote) :
    List Value → Context → List Value → Run Context
  | [], context, result => .ret (context.push_array result)
  | element :: rest, context, result =>
    match call quote (context.push element) with
    | .ret (false, ctx1) => .ret ctx1
    | .ret (true, ctx1) =>
      match ctx1.pop_boolean with
      | (none, ctx2) => .ret ctx2
      | (some quote_result, ctx2) =>
          if quote_result then w_filter_loop call quote rest ctx2 (result ++ [element])
          else w_filter_loop call quote rest ctx2 result
    | .undefined => .undefined
    | .out_of_fuel => .out_of_fuel

/-- `w_filter` (runtime-array.cpp:188-213): `filter ( quote ary -- ary )`. -/
def w_filter (call : Quote → Context → Run (Bool × Context)) (context : Context) :
    Run Context :=
  match context.pop_array with
  | (none, ctx1) => .ret ctx1
  | (some array, ctx1) =>
    match ctx1.pop_quote with
    | (none, ctx2) => .ret ctx2
    | (some quote, ctx2) => w_filter_loop call quote array ctx2 []

/-! ## The command line (cli/src/main.cpp:165-324)

An argument is the text of a C string, without its terminating NUL. The
position `offset` in `argv` is kept as the list of the arguments from `offset`
on: `offset < argc` says that this list is not empty, and `argv[offset++]`
takes its head. -/

/-- What the build fixes, and the decoding functions of a header that is not
part of the sources at hand: `PLORTH_ENABLE_MODULES`, `utf8_decode` and
`utf8_decode_test`. -/
structure Build where
  enable_modules : Bool
  utf8_decode : List Char → List Char
  utf8_decode_test : List Char → Option (List Char)

/-- The variables that `scan_arguments` writes to: the file-scope variables of
main.cpp:51-57 and the argument list of the runtime. -/
structure Options where
  script_filename : Option (List Char)
  flag_test_syntax : Bool
  flag_fork : Bool
  inline_script : List Char
  imported_modules : List (List Char)
  arguments : List (List Char)

/-- The variables as they are when `main` starts. -/
def initial_options : Options := ⟨none, false, false, [], [], []⟩

/-- The places of `scan_arguments` that end the process, named by what they
print before `std::exit`. -/
inductive ExitSite where
  | help  -- the usage on standard output for --help and -h (main.cpp:195-196, 266-267)
  | version  -- the version line for --version (main.cpp:200-201)
  | unrecognized_switch (text : List Char)  -- main.cpp:211-213 and 271-273
  | argument_expected_e  -- "Argument expected for the -e option." (main.cpp:230-232)
  | argument_expected_r  -- "Argument expected for the -r option." (main.cpp:253-255)
  | undecodable_module_path  -- "Unable to decode given module path." (main.cpp:248-249)
  | modules_disabled  -- "Modules have been disabled." (main.cpp:260-261)
deriving DecidableEq, Repr

/-- What a part of `scan_arguments` ends with: it goes on with `a`, or the
process ends through `std::exit(status)`, or the fuel of the model ran out. -/
inductive Scanned (α : Type) where
  | done (a : α)
  | exit (status : Nat) (site : ExitSite)
  | out_of_fuel
deriving DecidableEq, Repr

/-- `EX_USAGE` (main.cpp:45-47, and `sysexits.h`). -/
def EX_USAGE : Nat := 64

/-- `EXIT_SUCCESS` of `cstdlib`. -/
def EXIT_SUCCESS : Nat := 0

/-- `EXIT_FAILURE` of `cstdlib`. -/
def EXIT_FAILURE : Nat := 1

/-- `std::string::append(count, ch)`: `count` copies of `ch` are put behind the
text. -/
def string_append_fill (text : List Char) (count : Nat) (ch : Char) : List Char :=
  text ++ List.replicate count ch

/-- `imported_modules.insert(module_path)` on the set, kept as a list without
repetition. -/
def set_insert (set : List (List Char)) (module_path : List Char) : List (List Char) :=
  if module_path ∈ set then set else set ++ [module_path]

/-- The loop `for (int i = 1; arg[i]; ++i)` of `scan_arguments`
(main.cpp:216-275) over the characters of the argument from `arg[i]` on; `rest`
holds the arguments from `offset` on.

In `inline_script.append('\n', 1)` (main.cpp:228) the two arguments are a
`char` and an `int`; the overload of `std::string::append` that takes them is
`append(size_type count, char ch)`, so the call puts `count = '\n'`, that is
10, copies of the character `ch = 1` behind the text. -/
def scan_switches (b : Build) :
    List Char → List (List Char) → Options → Scanned (List (List Char) × Options)
  | [], rest, o => .done (rest, o)
  | c :: cs, rest, o =>
    if c = 'c' then scan_switches b cs rest { o with flag_test_syntax := true }
    else if c = 'e' then
      match rest with
      | program :: rest1 =>
          scan_switches b cs rest1
            { o with inline_script :=
                string_append_fill (o.inline_script ++ program) ('\n').toNat (Char.ofNat 1) }
      | [] => .exit EX_USAGE .argument_expected_e
    else if c = 'f' then scan_switches b cs rest { o with flag_fork := true }
    else if c = 'r' then
      if b.enable_modules then
        match rest with
        | path :: rest1 =>
            match b.utf8_decode_test path with
            | none => .exit EXIT_FAILURE .undecodable_module_path
            | some module_path =>
                scan_switches b cs rest1
                  { o with imported_modules := set_insert o.imported_modules module_path }
        | [] => .exit EX_USAGE .argument_expected_r
      else .exit EXIT_FAILURE .modules_disabled
    else if c = 'h' then .exit EXIT_SUCCESS .help
    else .exit EX_USAGE (.unrecognized_switch [c])

/-- The first `while (offset < argc)` loop of `scan_arguments`
(main.cpp:171-276); `rest` holds the arguments from `offset` on. Each turn
takes at least one argument, so one unit of fuel for each argument and one more
are enough. The result holds the arguments that are left when the loop ends. -/
def scan_loop (b : Build) :
    Nat → List (List Char) → Options → Scanned (List (List Char) × Options)
  | 0, _, _ => .out_of_fuel
  | _ + 1, [], o => .done ([], o)
  | fuel + 1, arg :: rest, o =>
    match arg with
    | [] => scan_loop b fuel rest o  -- `!*arg`: continue
    | c0 :: tail =>
      if c0 ≠ '-' then
        .done (rest, if o.inline_script.isEmpty then { o with script_filename := some arg } else o)
      else
        match tail with
        | [] => .done (rest, o)  -- `!arg[1]`: break
        | c1 :: _ =>
          if c1 = '-' then
            if arg = ['-', '-', 'h', 'e', 'l', 'p'] then .exit EXIT_SUCCESS .help
            else if arg = ['-', '-', 'v', 'e', 'r', 's', 'i', 'o', 'n'] then
              .exit EXIT_SUCCESS .version
            else if arg = ['-', '-'] then
              match rest with
              | file :: rest1 => .done (rest1, { o with script_filename := some file })
              | [] => .done (rest, o)
            else .exit EX_USAGE (.unrecognized_switch arg)
          else
            match scan_switches b tail rest o with
            | .done (rest1, o1) => scan_loop b fuel rest1 o1
            | .exit status site => .exit status site
            | .out_of_fuel => .out_of_fuel

/-- `scan_arguments` (main.cpp:165-282) on the argument vector `argv`, whose
first entry is the name of the program. The second loop (main.cpp:278-281)
puts the arguments that are left behind the argument list of the runtime. -/
def scan_arguments (b : Build) (argv : List (List Char)) (o : Options) : Scanned Options :=
  match scan_loop b (argv.length + 1) argv.tail o with
  | .done (rest, o1) => .done { o1 with arguments := o1.arguments ++ rest.map b.utf8_decode }
  | .exit status site => .exit status site
  | .out_of_fuel => .out_of_fuel

/-- The `for (; *end; ++end)` loop of `scan_module_path` (main.cpp:298-310) and
the test behind it (main.cpp:312-315), over the characters from `end` on;
`segment` holds the characters from `begin` to `end`. -/
def scan_module_path_loop (utf8_decode : List Char → List Char) (path_separator : Char) :
    List Char → List Char → List (List Char) → List (List Char)
  | [], segment, module_paths =>
      if segment.length > 0 then module_paths ++ [utf8_decode segment] else module_paths
  | c :: rest, segment, module_paths =>
      if c ≠ path_separator then
        scan_module_path_loop utf8_decode path_separator rest (segment ++ [c]) module_paths
      else
        scan_module_path_loop utf8_decode path_separator rest []
          (if segment.length > 0 then module_paths ++ [utf8_decode segment] else module_paths)

/-- `scan_module_path` (main.cpp:285-324) on the module paths of the runtime.
`plorthpath` is what `std::getenv("PLORTHPATH")` gives, `none` for a null
pointer; `library_path` is `PLORTH_RUNTIME_LIBRARY_PATH` when the build defines
it; `path_separator` is `;` on Windows and `:` elsewhere. -/
def scan_module_path (utf8_decode : List Char → List Char) (path_separator : Char)
    (library_path : Option (List Char)) (plorthpath : Option (List Char))
    (module_paths : List (List Char)) : List (List Char) :=
  let scanned : List (List Char) :=
    match plorthpath with
    | some text => scan_module_path_loop utf8_decode path_separator text [] module_paths
    | none => module_paths
  match library_path with
  | some path => if scanned.isEmpty then scanned ++ [path] else scanned
  | none => scanned

/-- The stretches of a text between its separators. -/
def segments_of (path_separator : Char) : List Char → List (List Char)
  | [] => [[]]
  | c :: rest =>
      if c = path_separator then [] :: segments_of path_separator rest
      else
        match segments_of path_separator rest with
        | segment :: more => (c :: segment) :: more
        | [] => [[c]]

/-- What the specification says of `PLORTHPATH`: its segments that are not
empty, in their order. -/
def path_entries (path_separator : Char) (text : List Char) : List (List Char) :=
  (segments_of path_separator text).filter (fun segment => !segment.isEmpty)

/-! ## What the specification says of an object literal -/

/-- The tokens of the entries `"k1" : v1 , "k2" : v2 , ...`, each entry given
by its key and the tokens of its value, with the token `colon` behind each key
and the token `sep` between each two entries. -/
def object_tokens (colon sep : Token) : List (String × List Token) → List Token
  | [] => []
  | [(key, c)] => ⟨.string, key⟩ :: colon :: c
  | (key, c) :: e2 :: es =>
      ⟨.string, key⟩ :: colon :: (c ++ sep :: object_tokens colon sep (e2 :: es))

/-- The value that the last entry with the key `key` has, if there is one. -/
def last_value (key : String) : List (String × Value) → Option Value
  | [] => none
  | (k, v) :: rest =>
      match last_value key rest with
      | some w => some w
      | none => if k == key then some v else none

/-- What the claim on the exit status calls a usage error: a switch that is
not recognized, or an `-e` or `-r` option with no argument behind it. -/
def ExitSite.usage_error : ExitSite → Bool
  | .unrecognized_switch _ => true
  | .argument_expected_e => true
  | .argument_expected_r => true
  | _ => false

/-- A token that is neither a word nor a colon: calling a compiled quote of
such tokens calls no word and declares none. -/
def literal_token (t : Token) : Prop := t.type ≠ .word ∧ t.type ≠ .colon

/-- Whether a token is a literal token can be computed. -/
instance literal_token_decidable (t : Token) : Decidable (literal_token t) := by
  unfold literal_token
  infer_instance

/-- The arguments `-e p1 -e p2 ...` for the program texts `p1, p2, ...`. -/
def inline_arguments : List (List Char) → List (List Char)
  | [] => []
  | program :: programs => ['-', 'e'] :: program :: inline_arguments programs

/-! # Theorems -/

/-! ## Equality of quotes -/

theorem Token.equals_iff (t u : Token) : Token.equals t u = true ↔ t = u := by
  cases t; cases u
  simp [Token.equals]

theorem tokens_equal_iff (ts us : List Token) (h : ts.length = us.length) :
    tokens_equal ts us = true ↔ ts = us := by
  induction ts generalizing us with
  | nil =>
    cases us with
    | nil => simp [tokens_equal]
    | cons u us => simp at h
  | cons t ts ih =>
    cases us with
    | nil => simp at h
    | cons u us =>
      have hl : ts.length = us.length := by simpa using h
      by_cases htu : t = u
      · subst htu
        have he : Token.equals t t = true := (Token.equals_iff t t).mpr rfl
        simp [tokens_equal, he, ih us hl]
      · have he : Token.equals t u = false := by
          cases hb : Token.equals t u
          · rfl
          · exact absurd ((Token.equals_iff t u).mp hb) htu
        simp [tokens_equal, he, htu]

theorem compiled_quote_compare_iff (ts us : List Token) :
    compiled_quote_compare ts us = true ↔ ts = us := by
  unfold compiled_quote_compare
  by_cases h : ts.length = us.length
  · simp [h, tokens_equal_iff ts us h]
  · have hne : ts ≠ us := fun e => h (by rw [e])
    simp [h, hne]

/-- C1 (refuted on the code): `compiled_quote::equals` answers `false` for
every pair of compiled quotes, whatever their token vectors, because its type
guard returns `false` when `that` is a compiled quote; the comparison behind
the guard, had it been reached, holds exactly for equal token vectors. So two
compiled quotes built from one token vector are not equal for the code. -/
theorem compiled_quote_equals_never_true :
    (∀ ts us : List Token, Quote.equals (.compiled ts) (.quote (.compiled us)) = .ret false) ∧
    (∀ ts : List Token,
      Value.equals (.quote (.compiled ts)) (.quote (.compiled ts)) = .ret false) ∧
    (∀ ts us : List Token, compiled_quote_compare ts us = true ↔ ts = us) := by
  refine ⟨fun ts us => ?_, fun ts => ?_, compiled_quote_compare_iff⟩
  · simp [Quote.equals]
  · simp [Value.equals, Quote.equals]

/-- C2 (refuted on the code): `constant_quote::equals` answers `false` for
every pair of constant quotes, whatever the values they wrap, because it asks
whether `that` is a negated quote; `constant(v)` does not equal `constant(v)`. -/
theorem constant_quote_equals_never_true :
    (∀ v w : Value, Quote.equals (.constant v) (.quote (.constant w)) = .ret false) ∧
    (∀ v : Value, Value.equals (.quote (.constant v)) (.quote (.constant v)) = .ret false) := by
  refine ⟨fun v w => ?_, fun v => ?_⟩
  · simp [Quote.equals]
  · simp [Value.equals, Quote.equals]

/-- C3 (refuted on the code): a curried quote over a compiled quote never
compares equal to itself, and a composed quote whose left part is a compiled
quote compares unequal to itself, because a compiled quote does not equal
itself; `1 () curry` and `() () compose` are such quotes. -/
theorem combinator_equals_not_reflexive :
    (∀ (a : Value) (ts : List Token),
      Quote.equals (.curried a (.compiled ts)) (.quote (.curried a (.compiled ts)))
        ≠ .ret true) ∧
    (∀ (ts : List Token) (r : Quote),
      Quote.equals (.composed (.compiled ts) r) (.quote (.composed (.compiled ts) r))
        = .ret false) ∧
    Quote.equals (.curried (.number 1) (.compiled []))
      (.quote (.curried (.number 1) (.compiled []))) = .ret false ∧
    Quote.equals (.composed (.compiled []) (.compiled []))
      (.quote (.composed (.compiled []) (.compiled []))) = .ret false := by
  refine ⟨fun a ts => ?_, fun ts r => ?_, ?_, ?_⟩
  · rw [Quote.equals]
    cases h : Value.equals a a with
    | ret b => cases b <;> simp [Quote.equals]
    | undefined => simp
    | out_of_fuel => simp
  · simp [Quote.equals]
  · simp [Quote.equals, Value.equals]
  · simp [Quote.equals]

/-- C4: `native_quote::equals` is identity. For every native quote object `i`
and every value `x`, `equals` returns `true` exactly when `x` is that object
and `false` otherwise; two native quote objects `i ≠ j` are unequal, also when
the runtime gives both the same callback. -/
theorem native_quote_equals_identity (rt : Runtime) (i j : Nat) (x : Value) :
    (Quote.equals (.native i) x = .ret true ↔ x = .quote (.native i)) ∧
    (Quote.equals (.native i) x = .ret false ↔ x ≠ .quote (.native i)) ∧
    (i ≠ j → rt.callbacks i = rt.callbacks j →
      Quote.equals (.native i) (.quote (.native j)) = .ret false) := by
  refine ⟨?_, ?_, fun hij _ => ?_⟩
  · cases x with
    | quote q =>
      cases q <;> simp [Quote.equals]
      exact eq_comm
    | _ => simp [Quote.equals]
  · cases x with
    | quote q =>
      cases q <;> simp [Quote.equals]
      exact ⟨fun h e => h e.symm, fun h e => h e.symm⟩
    | _ => simp [Quote.equals]
  · simp [Quote.equals, hij]

/-! ## Round trip of quote literals -/

theorem compiled_quote_equals_ne_true (ts : List Token) (that : Value) :
    Quote.equals (.compiled ts) that ≠ .ret true := by
  cases that with
  | quote q => cases q <;> simp [Quote.equals]
  | _ => simp [Quote.equals]

/-- C5 (refuted on the code): whatever the tokenizer makes of the source form
of a quote that `parse_quote` produced, the value parsed from those tokens
never compares equal to the quote: `equals` of a compiled quote returns `true`
for no value at all. -/
theorem quote_literal_round_trip_never_equal (rt : Runtime)
    (tokenize : String → Option (List Token))
    (ctx ctx1 ctx2 : Context) (it rest toks rest2 : List Token) (ts : List Token) (v : Value)
    (_hq : parse_quote ctx it = (some (.compiled ts), ctx1, rest))
    (_htok : tokenize (compiled_quote_to_source rt.json_stringify ts) = some toks)
    (_hv : parse_value rt ctx1 toks = .ret (some v, ctx2, rest2)) :
    Value.equals (.quote (.compiled ts)) v ≠ .ret true := by
  rw [Value.equals]
  exact compiled_quote_equals_ne_true ts v

/-- The quote `( dup * )`: its source form is `(dup *)`, whose tokens parse to
a quote with the same token vector, and the two do not compare equal. -/
theorem quote_literal_round_trip_witness :
    compiled_quote_to_source bare_runtime.json_stringify [⟨.word, "dup"⟩, ⟨.word, "*"⟩]
      = "(dup *)" ∧
    parse_value bare_runtime empty_context
      [⟨.lparen, ""⟩, ⟨.word, "dup"⟩, ⟨.word, "*"⟩, ⟨.rparen, ""⟩]
      = .ret (some (.quote (.compiled [⟨.word, "dup"⟩, ⟨.word, "*"⟩])), empty_context, []) ∧
    Value.equals (.quote (.compiled [⟨.word, "dup"⟩, ⟨.word, "*"⟩]))
      (.quote (.compiled [⟨.word, "dup"⟩, ⟨.word, "*"⟩])) ≠ .ret true :=
  ⟨by decide, by rfl,
    quote_literal_round_trip_never_equal bare_runtime
      (fun s => if s = "(dup *)" then
        some [⟨.lparen, ""⟩, ⟨.word, "dup"⟩, ⟨.word, "*"⟩, ⟨.rparen, ""⟩] else none)
      empty_context empty_context empty_context
      [⟨.word, "dup"⟩, ⟨.word, "*"⟩, ⟨.rparen, ""⟩] []
      [⟨.lparen, ""⟩, ⟨.word, "dup"⟩, ⟨.word, "*"⟩, ⟨.rparen, ""⟩] []
      [⟨.word, "dup"⟩, ⟨.word, "*"⟩] _ (by rfl) (by decide) (by rfl)⟩

/-! ## Calling composed and negated quotes -/

/-- C7: `composed_quote::call`. If calling the left quote fails, the call
returns `false` with the context exactly as the left quote left it, whatever
the right quote is (it is not called); if the left quote succeeds, the result
and the final context are those of calling the right quote on the context the
left quote produced. -/
theorem composed_quote_call (rt : Runtime) (fuel : Nat) (left right : Quote)
    (ctx ctx1 : Context) (b : Bool)
    (hleft : Quote.call rt fuel left ctx = .ret (b, ctx1)) :
    (b = false → Quote.call rt (fuel + 1) (.composed left right) ctx = .ret (false, ctx1)) ∧
    (b = true →
      Quote.call rt (fuel + 1) (.composed left right) ctx = Quote.call rt fuel right ctx1) := by
  constructor
  · intro hb
    subst hb
    rw [Quote.call, hleft]
  · intro hb
    subst hb
    rw [Quote.call, hleft]

/-- On the bare runtime, `() compose` of a constant quote pushing `true` and
one pushing `false` runs both in order. -/
theorem composed_quote_call_witness :
    (true = false →
      Quote.call bare_runtime 2
        (.composed (.constant (.boolean true)) (.constant (.boolean false))) empty_context
        = .ret (false, empty_context.push (.boolean true))) ∧
    (true = true →
      Quote.call bare_runtime 2
        (.composed (.constant (.boolean true)) (.constant (.boolean false))) empty_context
        = Quote.call bare_runtime 1 (.constant (.boolean false))
            (empty_context.push (.boolean true))) :=
  composed_quote_call bare_runtime 1 (.constant (.boolean true)) (.constant (.boolean false))
    empty_context (empty_context.push (.boolean true)) true (by rfl)

/-- `pop_boolean` on a stack whose top is a boolean. -/
theorem pop_boolean_of_boolean (ctx : Context) (b : Bool) (s : List Value)
    (h : ctx.stack = .boolean b :: s) :
    ctx.pop_boolean = (some b, { ctx with stack := s }) := by
  simp [Context.pop_boolean, Context.pop, h]

/-- `pop_boolean` on a stack whose top is not a boolean. -/
theorem pop_boolean_of_other (ctx : Context) (v : Value) (s : List Value)
    (h : ctx.stack = v :: s) (hv : ∀ b, v ≠ .boolean b) :
    ctx.pop_boolean =
      (none, ({ ctx with stack := s } : Context).set_error .type_error "Expected boolean.") := by
  cases v with
  | boolean b => exact absurd rfl (hv b)
  | _ => simp [Context.pop_boolean, Context.pop, h]

/-- C8: `negated_quote::call`. (1) If the inner quote fails, the call fails
and the context is as the inner quote left it. (2) If the inner quote succeeds
with a boolean `b` on top of the stack, the call succeeds and the stack is the
inner quote's with `b` replaced by `!b`. (3) If the inner quote succeeds with
a top value that is not a boolean, the call fails with a Type error latched.
(4) Negating twice: when the inner quote succeeds with a boolean on top,
`negate(negate(q))` succeeds with the context `q` produced. -/
theorem negated_quote_call (rt : Runtime) (fuel : Nat) (q : Quote) (ctx ctx1 : Context)
    (ok : Bool) (hq : Quote.call rt fuel q ctx = .ret (ok, ctx1)) :
    (ok = false → Quote.call rt (fuel + 1) (.negated q) ctx = .ret (false, ctx1)) ∧
    (∀ (b : Bool) (s : List Value), ok = true → ctx1.stack = .boolean b :: s →
      Quote.call rt (fuel + 1) (.negated q) ctx
        = .ret (true, { ctx1 with stack := .boolean (!b) :: s })) ∧
    (∀ (v : Value) (s : List Value), ok = true → ctx1.stack = v :: s →
      (∀ b, v ≠ .boolean b) →
      ∃ ctx2 message, Quote.call rt (fuel + 1) (.negated q) ctx = .ret (false, ctx2) ∧
        ctx2.error = some (.type_error, message)) ∧
    (∀ (b : Bool) (s : List Value), ok = true → ctx1.stack = .boolean b :: s →
      Quote.call rt (fuel + 2) (.negated (.negated q)) ctx = .ret (true, ctx1)) := by
  refine ⟨?_, ?_, ?_, ?_⟩
  · intro hok
    subst hok
    rw [Quote.call, hq]
  · intro b s hok hs
    subst hok
    rw [Quote.call, hq]
    simp [pop_boolean_of_boolean ctx1 b s hs, Context.push_boolean, Context.push]
  · intro v s hok hs hv
    subst hok
    refine ⟨({ ctx1 with stack := s } : Context).set_error .type_error "Expected boolean.",
      "Expected boolean.", ?_, ?_⟩
    · rw [Quote.call, hq]
      simp only [pop_boolean_of_other ctx1 v s hs hv]
    · simp [Context.set_error]
  · intro b s hok hs
    subst hok
    have h1 : Quote.call rt (fuel + 1) (.negated q) ctx
        = .ret (true, { ctx1 with stack := .boolean (!b) :: s }) := by
      rw [Quote.call, hq]
      simp [pop_boolean_of_boolean ctx1 b s hs, Context.push_boolean, Context.push]
    rw [Quote.call, h1]
    simp [Context.pop_boolean, Context.pop, Context.push_boolean, Context.push]
    cases ctx1
    simp at hs
    simp [hs]

/-- The witness of C8. -/
theorem negated_quote_call_witness :
    Quote.call bare_runtime 2 (.negated (.constant (.boolean true))) empty_context
      = .ret (true, { empty_context.push (.boolean true) with stack := [.boolean (!true)] }) ∧
    Quote.call bare_runtime 3 (.negated (.negated (.constant (.boolean true)))) empty_context
      = .ret (true, empty_context.push (.boolean true)) ∧
    (∃ ctx2 message,
      Quote.call bare_runtime 2 (.negated (.constant (.number 1))) empty_context
        = .ret (false, ctx2) ∧ ctx2.error = some (.type_error, message)) :=
  ⟨(negated_quote_call bare_runtime 1 (.constant (.boolean true)) empty_context
      (empty_context.push (.boolean true)) true (by rfl)).2.1 true [] rfl rfl,
   (negated_quote_call bare_runtime 1 (.constant (.boolean true)) empty_context
      (empty_context.push (.boolean true)) true (by rfl)).2.2.2 true [] rfl rfl,
   (negated_quote_call bare_runtime 1 (.constant (.number 1)) empty_context
      (empty_context.push (.number 1)) true (by rfl)).2.2.1 (.number 1) [] rfl rfl
      (fun b h => by cases h)⟩

/-! ## Closing tokens at top level -/

/-- C9: when the loop of `compiled_quote::call` comes to a closing paren,
closing bracket, closing brace, comma or semicolon, it returns `false` at
once, whatever tokens follow: the context is the one the tokens before it left,
with a Syntax error naming the token latched; stack and dictionary are as they
were. A quote that begins with such a token fails in this way when called. -/
theorem compiled_quote_call_unexpected_token (rt : Runtime) (fuel : Nat) (ctx : Context)
    (token : Token) (rest : List Token)
    (h : token.type = .rparen ∨ token.type = .rbrack ∨ token.type = .rbrace ∨
      token.type = .comma ∨ token.type = .semicolon) :
    compiled_quote_loop rt (fuel + 1) ctx (token :: rest)
      = .ret (false,
          { stack := ctx.stack, dictionary := ctx.dictionary,
            error := some (.syntax_error,
              "Unexpected \x60" ++ token.to_source rt.json_stringify ++ "'") }) ∧
    Quote.call rt (fuel + 2) (.compiled (token :: rest)) ctx
      = compiled_quote_loop rt (fuel + 1) ctx (token :: rest) := by
  constructor
  · rcases h with h | h | h | h | h <;> rw [compiled_quote_loop] <;> simp [h, Context.set_error]
  · rw [Quote.call]

/-- The program `) 1`: the closing paren fails, `1` is never reached. -/
theorem compiled_quote_call_unexpected_token_witness :
    compiled_quote_loop bare_runtime 1 empty_context [⟨.rparen, ""⟩, ⟨.word, "1"⟩]
      = .ret (false,
          { stack := [], dictionary := [],
            error := some (.syntax_error, "Unexpected \x60)'") }) :=
  (compiled_quote_call_unexpected_token bare_runtime 0 empty_context ⟨.rparen, ""⟩
    [⟨.word, "1"⟩] (Or.inl rfl)).1

/-! ## `parse_quote` and paren nesting -/

theorem count_type_nil (ty : TokenType) : count_type ty [] = 0 := rfl

theorem count_type_cons (ty : TokenType) (t : Token) (ts : List Token) :
    count_type ty (t :: ts) = (if t.type = ty then 1 else 0) + count_type ty ts := by
  unfold count_type
  by_cases h : t.type = ty
  · simp [List.filter_cons, h]; omega
  · simp [List.filter_cons, h]

theorem closes_at_one_iff (body : List Token) : closes_at 1 body ↔ paren_balanced body := by
  unfold closes_at paren_balanced
  constructor
  · rintro ⟨h1, h2⟩
    exact ⟨fun p s e => by have := h1 p s e; omega, by omega⟩
  · rintro ⟨h1, h2⟩
    exact ⟨fun p s e => by have := h1 p s e; omega, by omega⟩

theorem closes_at_tail (c d : Int) (t : Token) (body : List Token)
    (hd : d = c + (if t.type = .lparen then 1 else 0) - (if t.type = .rparen then 1 else 0))
    (h : closes_at c (t :: body)) : closes_at d body := by
  obtain ⟨h1, h2⟩ := h
  constructor
  · intro p s e
    have := h1 (t :: p) s (by rw [e]; rfl)
    rw [count_type_cons, count_type_cons] at this
    push_cast at this
    omega
  · rw [count_type_cons, count_type_cons] at h2
    push_cast at h2
    omega

theorem closes_at_cons (c d : Int) (t : Token) (body : List Token) (hc : 1 ≤ c)
    (hd : d = c + (if t.type = .lparen then 1 else 0) - (if t.type = .rparen then 1 else 0))
    (h : closes_at d body) : closes_at c (t :: body) := by
  obtain ⟨h1, h2⟩ := h
  constructor
  · intro p s e
    cases p with
    | nil => simp [count_type_nil]; omega
    | cons u p =>
      simp only [List.cons_append, List.cons.injEq] at e
      obtain ⟨rfl, e⟩ := e
      have := h1 p s e
      rw [count_type_cons, count_type_cons]
      push_cast
      omega
  · rw [count_type_cons, count_type_cons]
    push_cast
    omega

theorem parse_quote_loop_lparen (t : Token) (it : List Token) (c : Int) (acc : List Token)
    (hl : t.type = .lparen) :
    parse_quote_loop (t :: it) c acc = parse_quote_loop it (c + 1) (acc ++ [t]) := by
  rw [parse_quote_loop]
  simp [hl]

theorem parse_quote_loop_rparen (t : Token) (it : List Token) (c : Int) (acc : List Token)
    (hr : t.type = .rparen) (hc : c - 1 ≠ 0) :
    parse_quote_loop (t :: it) c acc = parse_quote_loop it (c - 1) (acc ++ [t]) := by
  rw [parse_quote_loop]
  simp [hr, hc]

theorem parse_quote_loop_break (t : Token) (it : List Token) (c : Int) (acc : List Token)
    (hr : t.type = .rparen) (hc : c - 1 = 0) :
    parse_quote_loop (t :: it) c acc = (it, 0, acc) := by
  rw [parse_quote_loop]
  simp [hr, hc]

theorem parse_quote_loop_other (t : Token) (it : List Token) (c : Int) (acc : List Token)
    (hl : ¬ t.type = .lparen) (hr : ¬ t.type = .rparen) :
    parse_quote_loop (t :: it) c acc = parse_quote_loop it c (acc ++ [t]) := by
  rw [parse_quote_loop]
  simp [hl, hr]

theorem parse_quote_loop_closes (body : List Token) (close : Token) (rest : List Token)
    (hclose : close.type = .rparen) :
    ∀ (c : Int) (acc : List Token), 1 ≤ c → closes_at c body →
      parse_quote_loop (body ++ close :: rest) c acc = (rest, 0, acc ++ body) := by
  induction body with
  | nil =>
    intro c acc hc h
    have hc1 : c = 1 := by
      have := h.2
      simp [count_type_nil] at this
      omega
    subst hc1
    rw [List.nil_append, parse_quote_loop_break close rest 1 acc hclose (by norm_num)]
    simp
  | cons t body ih =>
    intro c acc hc h
    have hpre := h.1 [t] body rfl
    rw [count_type_cons, count_type_cons, count_type_nil, count_type_nil] at hpre
    by_cases hl : t.type = .lparen
    · have hr : ¬ t.type = .rparen := by rw [hl]; decide
      have htail := closes_at_tail c (c + 1) t body (by simp [hl]) h
      rw [List.cons_append, parse_quote_loop_lparen t _ c acc hl,
        ih (c + 1) (acc ++ [t]) (by omega) htail]
      simp
    · by_cases hr : t.type = .rparen
      · simp only [hl, hr, if_true, if_false] at hpre
        push_cast at hpre
        have hc2 : c - 1 ≠ 0 := by omega
        have htail := closes_at_tail c (c - 1) t body (by simp [hr]) h
        rw [List.cons_append, parse_quote_loop_rparen t _ c acc hr hc2,
          ih (c - 1) (acc ++ [t]) (by omega) htail]
        simp
      · have htail := closes_at_tail c c t body (by simp [hl, hr]) h
        rw [List.cons_append, parse_quote_loop_other t _ c acc hl hr,
          ih c (acc ++ [t]) hc htail]
        simp

theorem parse_quote_loop_unmatched (toks : List Token) :
    ∀ (c : Int) (acc : List Token), 1 ≤ c →
      (∃ c1 acc1, parse_quote_loop toks c acc = ([], c1, acc1) ∧ 1 ≤ c1) ∨
      (∃ body close rest, toks = body ++ close :: rest ∧ close.type = .rparen ∧
        closes_at c body) := by
  induction toks with
  | nil =>
    intro c acc hc
    exact Or.inl ⟨c, acc, by simp [parse_quote_loop], hc⟩
  | cons t toks ih =>
    intro c acc hc
    by_cases hl : t.type = .lparen
    · have hr : ¬ t.type = .rparen := by rw [hl]; decide
      rcases ih (c + 1) (acc ++ [t]) (by omega) with ⟨c1, acc1, h, h1⟩ | ⟨body, close, rest, e, hcl, hb⟩
      · exact Or.inl ⟨c1, acc1, by rw [parse_quote_loop_lparen t _ c acc hl, h], h1⟩
      · exact Or.inr ⟨t :: body, close, rest, by rw [e]; rfl, hcl,
          closes_at_cons c (c + 1) t body hc (by simp [hl]) hb⟩
    · by_cases hr : t.type = .rparen
      · by_cases hc0 : c - 1 = 0
        · refine Or.inr ⟨[], t, toks, rfl, hr, ?_, ?_⟩
          · intro p s e
            have hp : p = [] := by
              cases p with
              | nil => rfl
              | cons u p => simp at e
            subst hp
            simp [count_type_nil]; omega
          · simp [count_type_nil]; omega
        · rcases ih (c - 1) (acc ++ [t]) (by omega) with
            ⟨c1, acc1, h, h1⟩ | ⟨body, close, rest, e, hcl, hb⟩
          · exact Or.inl ⟨c1, acc1,
              by rw [parse_quote_loop_rparen t _ c acc hr hc0, h], h1⟩
          · exact Or.inr ⟨t :: body, close, rest, by rw [e]; rfl, hcl,
              closes_at_cons c (c - 1) t body hc (by simp [hr]) hb⟩
      · rcases ih c (acc ++ [t]) hc with ⟨c1, acc1, h, h1⟩ | ⟨body, close, rest, e, hcl, hb⟩
        · exact Or.inl ⟨c1, acc1, by rw [parse_quote_loop_other t _ c acc hl hr, h], h1⟩
        · exact Or.inr ⟨t :: body, close, rest, by rw [e]; rfl, hcl,
            closes_at_cons c c t body hc (by simp [hl, hr]) hb⟩

/-- C10: `parse_quote` on the tokens behind an opening paren. If they are
`body`, then the closing paren that matches the opening one, then `rest`, the
function returns the compiled quote with token vector `body`, latches nothing
and leaves the iterator at `rest`. If no closing paren matches, it returns the
null reference, latches the Syntax error "Unterminated quote." and leaves the
iterator at the end. -/
theorem parse_quote_matching (ctx : Context) (it : List Token) :
    (∀ body close rest, it = body ++ close :: rest → close.type = .rparen →
      paren_balanced body →
      parse_quote ctx it = (some (.compiled body), ctx, rest)) ∧
    ((¬ ∃ body close rest, it = body ++ close :: rest ∧ close.type = .rparen ∧
        paren_balanced body) →
      parse_quote ctx it = (none, ctx.set_error .syntax_error "Unterminated quote.", [])) := by
  constructor
  · intro body close rest e hclose hb
    subst e
    unfold parse_quote
    rw [parse_quote_loop_closes body close rest hclose 1 [] (le_refl 1)
      ((closes_at_one_iff body).mpr hb)]
    simp
  · intro hno
    rcases parse_quote_loop_unmatched it 1 [] (le_refl 1) with
      ⟨c1, acc1, h, h1⟩ | ⟨body, close, rest, e, hcl, hb⟩
    · unfold parse_quote
      rw [h]
      have : c1 > 0 := by omega
      simp [this]
    · exact absurd ⟨body, close, rest, e, hcl, (closes_at_one_iff body).mp hb⟩ hno

/-! ## The return value of a call and the error slot -/

theorem error_tracks_fail (ctx ctx0 : Context) (code : ErrorCode) (message : String) :
    error_tracks ctx0 false (ctx.set_error code message) := by
  simp [error_tracks, Context.set_error]

theorem error_tracks_refl (ctx : Context) : error_tracks ctx true ctx := by
  simp [error_tracks]

theorem error_tracks_trans (ctx ctx1 ctx2 : Context) (ok : Bool)
    (h1 : error_tracks ctx true ctx1) (h2 : error_tracks ctx1 ok ctx2) :
    error_tracks ctx ok ctx2 := by
  unfold error_tracks at *
  refine ⟨h2.1, fun h => ?_⟩
  rw [h2.2 h, h1.2 rfl]

theorem parse_quote_error_tracks (ctx ctx1 : Context) (it it1 : List Token) (r : Option Quote)
    (h : parse_quote ctx it = (r, ctx1, it1)) : error_tracks ctx r.isSome ctx1 := by
  unfold parse_quote at h
  split at h
  split at h
  · simp only [Prod.mk.injEq] at h
    obtain ⟨rfl, rfl, -⟩ := h
    exact error_tracks_fail _ _ _ _
  · simp only [Prod.mk.injEq] at h
    obtain ⟨rfl, rfl, -⟩ := h
    exact error_tracks_refl _

theorem pop_error_tracks (ctx ctx1 : Context) (r : Option Value) (h : ctx.pop = (r, ctx1)) :
    error_tracks ctx r.isSome ctx1 := by
  unfold Context.pop at h
  split at h
  · simp only [Prod.mk.injEq] at h
    obtain ⟨rfl, rfl⟩ := h
    exact error_tracks_fail _ _ _ _
  · simp only [Prod.mk.injEq] at h
    obtain ⟨rfl, rfl⟩ := h
    simp [error_tracks]

theorem parse_declaration_error_tracks (ctx ctx1 : Context) (it it1 : List Token) (ok : Bool)
    (h : parse_declaration ctx it = .ret (ok, ctx1, it1)) : error_tracks ctx ok ctx1 := by
  unfold parse_declaration at h
  split at h
  · simp at h
  · split at h
    · simp only [Run.ret.injEq, Prod.mk.injEq] at h
      obtain ⟨rfl, rfl, -⟩ := h
      exact error_tracks_fail _ _ _ _
    · split at h
      · simp only [Run.ret.injEq, Prod.mk.injEq] at h
        obtain ⟨rfl, rfl, -⟩ := h
        exact error_tracks_fail _ _ _ _
      · split at h
        split at h
        · simp only [Run.ret.injEq, Prod.mk.injEq] at h
          obtain ⟨rfl, rfl, -⟩ := h
          exact error_tracks_fail _ _ _ _
        · simp only [Run.ret.injEq, Prod.mk.injEq] at h
          obtain ⟨rfl, rfl, -⟩ := h
          simp [error_tracks, Context.declare]

theorem parse_fuel_error_tracks (rt : Runtime) (fuel : Nat) :
    (∀ ctx it r ctx1 it1, parse_value_fuel rt fuel ctx it = .ret (r, ctx1, it1) →
      error_tracks ctx r.isSome ctx1) ∧
    (∀ ctx it els r ctx1 it1, parse_array_fuel rt fuel ctx it els = .ret (r, ctx1, it1) →
      error_tracks ctx r.isSome ctx1) ∧
    (∀ ctx it ps r ctx1 it1, parse_object_fuel rt fuel ctx it ps = .ret (r, ctx1, it1) →
      error_tracks ctx r.isSome ctx1) := by
  induction fuel with
  | zero =>
    refine ⟨?_, ?_, ?_⟩
    · intro ctx it r ctx1 it1 h
      simp [parse_value_fuel] at h
    · intro ctx it els r ctx1 it1 h
      simp [parse_array_fuel] at h
    · intro ctx it ps r ctx1 it1 h
      simp [parse_object_fuel] at h
  | succ fuel ih =>
    obtain ⟨ihv, iha, iho⟩ := ih
    refine ⟨?_, ?_, ?_⟩
    · intro ctx it r ctx1 it1 h
      cases it with
      | nil => simp [parse_value_fuel] at h
      | cons token it =>
        rw [parse_value_fuel] at h
        split at h
        · simp only [Run.ret.injEq, Prod.mk.injEq] at h
          obtain ⟨rfl, rfl, -⟩ := h
          exact error_tracks_refl _
        · split at h
          · rename_i hq
            simp only [Run.ret.injEq, Prod.mk.injEq] at h
            obtain ⟨rfl, rfl, -⟩ := h
            exact parse_quote_error_tracks _ _ _ _ _ hq
          · rename_i hq
            simp only [Run.ret.injEq, Prod.mk.injEq] at h
            obtain ⟨rfl, rfl, -⟩ := h
            exact parse_quote_error_tracks _ _ _ _ _ hq
        · exact iha _ _ _ _ _ _ h
        · exact iho _ _ _ _ _ _ h
        · split at h
          · simp only [Run.ret.injEq, Prod.mk.injEq] at h
            obtain ⟨rfl, rfl, -⟩ := h
            exact error_tracks_refl _
          · split at h
            · simp only [Run.ret.injEq, Prod.mk.injEq] at h
              obtain ⟨rfl, rfl, -⟩ := h
              exact error_tracks_refl _
            · split at h
              · simp only [Run.ret.injEq, Prod.mk.injEq] at h
                obtain ⟨rfl, rfl, -⟩ := h
                exact error_tracks_refl _
              · split at h
                · split at h
                  · rename_i hp
                    simp only [Run.ret.injEq, Prod.mk.injEq] at h
                    obtain ⟨rfl, rfl, -⟩ := h
                    exact pop_error_tracks _ _ _ hp
                  · rename_i hp
                    simp only [Run.ret.injEq, Prod.mk.injEq] at h
                    obtain ⟨rfl, rfl, -⟩ := h
                    exact pop_error_tracks _ _ _ hp
                · split at h
                  · simp only [Run.ret.injEq, Prod.mk.injEq] at h
                    obtain ⟨rfl, rfl, -⟩ := h
                    exact error_tracks_refl _
                  · simp only [Run.ret.injEq, Prod.mk.injEq] at h
                    obtain ⟨rfl, rfl, -⟩ := h
                    exact error_tracks_fail _ _ _ _
        · simp only [Run.ret.injEq, Prod.mk.injEq] at h
          obtain ⟨rfl, rfl, -⟩ := h
          exact error_tracks_fail _ _ _ _
    · intro ctx it els r ctx1 it1 h
      unfold parse_array_fuel at h
      split at h
      · simp only [Run.ret.injEq, Prod.mk.injEq] at h
        obtain ⟨rfl, rfl, -⟩ := h
        exact error_tracks_fail _ _ _ _
      · split at h
        · simp only [Run.ret.injEq, Prod.mk.injEq] at h
          obtain ⟨rfl, rfl, -⟩ := h
          exact error_tracks_refl _
        · split at h
          · rename_i hv
            simp only [Run.ret.injEq, Prod.mk.injEq] at h
            obtain ⟨rfl, rfl, -⟩ := h
            exact ihv _ _ _ _ _ hv
          · rename_i hv
            have hv1 := ihv _ _ _ _ _ hv
            split at h
            · simp only [Run.ret.injEq, Prod.mk.injEq] at h
              obtain ⟨rfl, rfl, -⟩ := h
              exact error_tracks_fail _ _ _ _
            · split at h
              · exact error_tracks_trans _ _ _ _ hv1 (iha _ _ _ _ _ _ h)
              · split at h
                · simp only [Run.ret.injEq, Prod.mk.injEq] at h
                  obtain ⟨rfl, rfl, -⟩ := h
                  exact error_tracks_fail _ _ _ _
                · exact error_tracks_trans _ _ _ _ hv1 (iha _ _ _ _ _ _ h)
          · simp at h
          · simp at h
    · intro ctx it ps r ctx1 it1 h
      unfold parse_object_fuel at h
      split at h
      · simp only [Run.ret.injEq, Prod.mk.injEq] at h
        obtain ⟨rfl, rfl, -⟩ := h
        exact error_tracks_fail _ _ _ _
      · split at h
        · simp only [Run.ret.injEq, Prod.mk.injEq] at h
          obtain ⟨rfl, rfl, -⟩ := h
          exact error_tracks_refl _
        · split at h
          · simp only [Run.ret.injEq, Prod.mk.injEq] at h
            obtain ⟨rfl, rfl, -⟩ := h
            exact error_tracks_fail _ _ _ _
          · split at h
            · simp only [Run.ret.injEq, Prod.mk.injEq] at h
              obtain ⟨rfl, rfl, -⟩ := h
              exact error_tracks_fail _ _ _ _
            · split at h
              · simp only [Run.ret.injEq, Prod.mk.injEq] at h
                obtain ⟨rfl, rfl, -⟩ := h
                exact error_tracks_fail _ _ _ _
              · split at h
                · rename_i hv
                  simp only [Run.ret.injEq, Prod.mk.injEq] at h
                  obtain ⟨rfl, rfl, -⟩ := h
                  exact ihv _ _ _ _ _ hv
                · rename_i hv
                  have hv1 := ihv _ _ _ _ _ hv
                  split at h
                  · simp only [Run.ret.injEq, Prod.mk.injEq] at h
                    obtain ⟨rfl, rfl, -⟩ := h
                    exact error_tracks_fail _ _ _ _
                  · split at h
                    · exact error_tracks_trans _ _ _ _ hv1 (iho _ _ _ _ _ _ h)
                    · split at h
                      · simp only [Run.ret.injEq, Prod.mk.injEq] at h
                        obtain ⟨rfl, rfl, -⟩ := h
                        exact error_tracks_fail _ _ _ _
                      · exact error_tracks_trans _ _ _ _ hv1 (iho _ _ _ _ _ _ h)
                · simp at h
                · simp at h

theorem pop_boolean_error_tracks (ctx ctx1 : Context) (r : Option Bool)
    (h : ctx.pop_boolean = (r, ctx1)) : error_tracks ctx r.isSome ctx1 := by
  unfold Context.pop_boolean at h
  split at h
  · rename_i hp
    simp only [Prod.mk.injEq] at h
    obtain ⟨rfl, rfl⟩ := h
    exact pop_error_tracks _ _ _ hp
  · rename_i hp
    simp only [Prod.mk.injEq] at h
    obtain ⟨rfl, rfl⟩ := h
    exact pop_error_tracks _ _ _ hp
  · simp only [Prod.mk.injEq] at h
    obtain ⟨rfl, rfl⟩ := h
    exact error_tracks_fail _ _ _ _

theorem parse_value_error_tracks (rt : Runtime) (ctx ctx1 : Context) (it it1 : List Token)
    (r : Option Value) (h : parse_value rt ctx it = .ret (r, ctx1, it1)) :
    error_tracks ctx r.isSome ctx1 :=
  (parse_fuel_error_tracks rt (parse_fuel it)).1 ctx it r ctx1 it1 h

theorem reports_error_of_tracks (ctx ctx1 : Context) (ok : Bool)
    (h : error_tracks ctx ok ctx1) : reports_error ctx ok ctx1 := by
  intro h0
  cases ok with
  | true => simp [h.2 rfl, h0]
  | false => simpa using h.1 rfl

theorem reports_error_step (ctx ctx1 ctx2 : Context) (ok : Bool)
    (h1 : error_tracks ctx true ctx1) (h2 : reports_error ctx1 ok ctx2) :
    reports_error ctx ok ctx2 := by
  intro h0
  exact h2 (by rw [h1.2 rfl, h0])

theorem reports_error_seq (ctx ctx1 ctx2 : Context) (ok : Bool)
    (h1 : reports_error ctx true ctx1) (h2 : reports_error ctx1 ok ctx2) :
    reports_error ctx ok ctx2 := by
  intro h0
  exact h2 ((h1 h0).mp rfl)

theorem call_reports_error (rt : Runtime) (fuel : Nat) :
    (∀ q ctx ok ctx1, Quote.call rt fuel q ctx = .ret (ok, ctx1) → reports_error ctx ok ctx1) ∧
    (∀ ctx toks ok ctx1, compiled_quote_loop rt fuel ctx toks = .ret (ok, ctx1) →
      reports_error ctx ok ctx1) ∧
    (∀ ctx name ok ctx1, Context.call rt fuel ctx name = .ret (ok, ctx1) →
      reports_error ctx ok ctx1) := by
  induction fuel with
  | zero =>
    refine ⟨?_, ?_, ?_⟩
    · intro q ctx ok ctx1 h
      simp [Quote.call] at h
    · intro ctx toks ok ctx1 h
      cases toks with
      | nil =>
        simp only [compiled_quote_loop, Run.ret.injEq, Prod.mk.injEq] at h
        obtain ⟨rfl, rfl⟩ := h
        exact reports_error_of_tracks _ _ _ (error_tracks_refl _)
      | cons t ts => simp [compiled_quote_loop] at h
    · intro ctx name ok ctx1 h
      simp [Context.call] at h
  | succ fuel ih =>
    obtain ⟨ihq, ihl, ihc⟩ := ih
    refine ⟨?_, ?_, ?_⟩
    · intro q ctx ok ctx1 h
      cases q with
      | compiled tokens =>
        rw [Quote.call] at h
        exact ihl _ _ _ _ h
      | native id =>
        rw [Quote.call] at h
        split at h
        · simp only [Run.ret.injEq, Prod.mk.injEq] at h
          obtain ⟨rfl, rfl⟩ := h
          intro _
          simp
        · simp at h
        · simp at h
      | curried argument quote =>
        rw [Quote.call] at h
        exact reports_error_step ctx (ctx.push argument) ctx1 ok
          (by simp [error_tracks, Context.push]) (ihq _ _ _ _ h)
      | composed left right =>
        rw [Quote.call] at h
        split at h
        · rename_i hl
          exact reports_error_seq _ _ _ _ (ihq _ _ _ _ hl) (ihq _ _ _ _ h)
        · rename_i hl
          simp only [Run.ret.injEq, Prod.mk.injEq] at h
          obtain ⟨rfl, rfl⟩ := h
          exact ihq _ _ _ _ hl
        · simp at h
        · simp at h
      | negated quote =>
        rw [Quote.call] at h
        split at h
        · rename_i hq
          simp only [Run.ret.injEq, Prod.mk.injEq] at h
          obtain ⟨rfl, rfl⟩ := h
          exact ihq _ _ _ _ hq
        · rename_i hq
          split at h
          · rename_i hp
            simp only [Run.ret.injEq, Prod.mk.injEq] at h
            obtain ⟨rfl, rfl⟩ := h
            exact reports_error_seq _ _ _ _ (ihq _ _ _ _ hq)
              (reports_error_of_tracks _ _ _ (pop_boolean_error_tracks _ _ _ hp))
          · rename_i hp
            simp only [Run.ret.injEq, Prod.mk.injEq] at h
            obtain ⟨rfl, rfl⟩ := h
            have hpop := pop_boolean_error_tracks _ _ _ hp
            exact reports_error_seq _ _ _ _ (ihq _ _ _ _ hq)
              (reports_error_of_tracks _ _ _
                (by simpa [error_tracks, Context.push_boolean, Context.push] using hpop))
        · simp at h
        · simp at h
      | constant value =>
        rw [Quote.call] at h
        simp only [Run.ret.injEq, Prod.mk.injEq] at h
        obtain ⟨rfl, rfl⟩ := h
        exact reports_error_of_tracks _ _ _ (by simp [error_tracks, Context.push])
    · intro ctx toks ok ctx1 h
      cases toks with
      | nil =>
        simp only [compiled_quote_loop, Run.ret.injEq, Prod.mk.injEq] at h
        obtain ⟨rfl, rfl⟩ := h
        exact reports_error_of_tracks _ _ _ (error_tracks_refl _)
      | cons token rest =>
        rw [compiled_quote_loop] at h
        split at h
        iterate 4
          · split at h
            · rename_i hv
              simp only [Run.ret.injEq, Prod.mk.injEq] at h
              obtain ⟨rfl, rfl⟩ := h
              exact reports_error_of_tracks _ _ _ (parse_value_error_tracks _ _ _ _ _ _ hv)
            · rename_i hv
              have hv1 := parse_value_error_tracks _ _ _ _ _ _ hv
              exact reports_error_step _ _ _ _
                (by simpa [error_tracks, Context.push] using hv1) (ihl _ _ _ _ h)
            · simp at h
            · simp at h
        · split at h
          · rename_i hd
            simp only [Run.ret.injEq, Prod.mk.injEq] at h
            obtain ⟨rfl, rfl⟩ := h
            exact reports_error_of_tracks _ _ _ (parse_declaration_error_tracks _ _ _ _ _ hd)
          · rename_i hd
            exact reports_error_step _ _ _ _
              (parse_declaration_error_tracks _ _ _ _ _ hd) (ihl _ _ _ _ h)
          · simp at h
          · simp at h
        · split at h
          · rename_i hc
            simp only [Run.ret.injEq, Prod.mk.injEq] at h
            obtain ⟨rfl, rfl⟩ := h
            exact ihc _ _ _ _ hc
          · rename_i hc
            exact reports_error_seq _ _ _ _ (ihc _ _ _ _ hc) (ihl _ _ _ _ h)
          · simp at h
          · simp at h
        iterate 5
          · simp only [Run.ret.injEq, Prod.mk.injEq] at h
            obtain ⟨rfl, rfl⟩ := h
            exact reports_error_of_tracks _ _ _ (error_tracks_fail _ _ _ _)
    · intro ctx name ok ctx1 h
      rw [Context.call] at h
      split at h
      · exact ihq _ _ _ _ h
      · simp only [Run.ret.injEq, Prod.mk.injEq] at h
        obtain ⟨rfl, rfl⟩ := h
        exact reports_error_of_tracks _ _ _ (by simp [error_tracks, Context.push])
      · split at h
        · simp only [Run.ret.injEq, Prod.mk.injEq] at h
          obtain ⟨rfl, rfl⟩ := h
          exact reports_error_of_tracks _ _ _ (by simp [error_tracks, Context.push])
        · simp only [Run.ret.injEq, Prod.mk.injEq] at h
          obtain ⟨rfl, rfl⟩ := h
          exact reports_error_of_tracks _ _ _ (error_tracks_fail _ _ _ _)

/-- C6 (as the code has it): for every quote of every variant and every
context in which no error is latched when the call begins, a call that
returns, returns `true` if and only if no error is latched in the error slot
when it returns. -/
theorem call_true_iff_no_error (rt : Runtime) (fuel : Nat) (q : Quote) (ctx ctx1 : Context)
    (ok : Bool) (hclean : ctx.error = none)
    (hcall : Quote.call rt fuel q ctx = .ret (ok, ctx1)) :
    ok = true ↔ ctx1.error = none :=
  (call_reports_error rt fuel).1 q ctx ok ctx1 hcall hclean

/-- Negating a constant quote that pushes the number 1 starts without an
error and returns `false` with an error latched. -/
theorem call_true_iff_no_error_witness :
    empty_context.error = none ∧
    Quote.call bare_runtime 2 (.negated (.constant (.number 1))) empty_context
      = .ret (false, ⟨[], [], some (.type_error, "Expected boolean.")⟩) ∧
    (false = true ↔
      (⟨[], [], some (.type_error, "Expected boolean.")⟩ : Context).error = none) :=
  ⟨rfl, by rfl,
    call_true_iff_no_error bare_runtime 2 (.negated (.constant (.number 1))) empty_context
      ⟨[], [], some (.type_error, "Expected boolean.")⟩ false rfl (by rfl)⟩

/-- C6 (the claim as stated fails): a constant quote called on a context
whose error slot holds an error returns `true` and the error is still latched
when it returns. -/
theorem call_true_with_error_latched :
    Quote.call bare_runtime 1 (.constant (.boolean true))
        ⟨[], [], some (.type_error, "latched before the call")⟩
      = .ret (true, ⟨[.boolean true], [], some (.type_error, "latched before the call")⟩) ∧
    ¬ (∀ (rt : Runtime) (fuel : Nat) (q : Quote) (ctx ctx1 : Context) (ok : Bool),
        Quote.call rt fuel q ctx = .ret (ok, ctx1) → (ok = true ↔ ctx1.error = none)) := by
  refine ⟨by rfl, fun h => ?_⟩
  have h1 := h bare_runtime 1 (.constant (.boolean true))
    ⟨[], [], some (.type_error, "latched before the call")⟩
    ⟨[.boolean true], [], some (.type_error, "latched before the call")⟩ true (by rfl)
  simp at h1

/-- Two native quote objects that wrap the same callback are not equal. -/
theorem native_quote_equals_identity_witness :
    Quote.equals (.native 0) (.quote (.native 1)) = .ret false :=
  (native_quote_equals_identity bare_runtime 0 1 (.quote (.native 1))).2.2 (by decide) rfl

/-- The tokens `a ( b ) c ) d` behind an opening paren give the quote
`(a ( b ) c)` and leave `d`; the tokens `a ( b )` give no quote. -/
theorem parse_quote_matching_witness :
    parse_quote empty_context
        [⟨.word, "a"⟩, ⟨.lparen, ""⟩, ⟨.word, "b"⟩, ⟨.rparen, ""⟩, ⟨.word, "c"⟩,
          ⟨.rparen, ""⟩, ⟨.word, "d"⟩]
      = (some (.compiled
          [⟨.word, "a"⟩, ⟨.lparen, ""⟩, ⟨.word, "b"⟩, ⟨.rparen, ""⟩, ⟨.word, "c"⟩]),
        empty_context, [⟨.word, "d"⟩]) ∧
    parse_quote empty_context [⟨.word, "a"⟩, ⟨.lparen, ""⟩, ⟨.word, "b"⟩, ⟨.rparen, ""⟩]
      = (none, empty_context.set_error .syntax_error "Unterminated quote.", []) := by
  constructor
  · refine (parse_quote_matching empty_context _).1
      [⟨.word, "a"⟩, ⟨.lparen, ""⟩, ⟨.word, "b"⟩, ⟨.rparen, ""⟩, ⟨.word, "c"⟩]
      ⟨.rparen, ""⟩ [⟨.word, "d"⟩] rfl rfl ⟨fun p s e => ?_, by decide⟩
    have hall : ∀ p ∈ List.inits
        [(⟨.word, "a"⟩ : Token), ⟨.lparen, ""⟩, ⟨.word, "b"⟩, ⟨.rparen, ""⟩, ⟨.word, "c"⟩],
        count_type .rparen p ≤ count_type .lparen p := by decide
    exact hall p ((List.mem_inits _ _).mpr ⟨s, e.symm⟩)
  · refine (parse_quote_matching empty_context _).2 ?_
    rintro ⟨body, close, rest, e, hc, hb⟩
    have h := (parse_quote_matching empty_context _).1 body close rest e hc hb
    rw [show parse_quote empty_context
        [⟨.word, "a"⟩, ⟨.lparen, ""⟩, ⟨.word, "b"⟩, ⟨.rparen, ""⟩]
        = (none, empty_context.set_error .syntax_error "Unterminated quote.", []) from rfl] at h
    simp at h

/-! ## Declaring words -/

theorem dictionary_find_set_same (name : String) (v : Value) (d : List (String × Value)) :
    dictionary_find name (dictionary_set name v d) = some v := by
  induction d with
  | nil => simp [dictionary_set, dictionary_find]
  | cons e d ih =>
    obtain ⟨k, w⟩ := e
    by_cases h : k = name
    · simp [dictionary_set, dictionary_find, h]
    · simp [dictionary_set, dictionary_find, h, ih]

theorem dictionary_find_set_other (name other : String) (v : Value)
    (d : List (String × Value)) (h : other ≠ name) :
    dictionary_find other (dictionary_set name v d) = dictionary_find other d := by
  induction d with
  | nil => simp [dictionary_set, dictionary_find, Ne.symm h]
  | cons e d ih =>
    obtain ⟨k, w⟩ := e
    by_cases hk : k = name
    · subst hk
      simp [dictionary_set, dictionary_find, Ne.symm h]
    · by_cases ho : k = other
      · subst ho
        simp [dictionary_set, dictionary_find, hk]
      · simp [dictionary_set, dictionary_find, hk, ho, ih]

/-- C18: `word::exec`. For every word (symbol, quote) and every context,
executing the word returns `true`; afterwards the dictionary of the context
maps the symbol to the quote of the word, every other name is looked up as
before, and the operand stack and the error slot are unchanged. The word
`define` does this with the word it pops from the stack. -/
theorem word_exec_installs (m_symbol : String) (m_quote : Quote) (ctx : Context) :
    (word_exec m_symbol m_quote ctx).1 = true ∧
    dictionary_find m_symbol (word_exec m_symbol m_quote ctx).2.dictionary
      = some (.quote m_quote) ∧
    (∀ other, other ≠ m_symbol →
      dictionary_find other (word_exec m_symbol m_quote ctx).2.dictionary
        = dictionary_find other ctx.dictionary) ∧
    (word_exec m_symbol m_quote ctx).2.stack = ctx.stack ∧
    (word_exec m_symbol m_quote ctx).2.error = ctx.error ∧
    (∀ s, ctx.stack = .word m_symbol m_quote :: s →
      w_define ctx = (word_exec m_symbol m_quote { ctx with stack := s }).2) := by
  refine ⟨rfl, ?_, ?_, rfl, rfl, ?_⟩
  · exact dictionary_find_set_same _ _ _
  · intro other h
    exact dictionary_find_set_other _ _ _ _ h
  · intro s hs
    simp [w_define, Context.pop_word, Context.pop, hs]

/-! ## Array words -/

/-- C19: `w_plus`. With an array `a` on top of the stack and an array `b`
below it, `+` replaces the two by one array that holds the elements of `b` in
order followed by the elements of `a` in order; its length is the sum of the
two lengths, and the rest of the context is unchanged. -/
theorem w_plus_concatenates (context : Context) (a b : List Value) (s : List Value)
    (hstack : context.stack = .array a :: .array b :: s) :
    w_plus context = { context with stack := .array (b ++ a) :: s } ∧
    (b ++ a).length = a.length + b.length := by
  constructor
  · simp [w_plus, Context.pop_array, Context.pop, hstack, Context.push_array, Context.push]
  · simp [Nat.add_comm]

/-- The stack `[1] [2 3]` (the second on top) becomes `[1 2 3]`. -/
theorem w_plus_concatenates_witness :
    w_plus ⟨[.array [.number 2, .number 3], .array [.number 1]], [], none⟩
      = ⟨[.array [.number 1, .number 2, .number 3]], [], none⟩ :=
  (w_plus_concatenates ⟨[.array [.number 2, .number 3], .array [.number 1]], [], none⟩
    [.number 2, .number 3] [.number 1] [] rfl).1

theorem to_int64_of_range (x : Int) (h1 : -2 ^ 63 ≤ x) (h2 : x < 2 ^ 63) : to_int64 x = x := by
  unfold to_int64
  have : (x + 2 ^ 63) % 2 ^ 64 = x + 2 ^ 63 := Int.emod_eq_of_lt (by omega) (by omega)
  omega

/-- C20: `w_get`. With an array of `n` elements on top of the stack and an
index `i` (a 64-bit integer) below it: if `0 ≤ i < n` the element at position
`i` is pushed, if `-n ≤ i < 0` the element at position `i + n` is pushed, both
without an error; for every other `i` nothing is pushed and a Range error is
latched. The call never reads outside the array. -/
theorem w_get_index (context : Context) (elements s : List Value) (i : Int)
    (hstack : context.stack = .array elements :: .number i :: s)
    (hmin : -2 ^ 63 ≤ i) (hmax : i < 2 ^ 63) (hsize : (elements.length : Int) < 2 ^ 63) :
    (0 ≤ i → i < elements.length →
      ∃ v, elements.get? i.toNat = some v ∧
        w_get context = .ret { context with stack := v :: s }) ∧
    (i < 0 → -(elements.length : Int) ≤ i →
      ∃ v, elements.get? (i + elements.length).toNat = some v ∧
        w_get context = .ret { context with stack := v :: s }) ∧
    ((elements.length : Int) ≤ i ∨ i < -(elements.length : Int) →
      w_get context = .ret ⟨s, context.dictionary,
        some (.range_error, "Array index out of bounds.")⟩) ∧
    w_get context ≠ .undefined := by
  have hpop : ∀ j : Int, (if i < 0 then to_int64 (i + elements.length) else i) = j →
      w_get context =
        if j < 0 ∨ elements.length ≤ j.toNat then
          .ret (({ context with stack := s } : Context).set_error .range_error
            "Array index out of bounds.")
        else
          match elements.get? j.toNat with
          | some element => .ret (({ context with stack := s } : Context).push element)
          | none => .undefined := by
    intro j hj
    subst hj
    simp [w_get, Context.pop_array, Context.pop_number, Context.pop, hstack]
  have hwrap : i < 0 → to_int64 (i + elements.length) = i + elements.length := fun hneg =>
    to_int64_of_range _ (by omega) (by omega)
  have hpos : ¬ i < 0 → w_get context =
      if i < 0 ∨ elements.length ≤ i.toNat then
        .ret (({ context with stack := s } : Context).set_error .range_error
          "Array index out of bounds.")
      else
        match elements.get? i.toNat with
        | some element => .ret (({ context with stack := s } : Context).push element)
        | none => .undefined := fun hneg => hpop i (if_neg hneg)
  have hnegative : i < 0 → w_get context =
      if i + elements.length < 0 ∨ elements.length ≤ (i + elements.length).toNat then
        .ret (({ context with stack := s } : Context).set_error .range_error
          "Array index out of bounds.")
      else
        match elements.get? (i + elements.length).toNat with
        | some element => .ret (({ context with stack := s } : Context).push element)
        | none => .undefined := fun hneg =>
    hpop (i + elements.length) (by rw [if_pos hneg, hwrap hneg])
  refine ⟨?_, ?_, ?_, ?_⟩
  · intro h0 hn
    have hlt : i.toNat < elements.length := by omega
    refine ⟨elements.get ⟨i.toNat, hlt⟩, List.get?_eq_get hlt, ?_⟩
    rw [hpos (by omega), if_neg (by omega), List.get?_eq_get hlt]
    rfl
  · intro hneg hn
    have hlt : (i + elements.length).toNat < elements.length := by omega
    refine ⟨elements.get ⟨(i + elements.length).toNat, hlt⟩, List.get?_eq_get hlt, ?_⟩
    rw [hnegative hneg, if_neg (by omega), List.get?_eq_get hlt]
    rfl
  · intro hout
    by_cases hneg : i < 0
    · rw [hnegative hneg, if_pos (by omega)]
      rfl
    · rw [hpos hneg, if_pos (by omega)]
      rfl
  · by_cases hneg : i < 0
    · rw [hnegative hneg]
      by_cases hcond : i + elements.length < 0 ∨
          elements.length ≤ (i + elements.length).toNat
      · rw [if_pos hcond]
        simp
      · have hlt : (i + elements.length).toNat < elements.length := by omega
        rw [if_neg hcond, List.get?_eq_get hlt]
        simp
    · rw [hpos hneg]
      by_cases hcond : i < 0 ∨ elements.length ≤ i.toNat
      · rw [if_pos hcond]
        simp
      · have hlt : i.toNat < elements.length := by omega
        rw [if_neg hcond, List.get?_eq_get hlt]
        simp

/-- The index -1 into an array of three elements gives the last one. -/
theorem w_get_index_witness :
    w_get ⟨[.array [.number 10, .number 20, .number 30], .number (-1)], [], none⟩
      = .ret ⟨[.number 30], [], none⟩ := by
  obtain ⟨v, hv, h⟩ := (w_get_index
    ⟨[.array [.number 10, .number 20, .number 30], .number (-1)], [], none⟩
    [.number 10, .number 20, .number 30] [] (-1) rfl (by norm_num) (by norm_num)
    (by norm_num)).2.1 (by norm_num) (by norm_num)
  simp at hv
  subst hv
  exact h

/-! ## Tokens that are no value -/

theorem parse_value_cons (rt : Runtime) (ctx : Context) (token : Token) (it : List Token) :
    parse_value rt ctx (token :: it)
      = parse_value_fuel rt (2 * it.length + 3 + 1) ctx (token :: it) := rfl

theorem parse_array_eq (rt : Runtime) (ctx : Context) (it : List Token) :
    parse_array rt ctx it = parse_array_fuel rt (2 * it.length + 1 + 1) ctx it [] := rfl

theorem parse_object_eq (rt : Runtime) (ctx : Context) (it : List Token) :
    parse_object rt ctx it = parse_object_fuel rt (2 * it.length + 1 + 1) ctx it [] := rfl

/-- C14: `parse_value` on a closing paren, closing bracket, closing brace,
comma or semicolon returns `false`, leaves no value, and latches the Syntax
error whose message is "Unexpected", the source form of that very token in
quotes, and ", missing value."; the iterator has moved past the token. -/
theorem parse_value_unexpected_token (rt : Runtime) (ctx : Context) (token : Token)
    (it : List Token)
    (h : token.type = .rparen ∨ token.type = .rbrack ∨ token.type = .rbrace ∨
      token.type = .comma ∨ token.type = .semicolon) :
    parse_value rt ctx (token :: it)
      = .ret (none,
          ctx.set_error .syntax_error
            ("Unexpected \x60" ++ token.to_source rt.json_stringify ++ "', missing value."),
          it) ∧
    (token.to_source rt.json_stringify = ")" ∨ token.to_source rt.json_stringify = "]" ∨
      token.to_source rt.json_stringify = "\x7d" ∨ token.to_source rt.json_stringify = "," ∨
      token.to_source rt.json_stringify = ";") := by
  constructor
  · rw [parse_value_cons, parse_value_fuel]
    rcases h with h | h | h | h | h <;> simp [h]
  · rcases h with h | h | h | h | h <;> simp [Token.to_source, h]

/-- A comma where a value is expected. -/
theorem parse_value_unexpected_token_witness :
    parse_value bare_runtime empty_context [⟨.comma, ""⟩, ⟨.word, "1"⟩]
      = .ret (none,
          ⟨[], [], some (.syntax_error, "Unexpected \x60,', missing value.")⟩,
          [⟨.word, "1"⟩]) :=
  (parse_value_unexpected_token bare_runtime empty_context ⟨.comma, ""⟩ [⟨.word, "1"⟩]
    (Or.inr (Or.inr (Or.inr (Or.inl rfl))))).1

/-- C13 (as the code has it): `parse_value` on a word token whose text is none
of `null`, `true`, `false`, `drop` and is not a number returns `false` and
latches the Syntax error "Unexpected", the word in quotes, ", missing value.".
A word is left to the execution phase only at the top level of a compiled
quote, where the loop of `compiled_quote::call` hands its text to the `call`
of the context and `parse_value` is not involved. -/
theorem parse_value_word_reference (rt : Runtime) (fuel : Nat) (ctx : Context) (token : Token)
    (it : List Token) (hword : token.type = .word)
    (hnull : token.text ≠ "null") (htrue : token.text ≠ "true")
    (hfalse : token.text ≠ "false") (hdrop : token.text ≠ "drop")
    (hnumber : rt.is_number token.text = false) :
    parse_value rt ctx (token :: it)
      = .ret (none,
          ctx.set_error .syntax_error ("Unexpected \x60" ++ token.text ++ "', missing value."),
          it) ∧
    compiled_quote_loop rt (fuel + 1) ctx (token :: it)
      = (match Context.call rt fuel ctx token.text with
        | .ret (false, ctx1) => .ret (false, ctx1)
        | .ret (true, ctx1) => compiled_quote_loop rt fuel ctx1 it
        | .undefined => .undefined
        | .out_of_fuel => .out_of_fuel) := by
  constructor
  · rw [parse_value_cons, parse_value_fuel]
    simp [hword, hnull, htrue, hfalse, hdrop, hnumber, Token.to_source]
  · rw [compiled_quote_loop]
    simp [hword]

/-- The word `foo` in value position. -/
theorem parse_value_word_reference_witness :
    parse_value bare_runtime empty_context [⟨.word, "foo"⟩]
      = .ret (none, ⟨[], [], some (.syntax_error, "Unexpected \x60foo', missing value.")⟩, []) :=
  (parse_value_word_reference bare_runtime 0 empty_context ⟨.word, "foo"⟩ [] rfl
    (by decide) (by decide) (by decide) (by decide) rfl).1

/-- C13 (the claim as stated fails): in the array literal `[ foo ]` the word
`foo` is in value position; `parse_value` fails on it and a Syntax error is
latched. -/
theorem parse_value_word_latches_error :
    parse_value bare_runtime empty_context [⟨.word, "foo"⟩]
      = .ret (none, ⟨[], [], some (.syntax_error, "Unexpected \x60foo', missing value.")⟩, [])
    ∧
    Quote.call bare_runtime 2 (.compiled [⟨.lbrack, ""⟩, ⟨.word, "foo"⟩, ⟨.rbrack, ""⟩])
        empty_context
      = .ret (false,
          ⟨[], [], some (.syntax_error, "Unexpected \x60foo', missing value.")⟩) := by
  constructor <;> rfl

/-! ## Keys of an object literal -/

/-- C12: `parse_object` at a key position, whatever properties it has
collected before. A token that is neither a string nor the closing brace, a
key that is the last token, and a key followed by a token that is not a colon
each make it return the null reference with a Syntax error latched. The same
holds at the first key position of `parse_object` itself. -/
theorem parse_object_key_errors (rt : Runtime) (fuel : Nat) (ctx : Context) (token : Token)
    (it : List Token) (properties : List (String × Value)) :
    (token.type ≠ .string → token.type ≠ .rbrace →
      parse_object_fuel rt (fuel + 1) ctx (token :: it) properties
        = .ret (none, ctx.set_error .syntax_error "Missing key for object literal.",
            token :: it) ∧
      parse_object rt ctx (token :: it)
        = .ret (none, ctx.set_error .syntax_error "Missing key for object literal.",
            token :: it)) ∧
    (token.type = .string →
      parse_object_fuel rt (fuel + 1) ctx [token] properties
        = .ret (none, ctx.set_error .syntax_error "Missing \x60:' after key of an object.", []) ∧
      parse_object rt ctx [token]
        = .ret (none, ctx.set_error .syntax_error "Missing \x60:' after key of an object.", [])) ∧
    (∀ next, token.type = .string → next.type ≠ .colon →
      parse_object_fuel rt (fuel + 1) ctx (token :: next :: it) properties
        = .ret (none, ctx.set_error .syntax_error "Missing \x60:' after key of an object.", it) ∧
      parse_object rt ctx (token :: next :: it)
        = .ret (none, ctx.set_error .syntax_error "Missing \x60:' after key of an object.",
            it)) := by
  refine ⟨fun hs hb => ⟨?_, ?_⟩, fun hs => ⟨?_, ?_⟩, fun next hs hc => ⟨?_, ?_⟩⟩
  · simp [parse_object_fuel, hs, hb]
  · rw [parse_object_eq]
    simp [parse_object_fuel, hs, hb]
  · simp [parse_object_fuel, hs]
  · rw [parse_object_eq]
    simp [parse_object_fuel, hs]
  · simp [parse_object_fuel, hs, hc]
  · rw [parse_object_eq]
    simp [parse_object_fuel, hs, hc]

/-- An object literal whose first key is the word `1`, one that ends behind
the key `"a"`, and one with the string `"b"` behind the key `"a"`. -/
theorem parse_object_key_errors_witness :
    parse_object bare_runtime empty_context
        [⟨.word, "1"⟩, ⟨.colon, ""⟩, ⟨.word, "2"⟩, ⟨.rbrace, ""⟩]
      = .ret (none, ⟨[], [], some (.syntax_error, "Missing key for object literal.")⟩,
          [⟨.word, "1"⟩, ⟨.colon, ""⟩, ⟨.word, "2"⟩, ⟨.rbrace, ""⟩]) ∧
    parse_object bare_runtime empty_context [⟨.string, "a"⟩]
      = .ret (none,
          ⟨[], [], some (.syntax_error, "Missing \x60:' after key of an object.")⟩, []) ∧
    parse_object bare_runtime empty_context [⟨.string, "a"⟩, ⟨.string, "b"⟩, ⟨.rbrace, ""⟩]
      = .ret (none,
          ⟨[], [], some (.syntax_error, "Missing \x60:' after key of an object.")⟩,
          [⟨.rbrace, ""⟩]) :=
  ⟨((parse_object_key_errors bare_runtime 0 empty_context ⟨.word, "1"⟩
      [⟨.colon, ""⟩, ⟨.word, "2"⟩, ⟨.rbrace, ""⟩] []).1 (by decide) (by decide)).2,
   ((parse_object_key_errors bare_runtime 0 empty_context ⟨.string, "a"⟩ [] []).2.1 rfl).2,
   ((parse_object_key_errors bare_runtime 0 empty_context ⟨.string, "a"⟩ [⟨.rbrace, ""⟩]
      []).2.2 ⟨.string, "b"⟩ rfl (by decide)).2⟩

/-! ## The word `drop` in value position -/

/-- C15: `parse_value` on the word `drop`. With a value `v` on top of the
stack `s`, it returns `v` as the parsed value and leaves the stack `s`; hence
calling the quote made of the array literal `[1, 2, drop, 3]` replaces `v` by
the array of 1, 2, `v`, 3. On an empty stack it returns `false`, gives no
value and latches a Range error. -/
theorem parse_value_drop (rt : Runtime) (fuel : Nat) (ctx : Context) (it : List Token) :
    (∀ v s, ctx.stack = v :: s →
      parse_value rt ctx (⟨.word, "drop"⟩ :: it) = .ret (some v, { ctx with stack := s }, it)) ∧
    (∀ v s, ctx.stack = v :: s →
      rt.is_number "1" = true → rt.is_number "2" = true → rt.is_number "3" = true →
      Quote.call rt (fuel + 2)
          (.compiled [⟨.lbrack, ""⟩, ⟨.word, "1"⟩, ⟨.comma, ""⟩, ⟨.word, "2"⟩, ⟨.comma, ""⟩,
            ⟨.word, "drop"⟩, ⟨.comma, ""⟩, ⟨.word, "3"⟩, ⟨.rbrack, ""⟩]) ctx
        = .ret (true, { ctx with
            stack := .array [rt.number "1", rt.number "2", v, rt.number "3"] :: s })) ∧
    (ctx.stack = [] →
      ∃ message, parse_value rt ctx (⟨.word, "drop"⟩ :: it)
        = .ret (none, ctx.set_error .range_error message, it)) := by
  refine ⟨fun v s hs => ?_, fun v s hs h1 h2 h3 => ?_, fun hs => ?_⟩
  · rw [parse_value_cons, parse_value_fuel]
    simp [Context.pop, hs]
  · rw [Quote.call, compiled_quote_loop]
    simp [parse_value, parse_fuel, parse_value_fuel, parse_array_fuel, Context.pop, hs, h1, h2,
      h3, Context.push, compiled_quote_loop]
  · refine ⟨"Stack underflow.", ?_⟩
    rw [parse_value_cons, parse_value_fuel]
    simp [Context.pop, hs]

/-- The array literal `[1, 2, drop, 3]` on a stack that holds the string `v`. -/
theorem parse_value_drop_witness :
    Quote.call arith_runtime 2
        (.compiled [⟨.lbrack, ""⟩, ⟨.word, "1"⟩, ⟨.comma, ""⟩, ⟨.word, "2"⟩, ⟨.comma, ""⟩,
          ⟨.word, "drop"⟩, ⟨.comma, ""⟩, ⟨.word, "3"⟩, ⟨.rbrack, ""⟩])
        ⟨[.string "v"], [], none⟩
      = .ret (true,
          ⟨[.array [.number 1, .number 2, .string "v", .number 3]], [], none⟩) :=
  (parse_value_drop arith_runtime 0 ⟨[.string "v"], [], none⟩ []).2.1 (.string "v") [] rfl
    (by decide) (by decide) (by decide)

/-! ## The parser consumes tokens -/

theorem parse_quote_loop_length (it : List Token) :
    ∀ (c : Int) (acc : List Token), (parse_quote_loop it c acc).1.length ≤ it.length := by
  induction it with
  | nil => intro c acc; simp [parse_quote_loop]
  | cons t it ih =>
    intro c acc
    rw [parse_quote_loop]
    split
    · exact Nat.le_succ_of_le (ih _ _)
    · split
      · split
        · simp
        · exact Nat.le_succ_of_le (ih _ _)
      · exact Nat.le_succ_of_le (ih _ _)

theorem parse_quote_length (ctx ctx1 : Context) (it it1 : List Token) (r : Option Quote)
    (h : parse_quote ctx it = (r, ctx1, it1)) : it1.length ≤ it.length := by
  have hl := parse_quote_loop_length it 1 []
  unfold parse_quote at h
  split at h
  rename_i it2 counter result heq
  rw [heq] at hl
  split at h <;>
  · simp only [Prod.mk.injEq] at h
    obtain ⟨-, -, rfl⟩ := h
    exact hl

theorem parse_fuel_length (rt : Runtime) (fuel : Nat) :
    (∀ ctx it r ctx1 it1, parse_value_fuel rt fuel ctx it = .ret (r, ctx1, it1) →
      it1.length < it.length) ∧
    (∀ ctx it els r ctx1 it1, parse_array_fuel rt fuel ctx it els = .ret (r, ctx1, it1) →
      it1.length ≤ it.length) ∧
    (∀ ctx it ps r ctx1 it1, parse_object_fuel rt fuel ctx it ps = .ret (r, ctx1, it1) →
      it1.length ≤ it.length) := by
  induction fuel with
  | zero =>
    refine ⟨?_, ?_, ?_⟩
    · intro ctx it r ctx1 it1 h
      simp [parse_value_fuel] at h
    · intro ctx it els r ctx1 it1 h
      simp [parse_array_fuel] at h
    · intro ctx it ps r ctx1 it1 h
      simp [parse_object_fuel] at h
  | succ fuel ih =>
    obtain ⟨ihv, iha, iho⟩ := ih
    refine ⟨?_, ?_, ?_⟩
    · intro ctx it r ctx1 it1 h
      cases it with
      | nil => simp [parse_value_fuel] at h
      | cons token it =>
        rw [parse_value_fuel] at h
        have fin : ∀ (a : Option Value) (c : Context),
            (Run.ret (a, c, it) : Run (Option Value × Context × List Token))
              = .ret (r, ctx1, it1) → it1.length < (token :: it).length := by
          intro a c e
          simp only [Run.ret.injEq, Prod.mk.injEq] at e
          obtain ⟨-, -, rfl⟩ := e
          simp
        split at h
        · exact fin _ _ h
        · split at h
          · rename_i hq
            simp only [Run.ret.injEq, Prod.mk.injEq] at h
            obtain ⟨-, -, rfl⟩ := h
            have := parse_quote_length _ _ _ _ _ hq
            simp only [List.length_cons]
            omega
          · rename_i hq
            simp only [Run.ret.injEq, Prod.mk.injEq] at h
            obtain ⟨-, -, rfl⟩ := h
            have := parse_quote_length _ _ _ _ _ hq
            simp only [List.length_cons]
            omega
        · have := iha _ _ _ _ _ _ h
          simp only [List.length_cons]
          omega
        · have := iho _ _ _ _ _ _ h
          simp only [List.length_cons]
          omega
        · split at h
          · exact fin _ _ h
          · split at h
            · exact fin _ _ h
            · split at h
              · exact fin _ _ h
              · split at h
                · split at h
                  · exact fin _ _ h
                  · exact fin _ _ h
                · split at h
                  · exact fin _ _ h
                  · exact fin _ _ h
        · exact fin _ _ h
    · intro ctx it els r ctx1 it1 h
      unfold parse_array_fuel at h
      split at h
      · simp only [Run.ret.injEq, Prod.mk.injEq] at h
        obtain ⟨-, -, rfl⟩ := h
        exact le_refl _
      · split at h
        · simp only [Run.ret.injEq, Prod.mk.injEq] at h
          obtain ⟨-, -, rfl⟩ := h
          simp
        · split at h
          · rename_i hv
            simp only [Run.ret.injEq, Prod.mk.injEq] at h
            obtain ⟨-, -, rfl⟩ := h
            exact Nat.le_of_lt (ihv _ _ _ _ _ hv)
          · rename_i hv
            have hv1 := ihv _ _ _ _ _ hv
            split at h
            · simp only [Run.ret.injEq, Prod.mk.injEq] at h
              obtain ⟨-, -, rfl⟩ := h
              exact Nat.le_of_lt hv1
            · split at h
              · have := iha _ _ _ _ _ _ h
                simp only [List.length_cons] at *
                omega
              · split at h
                · simp only [Run.ret.injEq, Prod.mk.injEq] at h
                  obtain ⟨-, -, rfl⟩ := h
                  exact Nat.le_of_lt hv1
                · have := iha _ _ _ _ _ _ h
                  simp only [List.length_cons] at *
                  omega
          · simp at h
          · simp at h
    · intro ctx it ps r ctx1 it1 h
      unfold parse_object_fuel at h
      have fin : ∀ (a : Option Value) (c : Context) (j : List Token),
          j.length ≤ it.length →
          (Run.ret (a, c, j) : Run (Option Value × Context × List Token))
            = .ret (r, ctx1, it1) → it1.length ≤ it.length := by
        intro a c j hj e
        simp only [Run.ret.injEq, Prod.mk.injEq] at e
        obtain ⟨-, -, rfl⟩ := e
        exact hj
      split at h
      · exact fin _ _ _ (le_refl _) h
      · split at h
        · exact fin _ _ _ (by simp) h
        · split at h
          · exact fin _ _ _ (le_refl _) h
          · split at h
            · exact fin _ _ _ (by simp) h
            · split at h
              · exact fin _ _ _ (by simp only [List.length_cons]; omega) h
              · split at h
                · rename_i hv
                  have hv1 := ihv _ _ _ _ _ hv
                  exact fin _ _ _ (by simp only [List.length_cons] at *; omega) h
                · rename_i hv
                  have hv1 := ihv _ _ _ _ _ hv
                  split at h
                  · exact fin _ _ _ (by simp only [List.length_cons] at *; omega) h
                  · split at h
                    · have := iho _ _ _ _ _ _ h
                      simp only [List.length_cons] at *
                      omega
                    · split at h
                      · exact fin _ _ _ (by simp only [List.length_cons] at *; omega) h
                      · have := iho _ _ _ _ _ _ h
                        simp only [List.length_cons] at *
                        omega
                · simp at h
                · simp at h

/-! ## More fuel does not change a result -/

theorem parse_fuel_succ (rt : Runtime) (fuel : Nat) :
    (∀ ctx it x, parse_value_fuel rt fuel ctx it = x → x ≠ .out_of_fuel →
      parse_value_fuel rt (fuel + 1) ctx it = x) ∧
    (∀ ctx it els x, parse_array_fuel rt fuel ctx it els = x → x ≠ .out_of_fuel →
      parse_array_fuel rt (fuel + 1) ctx it els = x) ∧
    (∀ ctx it ps x, parse_object_fuel rt fuel ctx it ps = x → x ≠ .out_of_fuel →
      parse_object_fuel rt (fuel + 1) ctx it ps = x) := by
  induction fuel with
  | zero =>
    refine ⟨?_, ?_, ?_⟩
    · intro ctx it x h hx
      simp [parse_value_fuel] at h
      exact absurd h.symm hx
    · intro ctx it els x h hx
      simp [parse_array_fuel] at h
      exact absurd h.symm hx
    · intro ctx it ps x h hx
      simp [parse_object_fuel] at h
      exact absurd h.symm hx
  | succ fuel ih =>
    obtain ⟨ihv, iha, iho⟩ := ih
    refine ⟨?_, ?_, ?_⟩
    · intro ctx it x h hx
      cases it with
      | nil =>
        simp only [parse_value_fuel] at h ⊢
        exact h
      | cons token it =>
        rw [parse_value_fuel] at h ⊢
        cases htt : token.type <;> simp only [htt] at h ⊢ <;> first
          | exact h
          | exact iha _ _ _ _ h hx
          | exact iho _ _ _ _ h hx
    · intro ctx it els x h hx
      unfold parse_array_fuel at h ⊢
      split at h
      · exact h
      · rename_i token it1
        split at h
        · rename_i hb
          rw [if_pos hb]
          exact h
        · rename_i hb
          rw [if_neg hb]
          split at h
          · rename_i hv
            rw [ihv _ _ _ hv (by simp)]
            exact h
          · rename_i hv
            rw [ihv _ _ _ hv (by simp)]
            simp only
            split at h
            · exact h
            · split at h
              · rename_i hc
                rw [if_pos hc]
                exact iha _ _ _ _ h hx
              · rename_i hc
                rw [if_neg hc]
                split at h
                · rename_i hnb
                  rw [if_pos hnb]
                  exact h
                · rename_i hnb
                  rw [if_neg hnb]
                  exact iha _ _ _ _ h hx
          · rename_i hv
            rw [ihv _ _ _ hv (by simp)]
            exact h
          · exact absurd h.symm hx
    · intro ctx it ps x h hx
      unfold parse_object_fuel at h ⊢
      split at h
      · exact h
      · rename_i token it1
        split at h
        · rename_i hb
          rw [if_pos hb]
          exact h
        · rename_i hb
          rw [if_neg hb]
          split at h
          · rename_i hs
            rw [if_pos hs]
            exact h
          · rename_i hs
            rw [if_neg hs]
            split at h
            · exact h
            · rename_i colon it2
              split at h
              · rename_i hcol
                rw [if_pos hcol]
                exact h
              · rename_i hcol
                rw [if_neg hcol]
                split at h
                · rename_i hv
                  rw [ihv _ _ _ hv (by simp)]
                  exact h
                · rename_i hv
                  rw [ihv _ _ _ hv (by simp)]
                  simp only
                  split at h
                  · exact h
                  · split at h
                    · rename_i hc
                      rw [if_pos hc]
                      exact iho _ _ _ _ h hx
                    · rename_i hc
                      rw [if_neg hc]
                      split at h
                      · rename_i hnb
                        rw [if_pos hnb]
                        exact h
                      · rename_i hnb
                        rw [if_neg hnb]
                        exact iho _ _ _ _ h hx
                · rename_i hv
                  rw [ihv _ _ _ hv (by simp)]
                  exact h
                · exact absurd h.symm hx

/-! ## Fuel that is enough -/

theorem parse_fuel_enough (rt : Runtime) (fuel : Nat) :
    (∀ ctx it, 1 ≤ fuel → 2 * it.length ≤ fuel →
      parse_value_fuel rt fuel ctx it ≠ .out_of_fuel) ∧
    (∀ ctx it els, 2 * it.length + 1 ≤ fuel →
      parse_array_fuel rt fuel ctx it els ≠ .out_of_fuel) ∧
    (∀ ctx it ps, 2 * it.length + 1 ≤ fuel →
      parse_object_fuel rt fuel ctx it ps ≠ .out_of_fuel) := by
  induction fuel with
  | zero =>
    refine ⟨?_, ?_, ?_⟩
    · intro ctx it h1 _
      omega
    · intro ctx it els h
      omega
    · intro ctx it ps h
      omega
  | succ fuel ih =>
    obtain ⟨ihv, iha, iho⟩ := ih
    refine ⟨?_, ?_, ?_⟩
    · intro ctx it _ h
      cases it with
      | nil => simp [parse_value_fuel]
      | cons token it =>
        simp only [List.length_cons] at h
        rw [parse_value_fuel]
        cases htt : token.type <;> simp only [htt]
        case lbrack => exact iha _ _ _ (by omega)
        case lbrace => exact iho _ _ _ (by omega)
        case lparen => split <;> simp
        case word => repeat' split
                     all_goals simp
        all_goals simp
    · intro ctx it els h
      unfold parse_array_fuel
      split
      · simp
      · rename_i token it1
        simp only [List.length_cons] at h
        split
        · simp
        · split
          · simp
          · rename_i hv
            have hlen := (parse_fuel_length rt fuel).1 _ _ _ _ _ hv
            simp only [List.length_cons] at hlen
            split
            · simp
            · simp only [List.length_cons] at hlen
              split
              · exact iha _ _ _ (by omega)
              · split
                · simp
                · exact iha _ _ _ (by simp only [List.length_cons]; omega)
          · simp
          · rename_i hv
            exact absurd hv (ihv _ _ (by omega) (by simp only [List.length_cons]; omega))
    · intro ctx it ps h
      unfold parse_object_fuel
      split
      · simp
      · rename_i token it1
        simp only [List.length_cons] at h
        split
        · simp
        · split
          · simp
          · split
            · simp
            · rename_i colon it2
              simp only [List.length_cons] at h
              split
              · simp
              · split
                · simp
                · rename_i hv
                  have hlen := (parse_fuel_length rt fuel).1 _ _ _ _ _ hv
                  split
                  · simp
                  · simp only [List.length_cons] at hlen
                    split
                    · exact iho _ _ _ (by omega)
                    · split
                      · simp
                      · exact iho _ _ _ (by simp only [List.length_cons]; omega)
                · simp
                · rename_i hv
                  exact absurd hv (ihv _ _ (by omega) (by omega))

theorem parse_value_fuel_add (rt : Runtime) (ctx : Context) (it : List Token) (fuel k : Nat)
    (h : parse_value_fuel rt fuel ctx it ≠ .out_of_fuel) :
    parse_value_fuel rt (fuel + k) ctx it = parse_value_fuel rt fuel ctx it := by
  induction k with
  | zero => rfl
  | succ k ih =>
    rw [← Nat.add_assoc]
    exact (parse_fuel_succ rt (fuel + k)).1 ctx it _ ih h

theorem parse_array_fuel_add (rt : Runtime) (ctx : Context) (it : List Token)
    (els : List Value) (fuel k : Nat)
    (h : parse_array_fuel rt fuel ctx it els ≠ .out_of_fuel) :
    parse_array_fuel rt (fuel + k) ctx it els = parse_array_fuel rt fuel ctx it els := by
  induction k with
  | zero => rfl
  | succ k ih =>
    rw [← Nat.add_assoc]
    exact (parse_fuel_succ rt (fuel + k)).2.1 ctx it els _ ih h

/-- `parse_value`, `parse_array` and `parse_object` always have fuel enough:
their result is never `out_of_fuel`. -/
theorem parse_ne_out_of_fuel (rt : Runtime) (ctx : Context) (it : List Token) :
    parse_value rt ctx it ≠ .out_of_fuel ∧ parse_array rt ctx it ≠ .out_of_fuel ∧
    parse_object rt ctx it ≠ .out_of_fuel := by
  unfold parse_value parse_array parse_object parse_fuel
  exact ⟨(parse_fuel_enough rt _).1 ctx it (by omega) (by omega),
    (parse_fuel_enough rt _).2.1 ctx it [] (by omega),
    (parse_fuel_enough rt _).2.2 ctx it [] (by omega)⟩

/-- With fuel for twice the tokens, `parse_value_fuel` gives what
`parse_value` gives. -/
theorem parse_value_fuel_eq (rt : Runtime) (ctx : Context) (it : List Token) (fuel : Nat)
    (h1 : 1 ≤ fuel) (h : 2 * it.length ≤ fuel) :
    parse_value_fuel rt fuel ctx it = parse_value rt ctx it := by
  have hbase := (parse_fuel_enough rt (2 * it.length + 1)).1 ctx it (by omega) (by omega)
  obtain ⟨k, hk⟩ : ∃ k, fuel + k = 2 * it.length + 1 ∨ fuel = 2 * it.length + 1 + k := by
    by_cases hle : fuel ≤ 2 * it.length + 1
    · exact ⟨2 * it.length + 1 - fuel, Or.inl (by omega)⟩
    · exact ⟨fuel - (2 * it.length + 1), Or.inr (by omega)⟩
  have hfuel : parse_value_fuel rt fuel ctx it
      = parse_value_fuel rt (2 * it.length + 1) ctx it := by
    rcases hk with hk | hk
    · have hne := (parse_fuel_enough rt fuel).1 ctx it h1 h
      rw [← hk]
      exact (parse_value_fuel_add rt ctx it fuel k hne).symm
    · rw [hk]
      exact parse_value_fuel_add rt ctx it _ k hbase
  rw [hfuel]
  unfold parse_value parse_fuel
  exact (parse_value_fuel_add rt ctx it (2 * it.length + 1) 1 hbase).symm

/-- With fuel for twice the tokens and one more, the loop of `parse_array`
gives the same result as with any larger amount. -/
theorem parse_array_fuel_eq (rt : Runtime) (ctx : Context) (it : List Token)
    (els : List Value) (fuel : Nat) (h : 2 * it.length + 1 ≤ fuel) :
    parse_array_fuel rt fuel ctx it els
      = parse_array_fuel rt (2 * it.length + 1) ctx it els := by
  have hbase := (parse_fuel_enough rt (2 * it.length + 1)).2.1 ctx it els (le_refl _)
  obtain ⟨k, rfl⟩ : ∃ k, fuel = 2 * it.length + 1 + k := ⟨fuel - (2 * it.length + 1), by omega⟩
  exact parse_array_fuel_add rt ctx it els _ k hbase

/-! ## Array literals -/

theorem parse_value_closing_bracket (rt : Runtime) (ctx : Context) (token : Token)
    (it : List Token) (h : token.type = .rbrack ∨ token.type = .comma) :
    parse_value rt ctx (token :: it)
      = .ret (none,
          ctx.set_error .syntax_error
            ("Unexpected \x60" ++ token.to_source rt.json_stringify ++ "', missing value."),
          it) := by
  rw [parse_value_cons, parse_value_fuel]
  rcases h with h | h <;> simp [h]

/-- A well-formed value construct has a first token, and that token is
neither a closing bracket nor a comma. -/
theorem parses_to_cons (rt : Runtime) (ctx ctx1 : Context) (c : List Token) (v : Value)
    (h : parses_to rt ctx c v ctx1) :
    ∃ t c1, c = t :: c1 ∧ t.type ≠ .rbrack ∧ t.type ≠ .comma := by
  cases c with
  | nil =>
    have := h []
    simp [parse_value, parse_fuel, parse_value_fuel] at this
  | cons t c1 =>
    refine ⟨t, c1, rfl, fun hb => ?_, fun hb => ?_⟩
    · have := h []
      rw [List.cons_append, parse_value_closing_bracket rt ctx t _ (Or.inl hb)] at this
      simp at this
    · have := h []
      rw [List.cons_append, parse_value_closing_bracket rt ctx t _ (Or.inr hb)] at this
      simp at this

/-- One turn of the loop of `parse_array` over a well-formed value construct
`c` that is followed by the token `next`. -/
theorem parse_array_fuel_step (rt : Runtime) (ctx ctx1 : Context) (c : List Token) (v : Value)
    (next : Token) (more : List Token) (els : List Value) (fuel : Nat)
    (hc : parses_to rt ctx c v ctx1) (hf : 2 * (c ++ next :: more).length ≤ fuel) :
    parse_array_fuel rt (fuel + 1) ctx (c ++ next :: more) els
      = if next.type = .comma then parse_array_fuel rt fuel ctx1 more (els ++ [v])
        else if next.type ≠ .rbrack then
          .ret (none, ctx1.set_error .syntax_error
            ("Unexpected \x60" ++ next.to_source rt.json_stringify ++ "'; Missing \x60]'"),
            next :: more)
        else parse_array_fuel rt fuel ctx1 (next :: more) (els ++ [v]) := by
  obtain ⟨t, c1, rfl, ht, -⟩ := parses_to_cons rt ctx ctx1 c v hc
  have hv : parse_value_fuel rt fuel ctx (t :: c1 ++ next :: more)
      = .ret (some v, ctx1, next :: more) := by
    rw [parse_value_fuel_eq rt ctx _ fuel (by simp at hf; omega) hf]
    exact hc (next :: more)
  simp only [List.cons_append] at hv ⊢
  conv_lhs => unfold parse_array_fuel
  simp only
  rw [if_neg ht, hv]

theorem array_tokens_cons_cons (sep : Token) (c c2 : List Token) (cs : List (List Token)) :
    array_tokens sep (c :: c2 :: cs) = c ++ sep :: array_tokens sep (c2 :: cs) := rfl

/-- The loop of `parse_array` over the well-formed value constructs `cs`,
separated by commas and followed by the token `next`. -/
theorem parse_array_fuel_constructs (rt : Runtime) (sep : Token) (hsep : sep.type = .comma)
    (ctx1 : Context) (next : Token) (more : List Token) :
    ∀ (cs : List (List Token × Value)), cs ≠ [] →
    ∀ (ctx : Context) (els : List Value) (fuel : Nat),
      constructs_parse rt ctx cs ctx1 →
      2 * (array_tokens sep (cs.map Prod.fst) ++ next :: more).length + 1 ≤ fuel →
      parse_array_fuel rt fuel ctx (array_tokens sep (cs.map Prod.fst) ++ next :: more) els
        = if next.type = .comma then
            parse_array_fuel rt (2 * more.length + 1) ctx1 more (els ++ cs.map Prod.snd)
          else if next.type ≠ .rbrack then
            .ret (none, ctx1.set_error .syntax_error
              ("Unexpected \x60" ++ next.to_source rt.json_stringify ++ "'; Missing \x60]'"),
              next :: more)
          else
            parse_array_fuel rt (2 * (next :: more).length + 1) ctx1 (next :: more)
              (els ++ cs.map Prod.snd) := by
  intro cs
  induction cs with
  | nil => intro h; exact absurd rfl h
  | cons p cs ih =>
    intro _ ctx els fuel hcs hf
    obtain ⟨c, v⟩ := p
    obtain ⟨ctx2, hc, hrest⟩ := hcs
    obtain ⟨f, rfl⟩ : ∃ f, fuel = f + 1 := ⟨fuel - 1, by omega⟩
    have hcl : 1 ≤ c.length := by
      obtain ⟨t, c1, rfl, -, -⟩ := parses_to_cons rt ctx ctx2 c v hc
      simp
    cases cs with
    | nil =>
      simp only [constructs_parse] at hrest
      subst hrest
      simp only [List.map_cons, List.map_nil, array_tokens] at hf ⊢
      rw [parse_array_fuel_step rt ctx ctx1 c v next more els f hc (by omega)]
      simp only [List.length_append, List.length_cons] at hf
      rw [parse_array_fuel_eq rt ctx1 more (els ++ [v]) f (by omega),
        parse_array_fuel_eq rt ctx1 (next :: more) (els ++ [v]) f
          (by simp only [List.length_cons]; omega)]
    | cons p2 cs2 =>
      have hne : p2 :: cs2 ≠ [] := by simp
      simp only [List.map_cons, array_tokens_cons_cons, List.append_assoc,
        List.cons_append] at hf ⊢
      rw [parse_array_fuel_step rt ctx ctx2 c v sep _ els f hc (by omega), if_pos hsep]
      have hlen : 2 * (array_tokens sep (List.map Prod.fst (p2 :: cs2)) ++ next :: more).length
          + 1 ≤ f := by
        simp only [List.length_append, List.length_cons, List.map_cons] at hf ⊢
        omega
      have := ih hne ctx2 (els ++ [v]) f hrest hlen
      simp only [List.map_cons, List.append_assoc, List.singleton_append] at this ⊢
      exact this

theorem parse_array_fuel_closing (rt : Runtime) (ctx : Context) (close : Token)
    (rest : List Token) (els : List Value) (fuel : Nat) (hclose : close.type = .rbrack) :
    parse_array_fuel rt (fuel + 1) ctx (close :: rest) els = .ret (some (.array els), ctx, rest) := by
  unfold parse_array_fuel
  simp [hclose]

/-- C11 (as the code has it): `parse_array` behind the opening bracket. For
well-formed value constructs `v1 .. vn` (n ≥ 0) the tokens `v1 , .. , vn ]`
give the array of the n values in order and leave the iterator behind the
closing bracket; for n ≥ 1 the same tokens with one comma before the closing
bracket give the same array; and when, behind the constructs (n ≥ 1), a token
follows that is neither a comma nor the closing bracket, the null reference is
returned with a Syntax error latched. That is so whenever a further value
construct follows with no comma before it. -/
theorem parse_array_elements (rt : Runtime) (ctx ctx1 : Context)
    (cs : List (List Token × Value)) (sep close : Token) (rest : List Token)
    (hsep : sep.type = .comma) (hclose : close.type = .rbrack)
    (hcs : constructs_parse rt ctx cs ctx1) :
    parse_array rt ctx (array_tokens sep (cs.map Prod.fst) ++ close :: rest)
      = .ret (some (.array (cs.map Prod.snd)), ctx1, rest) ∧
    (cs ≠ [] →
      parse_array rt ctx (array_tokens sep (cs.map Prod.fst) ++ sep :: close :: rest)
        = .ret (some (.array (cs.map Prod.snd)), ctx1, rest)) ∧
    (cs ≠ [] → ∀ next, next.type ≠ .comma → next.type ≠ .rbrack →
      parse_array rt ctx (array_tokens sep (cs.map Prod.fst) ++ next :: rest)
        = .ret (none,
            ctx1.set_error .syntax_error
              ("Unexpected \x60" ++ next.to_source rt.json_stringify ++ "'; Missing \x60]'"),
            next :: rest)) ∧
    (cs ≠ [] → ∀ c v ctx2, parses_to rt ctx1 c v ctx2 →
      ∃ message, parse_array rt ctx (array_tokens sep (cs.map Prod.fst) ++ (c ++ rest))
        = .ret (none, ctx1.set_error .syntax_error message, c ++ rest)) := by
  have hcomma : ¬ close.type = .comma := by rw [hclose]; decide
  have hmissing : cs ≠ [] → ∀ (next : Token) (more : List Token), next.type ≠ .comma →
      next.type ≠ .rbrack →
      parse_array rt ctx (array_tokens sep (cs.map Prod.fst) ++ next :: more)
        = .ret (none,
            ctx1.set_error .syntax_error
              ("Unexpected \x60" ++ next.to_source rt.json_stringify ++ "'; Missing \x60]'"),
            next :: more) := by
    intro hne next more hn1 hn2
    rw [parse_array_eq, parse_array_fuel_constructs rt sep hsep ctx1 next more cs
      hne ctx [] _ hcs (by omega), if_neg hn1, if_pos hn2]
  refine ⟨?_, fun hne => ?_, fun hne next hn1 hn2 => hmissing hne next rest hn1 hn2,
    fun hne c v ctx2 hc => ?_⟩
  · cases cs with
    | nil =>
      simp only [constructs_parse] at hcs
      subst hcs
      simp only [List.map_nil, array_tokens, List.nil_append]
      rw [parse_array_eq]
      exact parse_array_fuel_closing rt _ close rest [] _ hclose
    | cons p cs =>
      rw [parse_array_eq, parse_array_fuel_constructs rt sep hsep ctx1 close rest (p :: cs)
        (by simp) ctx [] _ hcs (by omega), if_neg hcomma, if_neg (by simp [hclose])]
      simp only [List.length_cons, List.nil_append]
      exact parse_array_fuel_closing rt ctx1 close rest _ _ hclose
  · rw [parse_array_eq, parse_array_fuel_constructs rt sep hsep ctx1 sep (close :: rest) cs
      hne ctx [] _ hcs (by omega), if_pos hsep]
    simp only [List.length_cons, List.nil_append]
    exact parse_array_fuel_closing rt ctx1 close rest _ _ hclose
  · obtain ⟨t, c1, rfl, ht1, ht2⟩ := parses_to_cons rt ctx1 ctx2 c v hc
    exact ⟨_, hmissing hne t (c1 ++ rest) ht2 ht1⟩

/-- The array literals `["a", "b"]` and `["a", "b",]` give the same array, and
`["a" "b"]` gives none. -/
theorem parse_array_elements_witness :
    parse_array bare_runtime empty_context
        [⟨.string, "a"⟩, ⟨.comma, ""⟩, ⟨.string, "b"⟩, ⟨.rbrack, ""⟩]
      = .ret (some (.array [.string "a", .string "b"]), empty_context, []) ∧
    parse_array bare_runtime empty_context
        [⟨.string, "a"⟩, ⟨.comma, ""⟩, ⟨.string, "b"⟩, ⟨.comma, ""⟩, ⟨.rbrack, ""⟩]
      = .ret (some (.array [.string "a", .string "b"]), empty_context, []) ∧
    parse_array bare_runtime empty_context [⟨.string, "a"⟩, ⟨.string, "b"⟩, ⟨.rbrack, ""⟩]
      = .ret (none,
          empty_context.set_error .syntax_error "Unexpected \x60\"b\"'; Missing \x60]'",
          [⟨.string, "b"⟩, ⟨.rbrack, ""⟩]) := by
  have ha : parses_to bare_runtime empty_context [⟨.string, "a"⟩] (.string "a")
      empty_context := by
    intro rest
    rw [List.singleton_append, parse_value_cons, parse_value_fuel]
  have hb : parses_to bare_runtime empty_context [⟨.string, "b"⟩] (.string "b")
      empty_context := by
    intro rest
    rw [List.singleton_append, parse_value_cons, parse_value_fuel]
  have h2 : constructs_parse bare_runtime empty_context
      [([⟨.string, "a"⟩], .string "a"), ([⟨.string, "b"⟩], .string "b")] empty_context :=
    ⟨empty_context, ha, empty_context, hb, rfl⟩
  have h1 : constructs_parse bare_runtime empty_context
      [([⟨.string, "a"⟩], .string "a")] empty_context :=
    ⟨empty_context, ha, rfl⟩
  refine ⟨?_, ?_, ?_⟩
  · exact (parse_array_elements bare_runtime empty_context empty_context _ ⟨.comma, ""⟩
      ⟨.rbrack, ""⟩ [] rfl rfl h2).1
  · exact (parse_array_elements bare_runtime empty_context empty_context _ ⟨.comma, ""⟩
      ⟨.rbrack, ""⟩ [] rfl rfl h2).2.1 (by simp)
  · exact (parse_array_elements bare_runtime empty_context empty_context _ ⟨.comma, ""⟩
      ⟨.rbrack, ""⟩ [⟨.rbrack, ""⟩] rfl rfl h1).2.2.1 (by simp) ⟨.string, "b"⟩
      (by decide) (by decide)

/-- C11 (the claim as stated fails): for no value at all, the tokens `[ ]`
with one comma before the closing bracket are `[ , ]`; `parse_array` fails on
the comma with a Syntax error and yields no array. -/
theorem parse_array_lone_comma :
    parse_array bare_runtime empty_context [⟨.comma, ""⟩, ⟨.rbrack, ""⟩]
      = .ret (none,
          ⟨[], [], some (.syntax_error, "Unexpected \x60,', missing value.")⟩,
          [⟨.rbrack, ""⟩]) ∧
    parse_array bare_runtime empty_context [⟨.rbrack, ""⟩]
      = .ret (some (.array []), empty_context, []) := by
  constructor <;> rfl

/-! ## Word declarations -/

theorem declaration_closes_at_one_iff (body : List Token) :
    declaration_closes_at 1 body ↔ declaration_balanced body := by
  unfold declaration_closes_at declaration_balanced
  constructor
  · rintro ⟨h1, h2⟩
    exact ⟨fun p s e => by have := h1 p s e; omega, by omega⟩
  · rintro ⟨h1, h2⟩
    exact ⟨fun p s e => by have := h1 p s e; omega, by omega⟩

theorem declaration_closes_at_tail (c d : Int) (t : Token) (body : List Token)
    (hd : d = c + (if t.type = .colon then 1 else 0) - (if t.type = .semicolon then 1 else 0))
    (h : declaration_closes_at c (t :: body)) : declaration_closes_at d body := by
  obtain ⟨h1, h2⟩ := h
  constructor
  · intro p s e
    have := h1 (t :: p) s (by rw [e]; rfl)
    rw [count_type_cons, count_type_cons] at this
    push_cast at this
    omega
  · rw [count_type_cons, count_type_cons] at h2
    push_cast at h2
    omega

theorem declaration_closes_at_cons (c d : Int) (t : Token) (body : List Token) (hc : 1 ≤ c)
    (hd : d = c + (if t.type = .colon then 1 else 0) - (if t.type = .semicolon then 1 else 0))
    (h : declaration_closes_at d body) : declaration_closes_at c (t :: body) := by
  obtain ⟨h1, h2⟩ := h
  constructor
  · intro p s e
    cases p with
    | nil => simp [count_type_nil]; omega
    | cons u p =>
      simp only [List.cons_append, List.cons.injEq] at e
      obtain ⟨rfl, e⟩ := e
      have := h1 p s e
      rw [count_type_cons, count_type_cons]
      push_cast
      omega
  · rw [count_type_cons, count_type_cons]
    push_cast
    omega

theorem parse_declaration_loop_colon (t : Token) (it : List Token) (c : Int)
    (acc : List Token)
    (ho : t.type = .colon) :
    parse_declaration_loop (t :: it) c acc = parse_declaration_loop it (c + 1) (acc ++ [t]) := by
  rw [parse_declaration_loop]
  simp [ho]

theorem parse_declaration_loop_semicolon (t : Token) (it : List Token) (c : Int)
    (acc : List Token)
    (hr : t.type = .semicolon) (hc : c - 1 ≠ 0) :
    parse_declaration_loop (t :: it) c acc = parse_declaration_loop it (c - 1) (acc ++ [t]) := by
  rw [parse_declaration_loop]
  simp [hr, hc]

theorem parse_declaration_loop_break (t : Token) (it : List Token) (c : Int)
    (acc : List Token)
    (hr : t.type = .semicolon) (hc : c - 1 = 0) :
    parse_declaration_loop (t :: it) c acc = (it, 0, acc) := by
  rw [parse_declaration_loop]
  simp [hr, hc]

theorem parse_declaration_loop_other (t : Token) (it : List Token) (c : Int)
    (acc : List Token)
    (ho : ¬ t.type = .colon) (hr : ¬ t.type = .semicolon) :
    parse_declaration_loop (t :: it) c acc = parse_declaration_loop it c (acc ++ [t]) := by
  rw [parse_declaration_loop]
  simp [ho, hr]

theorem parse_declaration_loop_closes (body : List Token) (close : Token) (rest : List Token)
    (hclose : close.type = .semicolon) :
    ∀ (c : Int) (acc : List Token), 1 ≤ c → declaration_closes_at c body →
      parse_declaration_loop (body ++ close :: rest) c acc = (rest, 0, acc ++ body) := by
  induction body with
  | nil =>
    intro c acc hc h
    have hc1 : c = 1 := by
      have := h.2
      simp [count_type_nil] at this
      omega
    subst hc1
    rw [List.nil_append, parse_declaration_loop_break close rest 1 acc hclose (by norm_num)]
    simp
  | cons t body ih =>
    intro c acc hc h
    have hpre := h.1 [t] body rfl
    rw [count_type_cons, count_type_cons, count_type_nil, count_type_nil] at hpre
    by_cases ho : t.type = .colon
    · have hr : ¬ t.type = .semicolon := by rw [ho]; decide
      have htail := declaration_closes_at_tail c (c + 1) t body (by simp [ho]) h
      rw [List.cons_append, parse_declaration_loop_colon t _ c acc ho,
        ih (c + 1) (acc ++ [t]) (by omega) htail]
      simp
    · by_cases hr : t.type = .semicolon
      · simp only [ho, hr, if_true, if_false] at hpre
        push_cast at hpre
        have hc2 : c - 1 ≠ 0 := by omega
        have htail := declaration_closes_at_tail c (c - 1) t body (by simp [hr]) h
        rw [List.cons_append, parse_declaration_loop_semicolon t _ c acc hr hc2,
          ih (c - 1) (acc ++ [t]) (by omega) htail]
        simp
      · have htail := declaration_closes_at_tail c c t body (by simp [ho, hr]) h
        rw [List.cons_append, parse_declaration_loop_other t _ c acc ho hr,
          ih c (acc ++ [t]) hc htail]
        simp

theorem parse_declaration_loop_unmatched (toks : List Token) :
    ∀ (c : Int) (acc : List Token), 1 ≤ c →
      (∃ c1 acc1, parse_declaration_loop toks c acc = ([], c1, acc1) ∧ 1 ≤ c1) ∨
      (∃ body close rest, toks = body ++ close :: rest ∧ close.type = .semicolon ∧
        declaration_closes_at c body) := by
  induction toks with
  | nil =>
    intro c acc hc
    exact Or.inl ⟨c, acc, by simp [parse_declaration_loop], hc⟩
  | cons t toks ih =>
    intro c acc hc
    by_cases ho : t.type = .colon
    · have hr : ¬ t.type = .semicolon := by rw [ho]; decide
      rcases ih (c + 1) (acc ++ [t]) (by omega) with ⟨c1, acc1, h, h1⟩ | ⟨body, close, rest, e, hcl, hb⟩
      · exact Or.inl ⟨c1, acc1, by rw [parse_declaration_loop_colon t _ c acc ho, h], h1⟩
      · exact Or.inr ⟨t :: body, close, rest, by rw [e]; rfl, hcl,
          declaration_closes_at_cons c (c + 1) t body hc (by simp [ho]) hb⟩
    · by_cases hr : t.type = .semicolon
      · by_cases hc0 : c - 1 = 0
        · refine Or.inr ⟨[], t, toks, rfl, hr, ?_, ?_⟩
          · intro p s e
            have hp : p = [] := by
              cases p with
              | nil => rfl
              | cons u p => simp at e
            subst hp
            simp [count_type_nil]; omega
          · simp [count_type_nil]; omega
        · rcases ih (c - 1) (acc ++ [t]) (by omega) with
            ⟨c1, acc1, h, h1⟩ | ⟨body, close, rest, e, hcl, hb⟩
          · exact Or.inl ⟨c1, acc1,
              by rw [parse_declaration_loop_semicolon t _ c acc hr hc0, h], h1⟩
          · exact Or.inr ⟨t :: body, close, rest, by rw [e]; rfl, hcl,
              declaration_closes_at_cons c (c - 1) t body hc (by simp [hr]) hb⟩
      · rcases ih c (acc ++ [t]) hc with ⟨c1, acc1, h, h1⟩ | ⟨body, close, rest, e, hcl, hb⟩
        · exact Or.inl ⟨c1, acc1, by rw [parse_declaration_loop_other t _ c acc ho hr, h], h1⟩
        · exact Or.inr ⟨t :: body, close, rest, by rw [e]; rfl, hcl,
            declaration_closes_at_cons c c t body hc (by simp [ho, hr]) hb⟩


theorem count_type_eq_zero (ty : TokenType) (ts : List Token) (h : ∀ t ∈ ts, t.type ≠ ty) :
    count_type ty ts = 0 := by
  induction ts with
  | nil => rfl
  | cons t ts ih =>
    rw [count_type_cons, ih (fun u hu => h u (List.mem_cons_of_mem t hu))]
    simp [h t (List.mem_cons_self t ts)]

/-- A body without colon and semicolon tokens nests properly. -/
theorem declaration_balanced_of_plain (body : List Token)
    (h : ∀ t ∈ body, t.type ≠ .semicolon ∧ t.type ≠ .colon) : declaration_balanced body := by
  constructor
  · intro p s e
    rw [count_type_eq_zero .semicolon p (fun t ht => (h t (by rw [e]; simp [ht])).1)]
    exact Nat.zero_le _
  · rw [count_type_eq_zero .semicolon body (fun t ht => (h t ht).1),
      count_type_eq_zero .colon body (fun t ht => (h t ht).2)]

/-- C16 (as the code has it): `parse_declaration` on `: name body ; rest`.
(1) If the name is a word token and `body` holds no semicolon and no colon
token (or, more generally, its colons and semicolons nest properly), the
function returns `true`, leaves the iterator at `rest`, latches nothing and
declares the name as the compiled quote with token vector `body`; the loop of
`compiled_quote::call` goes on with `rest`. (2) If the tokens end behind the
colon, or the token behind it is no word, or no semicolon ends the
declaration, the function returns `false` with a Syntax error latched, and
stack and dictionary are as before. -/
theorem parse_declaration_declares (rt : Runtime) (fuel : Nat) (ctx : Context)
    (colon name : Token) :
    (∀ body semi rest, name.type = .word → semi.type = .semicolon →
      (declaration_balanced body ∨ ∀ t ∈ body, t.type ≠ .semicolon ∧ t.type ≠ .colon) →
      parse_declaration ctx (colon :: name :: (body ++ semi :: rest))
        = .ret (true,
            ⟨ctx.stack,
              dictionary_set name.text (.quote (.compiled body)) ctx.dictionary, ctx.error⟩,
            rest) ∧
      dictionary_find name.text
          (dictionary_set name.text (.quote (.compiled body)) ctx.dictionary)
        = some (.quote (.compiled body)) ∧
      (colon.type = .colon →
        compiled_quote_loop rt (fuel + 1) ctx (colon :: name :: (body ++ semi :: rest))
          = compiled_quote_loop rt fuel
              ⟨ctx.stack,
                dictionary_set name.text (.quote (.compiled body)) ctx.dictionary, ctx.error⟩
              rest)) ∧
    parse_declaration ctx [colon]
      = .ret (false,
          ⟨ctx.stack, ctx.dictionary,
            some (.syntax_error, "Missing name after word declaration.")⟩, []) ∧
    (∀ it, name.type ≠ .word →
      parse_declaration ctx (colon :: name :: it)
        = .ret (false,
            ⟨ctx.stack, ctx.dictionary,
              some (.syntax_error, "Missing name after word declaration.")⟩, name :: it)) ∧
    (∀ it, name.type = .word →
      (¬ ∃ body semi rest, it = body ++ semi :: rest ∧ semi.type = .semicolon ∧
        declaration_balanced body) →
      parse_declaration ctx (colon :: name :: it)
        = .ret (false,
            ⟨ctx.stack, ctx.dictionary, some (.syntax_error, "Unterminated declaration.")⟩,
            [])) := by
  refine ⟨fun body semi rest hname hsemi hbody => ?_, ?_, fun it hname => ?_,
    fun it hname hno => ?_⟩
  · have hbal : declaration_balanced body := by
      rcases hbody with h | h
      · exact h
      · exact declaration_balanced_of_plain body h
    have hdecl : parse_declaration ctx (colon :: name :: (body ++ semi :: rest))
        = .ret (true,
            ⟨ctx.stack,
              dictionary_set name.text (.quote (.compiled body)) ctx.dictionary, ctx.error⟩,
            rest) := by
      unfold parse_declaration
      simp only [hname, ne_eq, not_true_eq_false, if_false]
      rw [parse_declaration_loop_closes body semi rest hsemi 1 [] (le_refl 1)
        ((declaration_closes_at_one_iff body).mpr hbal)]
      simp [Context.declare]
    refine ⟨hdecl, dictionary_find_set_same _ _ _, fun hcolon => ?_⟩
    rw [compiled_quote_loop]
    simp only [hcolon, hdecl]
  · simp [parse_declaration, Context.set_error]
  · simp [parse_declaration, hname, Context.set_error]
  · rcases parse_declaration_loop_unmatched it 1 [] (le_refl 1) with
      ⟨c1, acc1, h, h1⟩ | ⟨body, semi, rest, e, hs, hb⟩
    · unfold parse_declaration
      simp only [hname, ne_eq, not_true_eq_false, if_false]
      rw [h]
      have : c1 > 0 := by omega
      simp [this, Context.set_error]
    · exact absurd ⟨body, semi, rest, e, hs, (declaration_closes_at_one_iff body).mp hb⟩ hno

/-- The declaration `: f dup ;` followed by `1`, and the declarations `:`,
`: "f" ;` and `: f dup`. -/
theorem parse_declaration_declares_witness :
    parse_declaration empty_context
        [⟨.colon, ""⟩, ⟨.word, "f"⟩, ⟨.word, "dup"⟩, ⟨.semicolon, ""⟩, ⟨.word, "1"⟩]
      = .ret (true, ⟨[], [("f", .quote (.compiled [⟨.word, "dup"⟩]))], none⟩,
          [⟨.word, "1"⟩]) ∧
    parse_declaration empty_context [⟨.colon, ""⟩, ⟨.string, "f"⟩, ⟨.semicolon, ""⟩]
      = .ret (false,
          ⟨[], [], some (.syntax_error, "Missing name after word declaration.")⟩,
          [⟨.string, "f"⟩, ⟨.semicolon, ""⟩]) ∧
    parse_declaration empty_context [⟨.colon, ""⟩, ⟨.word, "f"⟩, ⟨.word, "dup"⟩]
      = .ret (false, ⟨[], [], some (.syntax_error, "Unterminated declaration.")⟩, []) := by
  refine ⟨?_, ?_, ?_⟩
  · exact ((parse_declaration_declares bare_runtime 0 empty_context ⟨.colon, ""⟩
      ⟨.word, "f"⟩).1 [⟨.word, "dup"⟩] ⟨.semicolon, ""⟩ [⟨.word, "1"⟩] rfl rfl
      (Or.inr (by decide))).1
  · exact (parse_declaration_declares bare_runtime 0 empty_context ⟨.colon, ""⟩
      ⟨.string, "f"⟩).2.2.1 [⟨.semicolon, ""⟩] (by decide)
  · refine (parse_declaration_declares bare_runtime 0 empty_context ⟨.colon, ""⟩
      ⟨.word, "f"⟩).2.2.2 [⟨.word, "dup"⟩] rfl ?_
    rintro ⟨body, semi, rest, e, hs, hb⟩
    have h := ((parse_declaration_declares bare_runtime 0 empty_context ⟨.colon, ""⟩
      ⟨.word, "f"⟩).1 body semi rest rfl hs (Or.inl hb)).1
    rw [← e] at h
    simp [parse_declaration, parse_declaration_loop] at h

/-- C16 (the claim as stated fails): a body that is an object literal with the
key `"a"` and the value `1` holds no semicolon, yet the declaration of `f` with
that body declares nothing and latches a Syntax error, because the colon of
the object literal raises the counter. -/
theorem parse_declaration_colon_in_body :
    parse_declaration empty_context
        [⟨.colon, ""⟩, ⟨.word, "f"⟩, ⟨.lbrace, ""⟩, ⟨.string, "a"⟩, ⟨.colon, ""⟩,
          ⟨.word, "1"⟩, ⟨.rbrace, ""⟩, ⟨.semicolon, ""⟩]
      = .ret (false, ⟨[], [], some (.syntax_error, "Unterminated declaration.")⟩, []) ∧
    Quote.call bare_runtime 2
        (.compiled [⟨.colon, ""⟩, ⟨.word, "f"⟩, ⟨.lbrace, ""⟩, ⟨.string, "a"⟩, ⟨.colon, ""⟩,
          ⟨.word, "1"⟩, ⟨.rbrace, ""⟩, ⟨.semicolon, ""⟩])
        empty_context
      = .ret (false, ⟨[], [], some (.syntax_error, "Unterminated declaration.")⟩) := by
  constructor <;> rfl

/-! ## The program of scenario E1 -/

/-- C17 (as the code has it): the program `: square ( dup * ) ; 3 square`, run
on an empty stack, ends with no error and with the number 3 on the stack and
the compiled quote `(dup *)` on top of it: calling the declared word runs its
body, and the body is a quote literal, which is pushed and not called. This
holds on every runtime in which `3` is a number and no global word. Written
without the parens, `: square dup * ; 3 square` ends with no error and the
stack holding exactly 9, where `dup` duplicates the top and `*` multiplies. -/
theorem square_program (rt : Runtime) (fuel : Nat) (hnumber : rt.is_number "3" = true)
    (hglobal : dictionary_find "3" rt.dictionary = none) :
    Quote.call rt (fuel + 7)
        (.compiled [⟨.colon, ""⟩, ⟨.word, "square"⟩, ⟨.lparen, ""⟩, ⟨.word, "dup"⟩,
          ⟨.word, "*"⟩, ⟨.rparen, ""⟩, ⟨.semicolon, ""⟩, ⟨.word, "3"⟩, ⟨.word, "square"⟩])
        empty_context
      = .ret (true,
          ⟨[.quote (.compiled [⟨.word, "dup"⟩, ⟨.word, "*"⟩]), rt.number "3"],
            [("square", .quote (.compiled
              [⟨.lparen, ""⟩, ⟨.word, "dup"⟩, ⟨.word, "*"⟩, ⟨.rparen, ""⟩]))],
            none⟩) ∧
    Quote.call arith_runtime 10
        (.compiled [⟨.colon, ""⟩, ⟨.word, "square"⟩, ⟨.word, "dup"⟩, ⟨.word, "*"⟩,
          ⟨.semicolon, ""⟩, ⟨.word, "3"⟩, ⟨.word, "square"⟩])
        empty_context
      = .ret (true,
          ⟨[.number 9],
            [("square", .quote (.compiled [⟨.word, "dup"⟩, ⟨.word, "*"⟩]))], none⟩) := by
  constructor
  · simp [Quote.call, compiled_quote_loop, parse_declaration, parse_declaration_loop,
      Context.call, Context.lookup, Context.declare, dictionary_set, dictionary_find,
      empty_context, hnumber, hglobal, Context.push, parse_value, parse_fuel,
      parse_value_fuel, parse_quote, parse_quote_loop]
  · rfl

/-- On the runtime with `dup` and `*`. -/
theorem square_program_witness :
    Quote.call arith_runtime 7
        (.compiled [⟨.colon, ""⟩, ⟨.word, "square"⟩, ⟨.lparen, ""⟩, ⟨.word, "dup"⟩,
          ⟨.word, "*"⟩, ⟨.rparen, ""⟩, ⟨.semicolon, ""⟩, ⟨.word, "3"⟩, ⟨.word, "square"⟩])
        empty_context
      = .ret (true,
          ⟨[.quote (.compiled [⟨.word, "dup"⟩, ⟨.word, "*"⟩]), .number 3],
            [("square", .quote (.compiled
              [⟨.lparen, ""⟩, ⟨.word, "dup"⟩, ⟨.word, "*"⟩, ⟨.rparen, ""⟩]))],
            none⟩) :=
  (square_program arith_runtime 0 (by decide) (by rfl)).1

/-- C17 (the claim as stated fails): with `dup` and `*` as the claim says, the
program `: square ( dup * ) ; 3 square` ends with two values on the stack, the
number 3 and a quote, and not with the number 9 alone. -/
theorem square_program_leaves_quote :
    Quote.call arith_runtime 10
        (.compiled [⟨.colon, ""⟩, ⟨.word, "square"⟩, ⟨.lparen, ""⟩, ⟨.word, "dup"⟩,
          ⟨.word, "*"⟩, ⟨.rparen, ""⟩, ⟨.semicolon, ""⟩, ⟨.word, "3"⟩, ⟨.word, "square"⟩])
        empty_context
      = .ret (true,
          ⟨[.quote (.compiled [⟨.word, "dup"⟩, ⟨.word, "*"⟩]), .number 3],
            [("square", .quote (.compiled
              [⟨.lparen, ""⟩, ⟨.word, "dup"⟩, ⟨.word, "*"⟩, ⟨.rparen, ""⟩]))],
            none⟩) := by
  rfl

/-! ## More array words -/

/-- C21: `w_set`. With an array of `n` elements on top of the stack, an index
`i` (a 64-bit integer) below it and a value `v` below that, `!` replaces the
three by one new array and leaves the error slot as it was: if `-n ≤ i < n`
the new array has length `n`, holds `v` at the position `i` (or `i + n` when
`i < 0`) and the elements of the input everywhere else; otherwise it is the
input with `v` appended, of length `n + 1`. -/
theorem w_set_index (context : Context) (elements s : List Value) (v : Value) (i : Int)
    (hstack : context.stack = .array elements :: .number i :: v :: s)
    (hmin : -2 ^ 63 ≤ i) (hmax : i < 2 ^ 63) (hsize : (elements.length : Int) < 2 ^ 63) :
    ∃ result : List Value,
      w_set context = { context with stack := .array result :: s } ∧
      (-(elements.length : Int) ≤ i → i < elements.length →
        result.length = elements.length ∧
        result.get? (if i < 0 then i + elements.length else i).toNat = some v ∧
        ∀ j : Nat, j ≠ (if i < 0 then i + elements.length else i).toNat →
          result.get? j = elements.get? j) ∧
      ((elements.length : Int) ≤ i ∨ i < -(elements.length : Int) →
        result = elements ++ [v] ∧ result.length = elements.length + 1) := by
  have hpop : ∀ j : Int, (if i < 0 then to_int64 (i + elements.length) else i) = j →
      w_set context =
        if j < 0 ∨ elements.length ≤ j.toNat then
          { context with stack := .array (elements ++ [v]) :: s }
        else { context with stack := .array (elements.set j.toNat v) :: s } := by
    intro j hj
    subst hj
    simp only [w_set, Context.pop_array, Context.pop_number, Context.pop, hstack,
      Context.push_array, Context.push]
  have hnorm : (if i < 0 then to_int64 (i + elements.length) else i)
      = (if i < 0 then i + elements.length else i) := by
    by_cases hneg : i < 0
    · rw [if_pos hneg, if_pos hneg, to_int64_of_range _ (by omega) (by omega)]
    · rw [if_neg hneg, if_neg hneg]
  have hset := hpop _ hnorm
  by_cases hin : -(elements.length : Int) ≤ i ∧ i < elements.length
  · have hlt : (if i < 0 then i + elements.length else i).toNat < elements.length := by
      split <;> omega
    have hnn : ¬ ((if i < 0 then i + (elements.length : Int) else i) < 0) := by
      split <;> omega
    refine ⟨elements.set (if i < 0 then i + elements.length else i).toNat v, ?_, ?_, ?_⟩
    · rw [hset, if_neg (by omega)]
    · intro _ _
      refine ⟨List.length_set .., ?_, ?_⟩
      · rw [List.get?_eq_getElem?]
        simp [List.getElem?_set, hlt]
      · intro j hj
        rw [List.get?_eq_getElem?, List.get?_eq_getElem?, List.getElem?_set_ne (Ne.symm hj)]
    · intro hout
      omega
  · refine ⟨elements ++ [v], ?_, ?_, ?_⟩
    · rw [hset, if_pos]
      by_cases hneg : i < 0
      · rw [if_pos hneg]; omega
      · rw [if_neg hneg]; omega
    · intro h1 h2
      exact absurd ⟨h1, h2⟩ hin
    · intro _
      exact ⟨rfl, by simp⟩

/-- Index -1 into `[10, 20, 30]` with the value 7: the new array has three
elements, the last of which is 7, and the first two are 10 and 20. -/
theorem w_set_index_witness :
    ∃ result : List Value,
      w_set ⟨[.array [.number 10, .number 20, .number 30], .number (-1), .number 7], [], none⟩
        = ⟨[.array result], [], none⟩ ∧
      result.length = 3 ∧ result.get? 2 = some (.number 7) ∧
      result.get? 0 = some (.number 10) ∧ result.get? 1 = some (.number 20) := by
  obtain ⟨result, h, hin, -⟩ := w_set_index
    ⟨[.array [.number 10, .number 20, .number 30], .number (-1), .number 7], [], none⟩
    [.number 10, .number 20, .number 30] [] (.number 7) (-1) rfl (by norm_num) (by norm_num)
    (by norm_num)
  obtain ⟨hlen, hv, hrest⟩ := hin (by norm_num) (by norm_num)
  exact ⟨result, h, hlen, hv, hrest 0 (by decide), hrest 1 (by decide)⟩

/-- C22 (as the code has it): `w_reduce` on an empty array. With an empty
array on top of the stack and a quote below it, `reduce` removes both, pushes
nothing and latches the Range error whose message is
`Cannot reduce empty array.`, with the full stop; the result is the same for
every behaviour of the call of quotes, so the quote is not called. -/
theorem w_reduce_empty (call : Quote → Context → Run (Bool × Context)) (context : Context)
    (q : Quote) (s : List Value) (hstack : context.stack = .array [] :: .quote q :: s) :
    w_reduce call context
      = .ret ⟨s, context.dictionary, some (.range_error, "Cannot reduce empty array.")⟩ := by
  simp [w_reduce, Context.pop_array, Context.pop_quote, Context.pop, hstack, Context.set_error]

/-- The stack of `( * ) []` on the runtime with `dup` and `*`. -/
theorem w_reduce_empty_witness :
    w_reduce (Quote.call arith_runtime 5)
        ⟨[.array [], .quote (.compiled [⟨.word, "*"⟩])], [], none⟩
      = .ret ⟨[], [], some (.range_error, "Cannot reduce empty array.")⟩ :=
  w_reduce_empty (Quote.call arith_runtime 5)
    ⟨[.array [], .quote (.compiled [⟨.word, "*"⟩])], [], none⟩ (.compiled [⟨.word, "*"⟩]) [] rfl

/-- C22 (the claim as stated fails): the message that `w_reduce` latches for
an empty array ends in a full stop; it is not the text
`Cannot reduce empty array`. -/
theorem w_reduce_empty_message :
    ∃ ctx : Context,
      w_reduce (Quote.call bare_runtime 0) ⟨[.array [], .quote (.compiled [])], [], none⟩
        = .ret ctx ∧
      ctx.error = some (.range_error, "Cannot reduce empty array.") ∧
      ctx.error ≠ some (.range_error, "Cannot reduce empty array") :=
  ⟨⟨[], [], some (.range_error, "Cannot reduce empty array.")⟩, rfl, rfl, by decide⟩

theorem w_times_loop_eq (elements : List Value) :
    ∀ (turns : Nat) (result : List Value),
      w_times_loop elements turns result = result ++ (List.replicate turns elements).flatten := by
  intro turns
  induction turns with
  | zero => intro result; simp [w_times_loop]
  | succ k ih =>
    intro result
    rw [w_times_loop, ih, List.replicate_succ, List.flatten_cons, List.append_assoc]

/-- The branch of `w_times` for a number held as an arbitrary-precision
integer pushes `max(n, 0)` copies of the array for every `n`. -/
theorem w_times_big_integer (max_size : Nat) (context : Context) (elements s : List Value)
    (n : Int) (hstack : context.stack = .array elements :: .number n :: s) :
    w_times max_size false context
      = .ret { context with stack := .array (List.replicate n.toNat elements).flatten :: s } := by
  simp [w_times, Context.pop_array, Context.pop_number, Context.pop, hstack,
    Context.push_array, Context.push, w_times_loop_eq]

/-- The branch of `w_times` for a number held as a 64-bit integer pushes `n`
copies of the array when `n` is not negative and the vector may hold them. -/
theorem w_times_machine_integer (max_size : Nat) (context : Context) (elements s : List Value)
    (n : Int) (hstack : context.stack = .array elements :: .number n :: s)
    (hn : 0 ≤ n) (hfit : (elements.length : Int) * n ≤ max_size) (hmax : max_size < 2 ^ 63) :
    w_times max_size true context
      = .ret { context with stack := .array (List.replicate n.toNat elements).flatten :: s } := by
  have hp : 0 ≤ (elements.length : Int) * n := Int.mul_nonneg (Int.ofNat_nonneg _) hn
  have hcond : ¬ max_size < (((elements.length : Int) * n) % 2 ^ 64).toNat := by
    generalize (elements.length : Int) * n = p at hp hfit
    omega
  simp only [w_times, Context.pop_array, Context.pop_number, Context.pop, hstack,
    Context.push_array, Context.push, w_times_loop_eq]
  rw [if_pos trivial, if_neg hcond]
  simp

/-- C23 (refuted on the code): `w_times` with a negative count held as a
64-bit integer and an array that is not empty. The count is multiplied with
the size of the array in unsigned 64 bits for `reserve`, which throws
`std::length_error`; nothing is pushed. The same count held as an
arbitrary-precision integer pushes the empty array, as the claim has it. -/
theorem w_times_negative_count (max_size : Nat) (context : Context) (elements s : List Value)
    (n : Int) (hstack : context.stack = .array elements :: .number n :: s)
    (hmax : max_size < 2 ^ 63) (hne : elements ≠ []) (hneg : n < 0)
    (hprod : -2 ^ 63 ≤ (elements.length : Int) * n) :
    w_times max_size true context = .length_error { context with stack := s } ∧
    w_times max_size false context = .ret { context with stack := .array [] :: s } := by
  constructor
  · have hlen : (0 : Int) < elements.length := by
      have := List.length_pos.mpr hne
      omega
    have hp : (elements.length : Int) * n < 0 := Int.mul_neg_of_pos_of_neg hlen hneg
    have hcond : max_size < (((elements.length : Int) * n) % 2 ^ 64).toNat := by
      generalize (elements.length : Int) * n = p at hp hprod
      omega
    simp only [w_times, Context.pop_array, Context.pop_number, Context.pop, hstack]
    rw [if_pos trivial, if_pos hcond]
  · rw [w_times_big_integer max_size context elements s n hstack]
    have : n.toNat = 0 := by omega
    rw [this]
    rfl

/-- The array `[1]` and the count -1, with room for 2^60 - 1 elements. -/
theorem w_times_negative_count_witness :
    w_times (2 ^ 60 - 1) true ⟨[.array [.number 1], .number (-1)], [], none⟩
      = .length_error ⟨[], [], none⟩ ∧
    w_times (2 ^ 60 - 1) false ⟨[.array [.number 1], .number (-1)], [], none⟩
      = .ret ⟨[.array []], [], none⟩ :=
  w_times_negative_count (2 ^ 60 - 1) ⟨[.array [.number 1], .number (-1)], [], none⟩
    [.number 1] [] (-1) rfl (by norm_num) (by simp) (by norm_num) (by norm_num)

/-! ## Array objects that are shared -/

theorem Store.keeps_refl (st : Store) : st.keeps st := fun _ _ => rfl

theorem Store.keeps_trans {a b c : Store} (h1 : a.keeps b) (h2 : b.keeps c) : a.keeps c := by
  intro address h
  have hb : address < b.arrays.length := by
    have := h1 address h
    rw [List.get?_eq_get h] at this
    by_contra hn
    rw [List.get?_eq_none.mpr (by omega)] at this
    exact absurd this (by simp)
  rw [h2 address hb, h1 address h]

theorem Store.keeps_of_arrays {a b : Store} (h : b.arrays = a.arrays) : a.keeps b := by
  intro address _
  rw [h]

theorem Store.keeps_push_array (st : Store) (elements : List Ref) :
    st.keeps (st.push_array elements) := by
  intro address h
  simp only [Store.push_array, List.get?_eq_getElem?]
  rw [List.getElem?_append_left h]

theorem Store.pop_arrays (st : Store) : st.pop.2.arrays = st.arrays := by
  unfold Store.pop
  split <;> rfl

theorem Store.pop_array_arrays (st : Store) : st.pop_array.2.arrays = st.arrays := by
  have := st.pop_arrays
  unfold Store.pop_array
  split <;> simp_all [Store.set_error]

theorem Store.pop_number_arrays (st : Store) : st.pop_number.2.arrays = st.arrays := by
  have := st.pop_arrays
  unfold Store.pop_number
  split <;> simp_all [Store.set_error]

theorem Store.pop_quote_arrays (st : Store) : st.pop_quote.2.arrays = st.arrays := by
  have := st.pop_arrays
  unfold Store.pop_quote
  split <;> simp_all [Store.set_error]

theorem Store.pop_boolean_arrays (st : Store) : st.pop_boolean.2.arrays = st.arrays := by
  have := st.pop_arrays
  unfold Store.pop_boolean
  split <;> simp_all [Store.set_error]

theorem Shared.w_reverse_keeps (st : Store) : st.keeps (Shared.w_reverse st) := by
  have h1 := st.pop_array_arrays
  unfold Shared.w_reverse
  split
  · rename_i st1 heq
    rw [heq] at h1
    exact Store.keeps_of_arrays h1
  · rename_i array st1 heq
    rw [heq] at h1
    exact Store.keeps_trans (Store.keeps_of_arrays h1) (Store.keeps_push_array _ _)

theorem Shared.w_plus_keeps (st : Store) : st.keeps (Shared.w_plus st) := by
  have h1 := st.pop_array_arrays
  unfold Shared.w_plus
  split
  · rename_i st1 heq
    rw [heq] at h1
    exact Store.keeps_of_arrays h1
  · rename_i array st1 heq
    rw [heq] at h1
    have h2 := st1.pop_array_arrays
    split
    · rename_i st2 heq2
      rw [heq2] at h2
      exact Store.keeps_of_arrays (h2.trans h1)
    · rename_i array_b st2 heq2
      rw [heq2] at h2
      exact Store.keeps_trans (Store.keeps_of_arrays (h2.trans h1)) (Store.keeps_push_array _ _)

theorem Shared.w_set_keeps (st : Store) : st.keeps (Shared.w_set st) := by
  have h1 := st.pop_array_arrays
  unfold Shared.w_set
  split
  · rename_i st1 heq
    rw [heq] at h1
    exact Store.keeps_of_arrays h1
  · rename_i array st1 heq
    rw [heq] at h1
    have h2 := st1.pop_number_arrays
    split
    · rename_i st2 heq2
      rw [heq2] at h2
      exact Store.keeps_of_arrays (h2.trans h1)
    · rename_i index st2 heq2
      rw [heq2] at h2
      have h3 := st2.pop_arrays
      split
      · rename_i st3 heq3
        rw [heq3] at h3
        exact Store.keeps_of_arrays (h3.trans (h2.trans h1))
      · rename_i value st3 heq3
        rw [heq3] at h3
        refine Store.keeps_trans (Store.keeps_of_arrays (h3.trans (h2.trans h1))) ?_
        dsimp only
        split_ifs <;> exact Store.keeps_push_array _ _

theorem Shared.w_times_keeps (max_size : Nat) (number_type_int : Bool) (st : Store) :
    st.keeps (Shared.w_times max_size number_type_int st).get := by
  have h1 := st.pop_array_arrays
  unfold Shared.w_times
  split
  · rename_i st1 heq
    rw [heq] at h1
    exact Store.keeps_of_arrays h1
  · rename_i array st1 heq
    rw [heq] at h1
    have h2 := st1.pop_number_arrays
    split
    · rename_i st2 heq2
      rw [heq2] at h2
      exact Store.keeps_of_arrays (h2.trans h1)
    · rename_i number st2 heq2
      rw [heq2] at h2
      split
      · dsimp only
        split
        · exact Store.keeps_of_arrays (h2.trans h1)
        · exact Store.keeps_trans (Store.keeps_of_arrays (h2.trans h1))
            (Store.keeps_push_array _ _)
      · exact Store.keeps_trans (Store.keeps_of_arrays (h2.trans h1))
          (Store.keeps_push_array _ _)

theorem Shared.w_map_loop_keeps (call : Quote → Store → Run (Bool × Store))
    (hcall : ∀ (q : Quote) (st : Store) (ok : Bool) (st1 : Store),
      call q st = .ret (ok, st1) → st.keeps st1) (quote : Quote) :
    ∀ (elements : List Ref) (st : Store) (result : List Ref) (st1 : Store),
      Shared.w_map_loop call quote elements st result = .ret st1 → st.keeps st1 := by
  intro elements
  induction elements with
  | nil =>
    intro st result st1 h
    rw [Shared.w_map_loop] at h
    cases h
    exact Store.keeps_push_array _ _
  | cons element rest ih =>
    intro st result st1 h
    rw [Shared.w_map_loop] at h
    have hpush : st.keeps (st.push element) := Store.keeps_of_arrays rfl
    split at h
    · rename_i st2 heq
      cases h
      exact Store.keeps_trans hpush (hcall _ _ _ _ heq)
    · rename_i st2 heq
      have hk := Store.keeps_trans hpush (hcall _ _ _ _ heq)
      have hp := st2.pop_arrays
      split at h
      · rename_i st3 heq3
        rw [heq3] at hp
        cases h
        exact Store.keeps_trans hk (Store.keeps_of_arrays hp)
      · rename_i quote_result st3 heq3
        rw [heq3] at hp
        exact Store.keeps_trans (Store.keeps_trans hk (Store.keeps_of_arrays hp)) (ih _ _ _ h)
    · cases h
    · cases h

theorem Shared.w_filter_loop_keeps (call : Quote → Store → Run (Bool × Store))
    (hcall : ∀ (q : Quote) (st : Store) (ok : Bool) (st1 : Store),
      call q st = .ret (ok, st1) → st.keeps st1) (quote : Quote) :
    ∀ (elements : List Ref) (st : Store) (result : List Ref) (st1 : Store),
      Shared.w_filter_loop call quote elements st result = .ret st1 → st.keeps st1 := by
  intro elements
  induction elements with
  | nil =>
    intro st result st1 h
    rw [Shared.w_filter_loop] at h
    cases h
    exact Store.keeps_push_array _ _
  | cons element rest ih =>
    intro st result st1 h
    rw [Shared.w_filter_loop] at h
    have hpush : st.keeps (st.push element) := Store.keeps_of_arrays rfl
    split at h
    · rename_i st2 heq
      cases h
      exact Store.keeps_trans hpush (hcall _ _ _ _ heq)
    · rename_i st2 heq
      have hk := Store.keeps_trans hpush (hcall _ _ _ _ heq)
      have hp := st2.pop_boolean_arrays
      split at h
      · rename_i st3 heq3
        rw [heq3] at hp
        cases h
        exact Store.keeps_trans hk (Store.keeps_of_arrays hp)
      · rename_i quote_result st3 heq3
        rw [heq3] at hp
        split at h
        · exact Store.keeps_trans (Store.keeps_trans hk (Store.keeps_of_arrays hp))
            (ih _ _ _ h)
        · exact Store.keeps_trans (Store.keeps_trans hk (Store.keeps_of_arrays hp))
            (ih _ _ _ h)
    · cases h
    · cases h

theorem Shared.w_map_keeps (call : Quote → Store → Run (Bool × Store))
    (hcall : ∀ (q : Quote) (st : Store) (ok : Bool) (st1 : Store),
      call q st = .ret (ok, st1) → st.keeps st1) (st st1 : Store)
    (h : Shared.w_map call st = .ret st1) : st.keeps st1 := by
  have h1 := st.pop_array_arrays
  unfold Shared.w_map at h
  split at h
  · rename_i st2 heq
    rw [heq] at h1
    cases h
    exact Store.keeps_of_arrays h1
  · rename_i array st2 heq
    rw [heq] at h1
    have h2 := st2.pop_quote_arrays
    split at h
    · rename_i st3 heq2
      rw [heq2] at h2
      cases h
      exact Store.keeps_of_arrays (h2.trans h1)
    · rename_i quote st3 heq2
      rw [heq2] at h2
      exact Store.keeps_trans (Store.keeps_of_arrays (h2.trans h1))
        (Shared.w_map_loop_keeps call hcall quote _ _ _ _ h)

theorem Shared.w_filter_keeps (call : Quote → Store → Run (Bool × Store))
    (hcall : ∀ (q : Quote) (st : Store) (ok : Bool) (st1 : Store),
      call q st = .ret (ok, st1) → st.keeps st1) (st st1 : Store)
    (h : Shared.w_filter call st = .ret st1) : st.keeps st1 := by
  have h1 := st.pop_array_arrays
  unfold Shared.w_filter at h
  split at h
  · rename_i st2 heq
    rw [heq] at h1
    cases h
    exact Store.keeps_of_arrays h1
  · rename_i array st2 heq
    rw [heq] at h1
    have h2 := st2.pop_quote_arrays
    split at h
    · rename_i st3 heq2
      rw [heq2] at h2
      cases h
      exact Store.keeps_of_arrays (h2.trans h1)
    · rename_i quote st3 heq2
      rw [heq2] at h2
      exact Store.keeps_trans (Store.keeps_of_arrays (h2.trans h1))
        (Shared.w_filter_loop_keeps call hcall quote _ _ _ _ h)

/-- C24: the array words `map`, `filter`, `reverse`, `+`, `!` and `*` on array
objects that are shared by reference. Whatever the store and the stack are,
every array object that exists before one of these words runs is at its
address afterwards with the elements it had, so each holder of a reference to
it sees the same elements; for `map` and `filter` this is so when the calls of
the quote keep the array objects. The array that a word pushes is a new
object, at an address that no object had before: `reverse`, `+` and `!` leave
the store with one more object, and `!` writes to its own copy of the
elements. -/
theorem array_words_keep_input (call : Quote → Store → Run (Bool × Store))
    (hcall : ∀ (q : Quote) (st : Store) (ok : Bool) (st1 : Store),
      call q st = .ret (ok, st1) → st.keeps st1) (st : Store) :
    st.keeps (Shared.w_reverse st) ∧ st.keeps (Shared.w_plus st) ∧
    st.keeps (Shared.w_set st) ∧
    (∀ (max_size : Nat) (number_type_int : Bool),
      st.keeps (Shared.w_times max_size number_type_int st).get) ∧
    (∀ st1 : Store, Shared.w_map call st = .ret st1 → st.keeps st1) ∧
    (∀ st1 : Store, Shared.w_filter call st = .ret st1 → st.keeps st1) ∧
    (∀ elements : List Ref,
      st.push_array elements
        = ⟨st.arrays ++ [elements], .array st.arrays.length :: st.stack, st.error⟩ ∧
      st.arrays.get? st.arrays.length = none) ∧
    (∀ (array : Nat) (rest : List Ref), st.stack = .array array :: rest →
      Shared.w_reverse st
        = ⟨st.arrays ++ [(st.get_elements array).reverse], .array st.arrays.length :: rest,
            st.error⟩) ∧
    (∀ (a b : Nat) (rest : List Ref), st.stack = .array a :: .array b :: rest →
      Shared.w_plus st
        = ⟨st.arrays ++ [st.get_elements b ++ st.get_elements a],
            .array st.arrays.length :: rest, st.error⟩) ∧
    (∀ (array : Nat) (index : Int) (value : Ref) (rest : List Ref),
      st.stack = .array array :: .other (.number index) :: value :: rest →
      ∃ elements : List Ref,
        Shared.w_set st
          = ⟨st.arrays ++ [elements], .array st.arrays.length :: rest, st.error⟩) := by
  refine ⟨Shared.w_reverse_keeps st, Shared.w_plus_keeps st, Shared.w_set_keeps st,
    fun max_size number_type_int => Shared.w_times_keeps max_size number_type_int st,
    fun st1 h => Shared.w_map_keeps call hcall st st1 h,
    fun st1 h => Shared.w_filter_keeps call hcall st st1 h, ?_, ?_, ?_, ?_⟩
  · intro elements
    exact ⟨rfl, List.get?_eq_none.mpr (Nat.le_refl _)⟩
  · intro array rest hstack
    simp [Shared.w_reverse, Store.pop_array, Store.pop, hstack, Store.push_array,
      Store.get_elements]
  · intro a b rest hstack
    simp [Shared.w_plus, Store.pop_array, Store.pop, hstack, Store.push_array,
      Store.get_elements]
  · intro array index value rest hstack
    simp only [Shared.w_set, Store.pop_array, Store.pop_number, Store.pop, hstack,
      Store.push_array]
    split_ifs <;> exact ⟨_, rfl⟩

/-- One array object `[1, 2]` held twice on the stack, as after `dup`:
`reverse` leaves the object at address 0 as it was, for the holder that
remains, and pushes the new object `[2, 1]` at address 1. The quotes of the
example leave the store alone. -/
theorem array_words_keep_input_witness :
    (Shared.w_reverse
        ⟨[[.other (.number 1), .other (.number 2)]], [.array 0, .array 0], none⟩).arrays.get? 0
      = some [.other (.number 1), .other (.number 2)] ∧
    Shared.w_reverse ⟨[[.other (.number 1), .other (.number 2)]], [.array 0, .array 0], none⟩
      = ⟨[[.other (.number 1), .other (.number 2)], [.other (.number 2), .other (.number 1)]],
          [.array 1, .array 0], none⟩ :=
  ⟨(array_words_keep_input (fun _ st => .ret (true, st))
      (fun _ st _ st1 h => by cases h; exact Store.keeps_refl st)
      ⟨[[.other (.number 1), .other (.number 2)]], [.array 0, .array 0], none⟩).1 0
      (by decide),
    (array_words_keep_input (fun _ st => .ret (true, st))
      (fun _ st _ st1 h => by cases h; exact Store.keeps_refl st)
      ⟨[[.other (.number 1), .other (.number 2)]], [.array 0, .array 0], none⟩).2.2.2.2.2.2.2.1
      0 [.array 0] rfl⟩

/-! ## Mapping a quote over an array -/

theorem w_map_loop_maps (call : Quote → Context → Run (Bool × Context)) (q : Quote)
    (f : Value → Value) (ctx : Context) :
    ∀ (elements result : List Value),
      (∀ x ∈ elements, call q (ctx.push x) = .ret (true, ctx.push (f x))) →
      w_map_loop call q elements ctx result
        = .ret (ctx.push_array (result ++ elements.map f)) := by
  intro elements
  induction elements with
  | nil =>
    intro result _
    simp [w_map_loop]
  | cons e rest ih =>
    intro result h
    have he := h e (List.mem_cons_self e rest)
    have hrest : ∀ x ∈ rest, call q (ctx.push x) = .ret (true, ctx.push (f x)) :=
      fun x hx => h x (List.mem_cons_of_mem e hx)
    rw [w_map_loop, he]
    have hpop : (ctx.push (f e)).pop = (some (f e), ctx) := rfl
    simp only [hpop]
    rw [ih (result ++ [f e]) hrest]
    simp

/-- C25 (as the code has it): `w_map`. With the array `[e1..en]` on top of
the stack and below it a quote whose call replaces each `ei` on top of the
stack by `f ei`, that is with the quote pushed first and the array second,
`map` replaces the two by the one array `[f e1..f en]`, of the same length and
order, and leaves the error slot as it was. -/
theorem w_map_maps (call : Quote → Context → Run (Bool × Context)) (context : Context)
    (q : Quote) (f : Value → Value) (elements s : List Value)
    (hstack : context.stack = .array elements :: .quote q :: s)
    (hq : ∀ x ∈ elements,
      call q ⟨x :: s, context.dictionary, context.error⟩
        = .ret (true, ⟨f x :: s, context.dictionary, context.error⟩)) :
    w_map call context = .ret { context with stack := .array (elements.map f) :: s } ∧
    (elements.map f).length = elements.length := by
  constructor
  · simp only [w_map, Context.pop_array, Context.pop_quote, Context.pop, hstack]
    rw [w_map_loop_maps call q f ⟨s, context.dictionary, context.error⟩ elements [] hq]
    rfl
  · simp

/-- On the runtime with `dup` and `*`, the quote `( 2 * )` below the array
`[1, 2, 3]` gives `[2, 4, 6]`. -/
theorem w_map_maps_witness :
    w_map (Quote.call arith_runtime 5)
        ⟨[.array [.number 1, .number 2, .number 3],
          .quote (.compiled [⟨.word, "2"⟩, ⟨.word, "*"⟩])], [], none⟩
      = .ret ⟨[.array [.number 2, .number 4, .number 6]], [], none⟩ :=
  (w_map_maps (Quote.call arith_runtime 5)
    ⟨[.array [.number 1, .number 2, .number 3],
      .quote (.compiled [⟨.word, "2"⟩, ⟨.word, "*"⟩])], [], none⟩
    (.compiled [⟨.word, "2"⟩, ⟨.word, "*"⟩])
    (fun x => match x with
      | .number n => .number (n * 2)
      | other => other)
    [.number 1, .number 2, .number 3] [] rfl
    (by
      intro x hx
      simp only [List.mem_cons, List.mem_singleton, List.not_mem_nil, or_false] at hx
      rcases hx with rfl | rfl | rfl <;> rfl)).1

/-- C25 (the claim as stated fails): in the order of `[1, 2, 3] ( 2 * ) map`
the quote is on top of the stack and the array below it; `w_map` pops the
quote where it expects the array, latches a Type error and builds no array. -/
theorem w_map_quote_on_top :
    w_map (Quote.call arith_runtime 5)
        ⟨[.quote (.compiled [⟨.word, "2"⟩, ⟨.word, "*"⟩]),
          .array [.number 1, .number 2, .number 3]], [], none⟩
      = .ret ⟨[.array [.number 1, .number 2, .number 3]], [],
          some (.type_error, "Expected array.")⟩ := by
  rfl

/-! ## Error words -/

/-- What `w_try` does behind its two pops, when the call of the try quote
fails with an error latched. -/
theorem w_try_failed (call : Quote → Context → Run (Bool × Context)) (state s1 : Context)
    (t c : Quote) (s : List Value) (code : ErrorCode) (message : String)
    (hstack : state.stack = .quote c :: .quote t :: s)
    (ht : call t { state with stack := s } = .ret (false, s1))
    (herr : s1.error = some (code, message)) :
    w_try call state =
      match call c ⟨.error code message :: s1.stack, s1.dictionary, none⟩ with
      | .ret (_, s5) => .ret s5
      | .undefined => .undefined
      | .out_of_fuel => .out_of_fuel := by
  simp only [w_try, Context.pop_quote, Context.pop, hstack, ht, herr, Context.push]

/-- C26: `w_try`. With the catch quote `c` on top of the stack and the try
quote `t` below it, `try` removes both and calls `t`. If that call succeeds,
the result is the context as `t` left it, whatever the call of `c` would do.
If it fails with the error `(code, message)` latched, the result is that of
calling `c` on the context that `t` left, with the error pushed as a value on
its stack and with the error slot empty; so the error slot at the end is the
one that the call of `c` leaves. -/
theorem w_try_catches (call : Quote → Context → Run (Bool × Context)) (state : Context)
    (t c : Quote) (s : List Value) (hstack : state.stack = .quote c :: .quote t :: s) :
    (∀ s1 : Context, call t { state with stack := s } = .ret (true, s1) →
      w_try call state = .ret s1) ∧
    (∀ (s1 : Context) (code : ErrorCode) (message : String),
      call t { state with stack := s } = .ret (false, s1) →
      s1.error = some (code, message) →
      (∀ (ok : Bool) (s2 : Context),
        call c ⟨.error code message :: s1.stack, s1.dictionary, none⟩ = .ret (ok, s2) →
        w_try call state = .ret s2) ∧
      (call c ⟨.error code message :: s1.stack, s1.dictionary, none⟩ = .undefined →
        w_try call state = .undefined) ∧
      (call c ⟨.error code message :: s1.stack, s1.dictionary, none⟩ = .out_of_fuel →
        w_try call state = .out_of_fuel)) := by
  constructor
  · intro s1 h
    simp only [w_try, Context.pop_quote, Context.pop, hstack, h]
  · intro s1 code message h herr
    have hrun := w_try_failed call state s1 t c s code message hstack h herr
    refine ⟨?_, ?_, ?_⟩
    · intro ok s2 hc
      rw [hrun, hc]
    · intro hc
      rw [hrun, hc]
    · intro hc
      rw [hrun, hc]

/-- On the runtime with `dup` and `*`: the try quote `( * )` fails on the
empty stack with a Type error, the catch quote `( dup )` then duplicates the
error value; without an error the try quote `( 3 )` alone is run. -/
theorem w_try_catches_witness :
    w_try (Quote.call arith_runtime 5)
        ⟨[.quote (.compiled [⟨.word, "dup"⟩]), .quote (.compiled [⟨.word, "*"⟩])], [], none⟩
      = .ret ⟨[.error .type_error "Expected number.", .error .type_error "Expected number."],
          [], none⟩ :=
  ((w_try_catches (Quote.call arith_runtime 5)
    ⟨[.quote (.compiled [⟨.word, "dup"⟩]), .quote (.compiled [⟨.word, "*"⟩])], [], none⟩
    (.compiled [⟨.word, "*"⟩]) (.compiled [⟨.word, "dup"⟩]) [] rfl).2
      ⟨[], [], some (.type_error, "Expected number.")⟩ .type_error "Expected number."
      rfl rfl).1 true _ rfl

/-- C27: `w_code` and `w_try`. With an error value on top of the stack,
`error.code` leaves it in place and pushes the number of its code on top of
it, so the stack grows by one. Hence `try` with a first quote `t` that fails
with the error `(code, message)` latched and a second quote `c` whose call
runs `error.code` ends with the number of `code` on top of the stack, the
error value below it, and an empty error slot. -/
theorem w_code_pushes_code (code_number : ErrorCode → Int)
    (call : Quote → Context → Run (Bool × Context)) (state s1 : Context) (t c : Quote)
    (s : List Value) (code : ErrorCode) (message : String)
    (hstack : state.stack = .quote c :: .quote t :: s)
    (ht : call t { state with stack := s } = .ret (false, s1))
    (herr : s1.error = some (code, message))
    (hc : call c ⟨.error code message :: s1.stack, s1.dictionary, none⟩
      = .ret ((w_code code_number
            ⟨.error code message :: s1.stack, s1.dictionary, none⟩).error.isNone,
          w_code code_number ⟨.error code message :: s1.stack, s1.dictionary, none⟩)) :
    (∀ (st : Context) (e_code : ErrorCode) (e_message : String) (r : List Value),
      st.stack = .error e_code e_message :: r →
      w_code code_number st
          = { st with stack := .number (code_number e_code) :: .error e_code e_message :: r } ∧
        (w_code code_number st).stack.length = st.stack.length + 1) ∧
    w_try call state
      = .ret ⟨.number (code_number code) :: .error code message :: s1.stack,
          s1.dictionary, none⟩ := by
  have hcode : ∀ (st : Context) (e_code : ErrorCode) (e_message : String) (r : List Value),
      st.stack = .error e_code e_message :: r →
      w_code code_number st
        = { st with stack := .number (code_number e_code) :: .error e_code e_message :: r } := by
    intro st e_code e_message r hst
    simp [w_code, Context.peek_error, hst, Context.push]
  refine ⟨fun st e_code e_message r hst => ⟨hcode st e_code e_message r hst, ?_⟩, ?_⟩
  · rw [hcode st e_code e_message r hst, hst]
    rfl
  · rw [w_try_failed call state s1 t c s code message hstack ht herr, hc]
    simp only
    rw [hcode _ code message s1.stack rfl]

/-- On the runtime with `error.code`: the try quote `( * )` fails on the empty
stack with a Type error, and the catch quote `( error.code )` leaves the
number of that code on top of the error value. -/
theorem w_code_pushes_code_witness :
    w_try (Quote.call (error_runtime example_code_number) 5)
        ⟨[.quote (.compiled [⟨.word, "error.code"⟩]), .quote (.compiled [⟨.word, "*"⟩])],
          [], none⟩
      = .ret ⟨[.number 3, .error .type_error "Expected number."], [], none⟩ :=
  (w_code_pushes_code example_code_number (Quote.call (error_runtime example_code_number) 5)
    ⟨[.quote (.compiled [⟨.word, "error.code"⟩]), .quote (.compiled [⟨.word, "*"⟩])], [], none⟩
    ⟨[], [], some (.type_error, "Expected number.")⟩
    (.compiled [⟨.word, "*"⟩]) (.compiled [⟨.word, "error.code"⟩]) [] .type_error
    "Expected number." rfl rfl rfl rfl).2

/-! ## The bracket counter -/

theorem skip_string_at_quote (input : List Char) (fuel i : Nat) (hi : i < input.length)
    (hq : input.getD i ' ' = '"') : skip_string input (fuel + 1) i = i := by
  rw [skip_string, if_pos hi, if_pos hq]

theorem getD_drop (input : List Char) (i : Nat) (hi : i < input.length) :
    input.drop i = input.getD i ' ' :: input.drop (i + 1) := by
  rw [List.drop_eq_getElem_cons hi]
  simp [List.getD_eq_getElem?_getD, List.getElem?_eq_getElem hi]

/-- The loop of `count_open_braces` does to the stack what the characters from
index `i` on do one after the other, whenever the turns allowed reach the end
of the text. -/
theorem count_open_braces_loop_eq (input : List Char) :
    ∀ (fuel i : Nat) (st : List Char), input.length < fuel + i →
      count_open_braces_loop input fuel i st = bracket_scan (input.drop i) st := by
  intro fuel
  induction fuel with
  | zero =>
    intro i st h
    rw [List.drop_eq_nil_of_le (by omega)]
    simp [count_open_braces_loop, bracket_scan]
  | succ fuel ih =>
    intro i st h
    by_cases hi : i < input.length
    · rw [getD_drop input i hi, count_open_braces_loop, if_pos hi, bracket_scan]
      dsimp only
      generalize hc : input.getD i ' ' = c
      by_cases h1 : c = '#'
      · rw [if_pos h1, if_pos h1]
      · rw [if_neg h1, if_neg h1]
        unfold bracket_step
        by_cases h2 : c = '('
        · rw [if_pos h2, if_pos h2, ih (i + 1) _ (by omega)]
        · rw [if_neg h2, if_neg h2]
          by_cases h3 : c = '['
          · rw [if_pos h3, if_pos h3, ih (i + 1) _ (by omega)]
          · rw [if_neg h3, if_neg h3]
            by_cases h4 : c = '\x7b'
            · rw [if_pos h4, if_pos h4, ih (i + 1) _ (by omega)]
            · rw [if_neg h4, if_neg h4]
              by_cases h5 : c = ')' ∨ c = ']' ∨ c = '\x7d'
              · rw [if_pos h5, if_pos h5]
                cases st with
                | nil =>
                  dsimp only
                  rw [ih (i + 1) _ (by omega)]
                | cons top below =>
                  dsimp only
                  by_cases h6 : top = c
                  · rw [if_pos h6, if_pos h6, ih (i + 1) _ (by omega)]
                  · rw [if_neg h6, if_neg h6, ih (i + 1) _ (by omega)]
              · rw [if_neg h5, if_neg h5]
                by_cases h7 : c = '"'
                · rw [if_pos h7, skip_string_at_quote input _ i hi (hc.trans h7),
                    ih (i + 1) _ (by omega)]
                · rw [if_neg h7, ih (i + 1) _ (by omega)]
    · rw [List.drop_eq_nil_of_le (by omega)]
      simp [count_open_braces_loop, hi, bracket_scan]

theorem count_open_braces_eq (input st : List Char) :
    count_open_braces input st = bracket_scan input st := by
  unfold count_open_braces
  rw [count_open_braces_loop_eq input _ 0 st (by omega)]
  simp

theorem bracket_scan_cons (c : Char) (rest st : List Char) (h : c ≠ '#') :
    bracket_scan (c :: rest) st = bracket_scan rest (bracket_step c st) := by
  rw [bracket_scan, if_neg h]

theorem count_open_braces_cons (c : Char) (rest st : List Char) (h : c ≠ '#') :
    count_open_braces (c :: rest) st = count_open_braces rest (bracket_step c st) := by
  rw [count_open_braces_eq, count_open_braces_eq, bracket_scan_cons c rest st h]

/-- C28 (refuted on the code): `count_open_braces` does not skip string
literals. At a double quote its `while` loop is entered with the index on that
very quote, finds a quote and leaves at once, so the characters behind the
quote are taken as code: the line `"("` pushes a closing paren. -/
theorem count_open_braces_scans_strings :
    count_open_braces ['"', '(', '"'] [] = [')'] ∧
    (∀ rest st : List Char, count_open_braces ('"' :: rest) st = count_open_braces rest st) ∧
    (∀ (input : List Char) (fuel i : Nat), i < input.length → input.getD i ' ' = '"' →
      skip_string input (fuel + 1) i = i) := by
  refine ⟨by decide, fun rest st => ?_, fun input fuel i hi hq => ?_⟩
  · rw [count_open_braces_cons '"' rest st (by decide)]
    rfl
  · exact skip_string_at_quote input fuel i hi hq

/-! ## Line by line -/

theorem lines_of_ne_nil (text : List Char) : lines_of text ≠ [] := by
  cases text with
  | nil => simp [lines_of]
  | cons c rest =>
    rw [lines_of]
    split
    · simp
    · split <;> simp

theorem lines_of_no_feed (text : List Char) (h : '\n' ∉ text) : lines_of text = [text] := by
  induction text with
  | nil => rfl
  | cons c rest ih =>
    have hc : c ≠ '\n' := fun e => h (by simp [e])
    have hr : '\n' ∉ rest := fun e => h (by simp [e])
    rw [lines_of, if_neg hc, ih hr]

/-- Feeding the lines of a text to `count_open_braces` one after the other. -/
theorem feed_lines_eq (text : List Char)
    (h : ∀ pre suf : List Char, text = pre ++ '\n' :: suf → '#' ∉ pre) :
    ∀ st : List Char,
      (lines_of text).foldl (fun s line => count_open_braces line s) st
        = count_open_braces text st := by
  induction text with
  | nil =>
    intro st
    simp [lines_of]
  | cons c rest ih =>
    intro st
    have hrest : ∀ pre suf : List Char, rest = pre ++ '\n' :: suf → '#' ∉ pre := by
      intro pre suf e hm
      exact h (c :: pre) suf (by rw [e]; rfl) (List.mem_cons_of_mem c hm)
    by_cases hc : c = '\n'
    · subst hc
      rw [lines_of, if_pos rfl, List.foldl_cons, ih hrest,
        count_open_braces_cons '\n' rest st (by decide)]
      have e1 : count_open_braces [] st = st := by
        rw [count_open_braces_eq]; rfl
      have e2 : bracket_step '\n' st = st := by
        simp [bracket_step]
      rw [e1, e2]
    · rw [lines_of, if_neg hc]
      obtain ⟨line, more, hl⟩ : ∃ line more, lines_of rest = line :: more := by
        cases hlo : lines_of rest with
        | nil => exact absurd hlo (lines_of_ne_nil rest)
        | cons line more => exact ⟨line, more, rfl⟩
      rw [hl]
      dsimp only
      rw [List.foldl_cons]
      by_cases hh : c = '#'
      · subst hh
        have hfeed : '\n' ∉ rest := by
          intro hm
          obtain ⟨pre, suf, e⟩ := List.append_of_mem hm
          exact h ('#' :: pre) suf (by rw [e]; rfl) (by simp)
        rw [lines_of_no_feed rest hfeed] at hl
        simp only [List.cons.injEq] at hl
        obtain ⟨rfl, rfl⟩ := hl
        rw [List.foldl_nil]
      · have := ih hrest (bracket_step c st)
        rw [hl, List.foldl_cons] at this
        rw [count_open_braces_cons c line st hh, count_open_braces_cons c rest st hh, this]

/-- C29 (as the code has it): for every text in which no `#` stands before a
line feed, in particular for every text without `#`, and every initial stack,
applying `count_open_braces` to the lines of the text one after the other
gives the same final stack as applying it once to the whole text. -/
theorem count_open_braces_line_by_line (text st : List Char)
    (h : ∀ pre suf : List Char, text = pre ++ '\n' :: suf → '#' ∉ pre) :
    (lines_of text).foldl (fun s line => count_open_braces line s) st
      = count_open_braces text st :=
  feed_lines_eq text h st

/-- The two lines `[1, (` and `2)` on an empty stack. -/
theorem count_open_braces_line_by_line_witness :
    (lines_of ['[', '1', ',', ' ', '(', '\n', '2', ')']).foldl
        (fun s line => count_open_braces line s) []
      = count_open_braces ['[', '1', ',', ' ', '(', '\n', '2', ')'] [] := by
  refine count_open_braces_line_by_line _ [] ?_
  intro pre suf e hm
  have hall : '#' ∉ ['[', '1', ',', ' ', '(', '\n', '2', ')'] := by decide
  exact hall (by rw [e]; simp [hm])

/-- C29 (the claim as stated fails): on the text of the two lines `#` and `(`
the function, applied to the whole text, returns at the `#` and leaves the
stack empty; applied line by line it pushes a closing paren for the second
line. -/
theorem count_open_braces_comment_line :
    count_open_braces ['#', '\n', '('] [] = [] ∧
    (lines_of ['#', '\n', '(']).foldl (fun s line => count_open_braces line s) [] = [')'] := by
  constructor <;> decide

theorem bracket_step_plain (c : Char) (st : List Char) (h : plain_char c) :
    bracket_step c st = st := by
  obtain ⟨h1, h2, h3, h4, h5, h6, -, -⟩ := h
  unfold bracket_step
  rw [if_neg h1, if_neg h3, if_neg h5, if_neg (by simp [h2, h4, h6])]

theorem closer_of_cases (o cl : Char) (h : closer_of o = some cl) :
    (o = '(' ∧ cl = ')') ∨ (o = '[' ∧ cl = ']') ∨ (o = '\x7b' ∧ cl = '\x7d') := by
  unfold closer_of at h
  split at h
  · left; exact ⟨‹_›, (Option.some.inj h).symm⟩
  · split at h
    · right; left; exact ⟨‹_›, (Option.some.inj h).symm⟩
    · split at h
      · right; right; exact ⟨‹_›, (Option.some.inj h).symm⟩
      · exact absurd h (by simp)

theorem bracket_scan_opener (o cl : Char) (rest st : List Char) (h : closer_of o = some cl) :
    bracket_scan (o :: rest) st = bracket_scan rest (cl :: st) := by
  rcases closer_of_cases o cl h with ⟨rfl, rfl⟩ | ⟨rfl, rfl⟩ | ⟨rfl, rfl⟩ <;> rfl

theorem bracket_scan_closer (o cl : Char) (rest st : List Char) (h : closer_of o = some cl) :
    bracket_scan (cl :: rest) (cl :: st) = bracket_scan rest st := by
  rcases closer_of_cases o cl h with ⟨rfl, rfl⟩ | ⟨rfl, rfl⟩ | ⟨rfl, rfl⟩ <;> rfl

theorem bracket_scan_nested (a : List Char) (h : Nested a) :
    ∀ b st : List Char, bracket_scan (a ++ b) st = bracket_scan b st := by
  induction h with
  | nil => intro b st; rfl
  | plain c t hc _ ih =>
    intro b st
    rw [List.cons_append, bracket_scan, if_neg hc.2.2.2.2.2.2.1, bracket_step_plain c st hc, ih]
  | bracket o cl a b' ho _ _ iha ihb =>
    intro b st
    rw [List.cons_append, bracket_scan_opener o cl _ st ho, List.append_assoc, iha,
      List.cons_append, bracket_scan_closer o cl _ st ho, ihb]

theorem bracket_scan_unclosed (t cs : List Char) (h : Unclosed t cs) :
    ∀ st : List Char, bracket_scan t st = cs ++ st := by
  induction h with
  | closed t ht =>
    intro st
    have := bracket_scan_nested t ht [] st
    rw [List.append_nil] at this
    rw [this]; rfl
  | opened a o cl b cs ha ho _ ih =>
    intro st
    rw [bracket_scan_nested a ha, bracket_scan_opener o cl b st ho, ih, List.append_assoc]
    rfl

theorem bracket_scan_closer_other (c : Char) (rest st : List Char)
    (hc : c = ')' ∨ c = ']' ∨ c = '\x7d') (h : st.head? ≠ some c) :
    bracket_scan (c :: rest) st = bracket_scan rest st := by
  have hstep : bracket_step c st = st := by
    unfold bracket_step
    have h1 : c ≠ '(' := by rcases hc with rfl | rfl | rfl <;> decide
    have h2 : c ≠ '[' := by rcases hc with rfl | rfl | rfl <;> decide
    have h3 : c ≠ '\x7b' := by rcases hc with rfl | rfl | rfl <;> decide
    rw [if_neg h1, if_neg h2, if_neg h3, if_pos hc]
    cases st with
    | nil => rfl
    | cons top below =>
      have : top ≠ c := fun e => h (by rw [e]; rfl)
      simp only [if_neg this]
  have hh : c ≠ '#' := by rcases hc with rfl | rfl | rfl <;> decide
  rw [bracket_scan, if_neg hh, hstep]

/-- C30: on a text without double quote and `#`, `count_open_braces` lets an
opening bracket push its closer and lets a closing bracket pop exactly when it
is the top of the stack; hence a text with properly nested, balanced brackets
returns the stack it was given, and a text that leaves openers unclosed puts
their closers on the stack, the innermost on top. The line `[1, 2,` on the
empty stack gives the stack holding `]`, and the line `3]` then empties it. -/
theorem count_open_braces_nesting :
    (∀ (o cl : Char) (rest st : List Char), closer_of o = some cl →
      count_open_braces (o :: rest) st = count_open_braces rest (cl :: st)) ∧
    (∀ (o cl : Char) (rest st : List Char), closer_of o = some cl →
      count_open_braces (cl :: rest) (cl :: st) = count_open_braces rest st) ∧
    (∀ (c : Char) (rest st : List Char), (c = ')' ∨ c = ']' ∨ c = '\x7d') →
      st.head? ≠ some c → count_open_braces (c :: rest) st = count_open_braces rest st) ∧
    (∀ t st : List Char, Nested t → count_open_braces t st = st) ∧
    (∀ t cs st : List Char, Unclosed t cs → count_open_braces t st = cs ++ st) ∧
    Unclosed ['[', '1', ',', ' ', '2', ','] [']'] ∧
    count_open_braces ['[', '1', ',', ' ', '2', ','] [] = [']'] ∧
    count_open_braces ['3', ']'] [']'] = [] := by
  refine ⟨?_, ?_, ?_, ?_, ?_, ?_, by decide, by decide⟩
  · intro o cl rest st h
    rw [count_open_braces_eq, count_open_braces_eq, bracket_scan_opener o cl rest st h]
  · intro o cl rest st h
    rw [count_open_braces_eq, count_open_braces_eq, bracket_scan_closer o cl rest st h]
  · intro c rest st hc h
    rw [count_open_braces_eq, count_open_braces_eq, bracket_scan_closer_other c rest st hc h]
  · intro t st h
    have := bracket_scan_nested t h [] st
    rw [List.append_nil] at this
    rw [count_open_braces_eq, this]
    rfl
  · intro t cs st h
    rw [count_open_braces_eq, bracket_scan_unclosed t cs h st]
  · have hp : ∀ c : Char, c ∈ ['1', ',', ' ', '2', ','] → plain_char c := by
      intro c hc
      simp only [List.mem_cons, List.mem_singleton, List.not_mem_nil, or_false] at hc
      unfold plain_char
      rcases hc with rfl | rfl | rfl | rfl | rfl <;> decide
    have hn : Nested ['1', ',', ' ', '2', ','] :=
      Nested.plain _ _ (hp _ (by simp)) (Nested.plain _ _ (hp _ (by simp))
        (Nested.plain _ _ (hp _ (by simp)) (Nested.plain _ _ (hp _ (by simp))
          (Nested.plain _ _ (hp _ (by simp)) Nested.nil))))
    exact Unclosed.opened [] '[' ']' _ [] Nested.nil rfl (Unclosed.closed _ hn)

/-! ## The command line -/

theorem scan_switches_cons (b : Build) (c : Char) (cs : List Char) (rest : List (List Char))
    (o : Options) :
    scan_switches b (c :: cs) rest o
      = if c = 'c' then scan_switches b cs rest { o with flag_test_syntax := true }
        else if c = 'e' then
          match rest with
          | program :: rest1 =>
              scan_switches b cs rest1
                { o with inline_script :=
                    string_append_fill (o.inline_script ++ program) ('\n').toNat (Char.ofNat 1) }
          | [] => .exit EX_USAGE .argument_expected_e
        else if c = 'f' then scan_switches b cs rest { o with flag_fork := true }
        else if c = 'r' then
          if b.enable_modules then
            match rest with
            | path :: rest1 =>
                match b.utf8_decode_test path with
                | none => .exit EXIT_FAILURE .undecodable_module_path
                | some module_path =>
                    scan_switches b cs rest1
                      { o with imported_modules := set_insert o.imported_modules module_path }
            | [] => .exit EX_USAGE .argument_expected_r
          else .exit EXIT_FAILURE .modules_disabled
        else if c = 'h' then .exit EXIT_SUCCESS .help
        else .exit EX_USAGE (.unrecognized_switch [c]) := rfl

theorem scan_loop_empty (b : Build) (fuel : Nat) (rest : List (List Char)) (o : Options) :
    scan_loop b (fuel + 1) ([] :: rest) o = scan_loop b fuel rest o := rfl

theorem scan_loop_plain (b : Build) (fuel : Nat) (c0 : Char) (tail : List Char)
    (rest : List (List Char)) (o : Options) (h : c0 ≠ '-') :
    scan_loop b (fuel + 1) ((c0 :: tail) :: rest) o
      = .done (rest,
          if o.inline_script.isEmpty then { o with script_filename := some (c0 :: tail) }
          else o) := by
  unfold scan_loop
  simp only [if_pos h]

theorem scan_loop_dash (b : Build) (fuel : Nat) (rest : List (List Char)) (o : Options) :
    scan_loop b (fuel + 1) (['-'] :: rest) o = .done (rest, o) := rfl

theorem scan_loop_long (b : Build) (fuel : Nat) (tail : List Char)
    (rest : List (List Char)) (o : Options) :
    scan_loop b (fuel + 1) (('-' :: '-' :: tail) :: rest) o
      = if '-' :: '-' :: tail = ['-', '-', 'h', 'e', 'l', 'p'] then .exit EXIT_SUCCESS .help
        else if '-' :: '-' :: tail = ['-', '-', 'v', 'e', 'r', 's', 'i', 'o', 'n'] then
          .exit EXIT_SUCCESS .version
        else if '-' :: '-' :: tail = ['-', '-'] then
          match rest with
          | file :: rest1 => .done (rest1, { o with script_filename := some file })
          | [] => .done (rest, o)
        else .exit EX_USAGE (.unrecognized_switch ('-' :: '-' :: tail)) := by
  rfl

theorem scan_loop_cluster (b : Build) (fuel : Nat) (c1 : Char) (tail : List Char)
    (rest : List (List Char)) (o : Options) (h : c1 ≠ '-') :
    scan_loop b (fuel + 1) (('-' :: c1 :: tail) :: rest) o
      = match scan_switches b (c1 :: tail) rest o with
        | .done (rest1, o1) => scan_loop b fuel rest1 o1
        | .exit status site => .exit status site
        | .out_of_fuel => .out_of_fuel := by
  conv_lhs => unfold scan_loop
  simp only [ne_eq, not_true_eq_false, if_false, if_neg h]
  try rfl

/-- The shapes that an argument can have for the first loop of
`scan_arguments`. -/
theorem argument_shapes (arg : List Char) :
    arg = [] ∨ (∃ c0 tail, arg = c0 :: tail ∧ c0 ≠ '-') ∨ arg = ['-'] ∨
    (∃ tail, arg = '-' :: '-' :: tail) ∨ (∃ c1 tail, arg = '-' :: c1 :: tail ∧ c1 ≠ '-') := by
  cases arg with
  | nil => exact Or.inl rfl
  | cons c0 tail =>
    by_cases h0 : c0 = '-'
    · subst h0
      cases tail with
      | nil => exact Or.inr (Or.inr (Or.inl rfl))
      | cons c1 tail =>
        by_cases h1 : c1 = '-'
        · subst h1
          exact Or.inr (Or.inr (Or.inr (Or.inl ⟨tail, rfl⟩)))
        · exact Or.inr (Or.inr (Or.inr (Or.inr ⟨c1, tail, rfl, h1⟩)))
    · exact Or.inr (Or.inl ⟨c0, tail, rfl, h0⟩)

theorem scan_switches_length (b : Build) :
    ∀ (cs : List Char) (rest : List (List Char)) (o : Options) (rest1 : List (List Char))
      (o1 : Options),
      scan_switches b cs rest o = .done (rest1, o1) → rest1.length ≤ rest.length := by
  intro cs
  induction cs with
  | nil =>
    intro rest o rest1 o1 h
    simp only [scan_switches, Scanned.done.injEq, Prod.mk.injEq] at h
    rw [← h.1]
  | cons c cs ih =>
    intro rest o rest1 o1 h
    rw [scan_switches_cons] at h
    by_cases h1 : c = 'c'
    · rw [if_pos h1] at h
      exact ih _ _ _ _ h
    rw [if_neg h1] at h
    by_cases h2 : c = 'e'
    · rw [if_pos h2] at h
      cases rest with
      | nil => cases h
      | cons program rest =>
        have := ih _ _ _ _ h
        simp only [List.length_cons]
        omega
    rw [if_neg h2] at h
    by_cases h3 : c = 'f'
    · rw [if_pos h3] at h
      exact ih _ _ _ _ h
    rw [if_neg h3] at h
    by_cases h4 : c = 'r'
    · rw [if_pos h4] at h
      by_cases hm : b.enable_modules = true
      · rw [if_pos hm] at h
        cases rest with
        | nil => cases h
        | cons path rest =>
          simp only at h
          cases hd : b.utf8_decode_test path with
          | none => rw [hd] at h; cases h
          | some m =>
            rw [hd] at h
            have := ih _ _ _ _ h
            simp only [List.length_cons]
            omega
      · rw [if_neg hm] at h
        cases h
    rw [if_neg h4] at h
    by_cases h5 : c = 'h'
    · rw [if_pos h5] at h
      cases h
    · rw [if_neg h5] at h
      cases h

theorem scan_switches_ne_out_of_fuel (b : Build) :
    ∀ (cs : List Char) (rest : List (List Char)) (o : Options),
      scan_switches b cs rest o ≠ .out_of_fuel := by
  intro cs
  induction cs with
  | nil =>
    intro rest o
    simp [scan_switches]
  | cons c cs ih =>
    intro rest o h
    rw [scan_switches_cons] at h
    by_cases h1 : c = 'c'
    · rw [if_pos h1] at h
      exact ih _ _ h
    rw [if_neg h1] at h
    by_cases h2 : c = 'e'
    · rw [if_pos h2] at h
      cases rest with
      | nil => cases h
      | cons program rest => exact ih _ _ h
    rw [if_neg h2] at h
    by_cases h3 : c = 'f'
    · rw [if_pos h3] at h
      exact ih _ _ h
    rw [if_neg h3] at h
    by_cases h4 : c = 'r'
    · rw [if_pos h4] at h
      by_cases hm : b.enable_modules = true
      · rw [if_pos hm] at h
        cases rest with
        | nil => cases h
        | cons path rest =>
          simp only at h
          cases hd : b.utf8_decode_test path with
          | none => rw [hd] at h; cases h
          | some m =>
            rw [hd] at h
            exact ih _ _ h
      · rw [if_neg hm] at h
        cases h
    rw [if_neg h4] at h
    by_cases h5 : c = 'h'
    · rw [if_pos h5] at h
      cases h
    · rw [if_neg h5] at h
      cases h

/-- The status with which a place of the loop over the characters of a
switch ends the process. -/
theorem scan_switches_status (b : Build) :
    ∀ (cs : List Char) (rest : List (List Char)) (o : Options) (status : Nat) (site : ExitSite),
      scan_switches b cs rest o = .exit status site →
      (site.usage_error = true ∧ status = 64) ∨
      (site = .help ∧ status = 0) ∨
      ((site = .undecodable_module_path ∨ site = .modules_disabled) ∧ status = 1) := by
  intro cs
  induction cs with
  | nil =>
    intro rest o status site h
    simp [scan_switches] at h
  | cons c cs ih =>
    intro rest o status site h
    rw [scan_switches_cons] at h
    by_cases h1 : c = 'c'
    · rw [if_pos h1] at h
      exact ih _ _ _ _ h
    rw [if_neg h1] at h
    by_cases h2 : c = 'e'
    · rw [if_pos h2] at h
      cases rest with
      | nil =>
        cases h
        exact Or.inl ⟨rfl, rfl⟩
      | cons program rest => exact ih _ _ _ _ h
    rw [if_neg h2] at h
    by_cases h3 : c = 'f'
    · rw [if_pos h3] at h
      exact ih _ _ _ _ h
    rw [if_neg h3] at h
    by_cases h4 : c = 'r'
    · rw [if_pos h4] at h
      by_cases hm : b.enable_modules = true
      · rw [if_pos hm] at h
        cases rest with
        | nil =>
          cases h
          exact Or.inl ⟨rfl, rfl⟩
        | cons path rest =>
          simp only at h
          cases hd : b.utf8_decode_test path with
          | none =>
            rw [hd] at h
            cases h
            exact Or.inr (Or.inr ⟨Or.inl rfl, rfl⟩)
          | some m =>
            rw [hd] at h
            exact ih _ _ _ _ h
      · rw [if_neg hm] at h
        cases h
        exact Or.inr (Or.inr ⟨Or.inr rfl, rfl⟩)
    rw [if_neg h4] at h
    by_cases h5 : c = 'h'
    · rw [if_pos h5] at h
      cases h
      exact Or.inr (Or.inl ⟨rfl, rfl⟩)
    · rw [if_neg h5] at h
      cases h
      exact Or.inl ⟨rfl, rfl⟩

theorem scan_loop_ne_out_of_fuel (b : Build) :
    ∀ (fuel : Nat) (rest : List (List Char)) (o : Options),
      rest.length < fuel → scan_loop b fuel rest o ≠ .out_of_fuel := by
  intro fuel
  induction fuel with
  | zero => intro rest o h; omega
  | succ fuel ih =>
    intro rest o h
    cases rest with
    | nil => simp [scan_loop]
    | cons arg rest =>
      simp only [List.length_cons] at h
      rcases argument_shapes arg with rfl | ⟨c0, tail, rfl, h0⟩ | rfl | ⟨tail, rfl⟩ |
        ⟨c1, tail, rfl, h1⟩
      · rw [scan_loop_empty]
        exact ih _ _ (by omega)
      · rw [scan_loop_plain b fuel c0 tail rest o h0]
        simp
      · rw [scan_loop_dash]
        simp
      · rw [scan_loop_long]
        split_ifs
        · simp
        · simp
        · cases rest <;> simp
        · simp
      · rw [scan_loop_cluster b fuel c1 tail rest o h1]
        cases hs : scan_switches b (c1 :: tail) rest o with
        | done r =>
          obtain ⟨rest1, o1⟩ := r
          have := scan_switches_length b _ _ _ _ _ hs
          exact ih _ _ (by omega)
        | exit status site => simp
        | out_of_fuel => exact absurd hs (scan_switches_ne_out_of_fuel b _ _ _)

/-- The first loop of `scan_arguments` has fuel enough, and so
`scan_arguments` always comes to an end. -/
theorem scan_arguments_ne_out_of_fuel (b : Build) (argv : List (List Char)) (o : Options) :
    scan_arguments b argv o ≠ .out_of_fuel := by
  unfold scan_arguments
  have := scan_loop_ne_out_of_fuel b (argv.length + 1) argv.tail o
    (by simp only [List.length_tail]; omega)
  cases hs : scan_loop b (argv.length + 1) argv.tail o with
  | done r => simp
  | exit status site => simp
  | out_of_fuel => exact absurd hs this

theorem scan_loop_status (b : Build) :
    ∀ (fuel : Nat) (rest : List (List Char)) (o : Options) (status : Nat) (site : ExitSite),
      scan_loop b fuel rest o = .exit status site →
      (site.usage_error = true ∧ status = 64) ∨
      ((site = .help ∨ site = .version) ∧ status = 0) ∨
      ((site = .undecodable_module_path ∨ site = .modules_disabled) ∧ status = 1) := by
  intro fuel
  induction fuel with
  | zero =>
    intro rest o status site h
    simp [scan_loop] at h
  | succ fuel ih =>
    intro rest o status site h
    cases rest with
    | nil => simp [scan_loop] at h
    | cons arg rest =>
      rcases argument_shapes arg with rfl | ⟨c0, tail, rfl, h0⟩ | rfl | ⟨tail, rfl⟩ |
        ⟨c1, tail, rfl, h1⟩
      · rw [scan_loop_empty] at h
        exact ih _ _ _ _ h
      · rw [scan_loop_plain b fuel c0 tail rest o h0] at h
        cases h
      · rw [scan_loop_dash] at h
        cases h
      · rw [scan_loop_long] at h
        split_ifs at h
        · cases h
          exact Or.inr (Or.inl ⟨Or.inl rfl, rfl⟩)
        · cases h
          exact Or.inr (Or.inl ⟨Or.inr rfl, rfl⟩)
        · cases rest <;> cases h
        · cases h
          exact Or.inl ⟨rfl, rfl⟩
      · rw [scan_loop_cluster b fuel c1 tail rest o h1] at h
        cases hs : scan_switches b (c1 :: tail) rest o with
        | done r =>
          obtain ⟨rest1, o1⟩ := r
          rw [hs] at h
          exact ih _ _ _ _ h
        | exit status1 site1 =>
          rw [hs] at h
          cases h
          rcases scan_switches_status b _ _ _ _ _ hs with h2 | h2 | h2
          · exact Or.inl h2
          · exact Or.inr (Or.inl ⟨Or.inl h2.1, h2.2⟩)
          · exact Or.inr (Or.inr h2)
        | out_of_fuel =>
          rw [hs] at h
          cases h

/-- What the option `-e` with the program text `program` makes of the inline
script. -/
theorem scan_loop_inline (b : Build) (fuel : Nat) (program : List Char)
    (rest : List (List Char)) (o : Options) :
    scan_loop b (fuel + 1) (['-', 'e'] :: program :: rest) o
      = scan_loop b fuel rest
          { o with inline_script :=
              (o.inline_script ++ program) ++ List.replicate 10 (Char.ofNat 1) } := by
  rw [scan_loop_cluster b fuel 'e' [] _ o (by decide)]
  rfl

theorem scan_loop_inline_arguments (b : Build) (fuel : Nat) (rest : List (List Char)) :
    ∀ (programs : List (List Char)) (o : Options),
      scan_loop b (fuel + programs.length) (inline_arguments programs ++ rest) o
        = scan_loop b fuel rest
            { o with inline_script :=
                o.inline_script
                  ++ (programs.map (fun p => p ++ List.replicate 10 (Char.ofNat 1))).flatten }
    := by
  intro programs
  induction programs with
  | nil =>
    intro o
    simp [inline_arguments]
  | cons p ps ih =>
    intro o
    have hfuel : fuel + (p :: ps).length = (fuel + ps.length) + 1 := by
      simp only [List.length_cons]
      omega
    rw [hfuel]
    simp only [inline_arguments, List.cons_append]
    rw [scan_loop_inline, ih]
    simp [List.append_assoc]

theorem inline_arguments_length (programs : List (List Char)) :
    (inline_arguments programs).length = 2 * programs.length := by
  induction programs with
  | nil => rfl
  | cons p ps ih =>
    simp only [inline_arguments, List.length_cons, ih]
    omega

theorem flatten_fill_length (n : Nat) (ch : Char) (programs : List (List Char)) :
    ((programs.map (fun p => p ++ List.replicate n ch)).flatten).length
      = (programs.map List.length).sum + n * programs.length := by
  induction programs with
  | nil => rfl
  | cons p ps ih =>
    simp only [List.map_cons, List.flatten_cons, List.length_append, List.length_replicate, ih,
      List.sum_cons, List.length_cons]
    ring

/-- C31 (refuted on the code): the command line `-e p1 -e p2 .. -e pk`. The
inline script that `scan_arguments` leaves is `p1`, ten characters of code 1,
`p2`, ten characters of code 1, and so on: the call
`inline_script.append('\n', 1)` is the overload with a count and a character,
so it appends `'\n'`, that is 10, copies of the character 1 and no line feed.
For `k ≥ 1` this is not the text of the programs with one line feed behind
each. -/
theorem scan_arguments_inline_script (b : Build) (exe : List Char)
    (programs : List (List Char)) (hk : programs ≠ []) :
    scan_arguments b (exe :: inline_arguments programs) initial_options
      = .done { initial_options with
          inline_script :=
            (programs.map (fun p => p ++ List.replicate 10 (Char.ofNat 1))).flatten } ∧
    (programs.map (fun p => p ++ List.replicate 10 (Char.ofNat 1))).flatten
      ≠ (programs.map (fun p => p ++ ['\n'])).flatten := by
  constructor
  · unfold scan_arguments
    have hfuel : (exe :: inline_arguments programs).length + 1
        = (programs.length + 2) + programs.length := by
      simp only [List.length_cons, inline_arguments_length]
      omega
    have hloop := scan_loop_inline_arguments b (programs.length + 2) [] programs initial_options
    rw [List.append_nil] at hloop
    rw [hfuel, List.tail_cons, hloop]
    rfl
  · intro h
    have hlen := congrArg List.length h
    have h1 := flatten_fill_length 1 '\n' programs
    simp only [List.replicate_one] at h1
    rw [flatten_fill_length, h1] at hlen
    have : 0 < programs.length := List.length_pos.mpr hk
    omega

/-- The command line `-e 1`: the inline script is the character `1` and ten
characters of code 1 behind it. -/
theorem scan_arguments_inline_script_witness :
    scan_arguments ⟨true, id, some⟩ [['p'], ['-', 'e'], ['1']] initial_options
      = .done { initial_options with
          inline_script := '1' :: List.replicate 10 (Char.ofNat 1) } :=
  (scan_arguments_inline_script ⟨true, id, some⟩ ['p'] [['1']] (by simp)).1

/-- C38 (refuted on the code): the command line `-e p1 .. -e pk a args` with
`k ≥ 1` and an argument `a` that is no switch. The first loop of
`scan_arguments` takes `a` with `argv[offset++]`, does not make it the name
of the script, since there is an inline script, and leaves the loop; the
second loop starts behind `a`. The argument list of the runtime holds `args`
only; `a` is in no variable. -/
theorem scan_arguments_drops_argument (b : Build) (exe : List Char)
    (programs : List (List Char)) (c0 : Char) (tail : List Char) (args : List (List Char))
    (hk : programs ≠ []) (h0 : c0 ≠ '-') :
    scan_arguments b (exe :: (inline_arguments programs ++ (c0 :: tail) :: args))
        initial_options
      = .done { initial_options with
          inline_script :=
            (programs.map (fun p => p ++ List.replicate 10 (Char.ofNat 1))).flatten,
          arguments := args.map b.utf8_decode } := by
  unfold scan_arguments
  have hfuel : (exe :: (inline_arguments programs ++ (c0 :: tail) :: args)).length + 1
      = (programs.length + args.length + 2 + 1) + programs.length := by
    simp only [List.length_cons, List.length_append, inline_arguments_length]
    omega
  rw [hfuel, List.tail_cons, scan_loop_inline_arguments, scan_loop_plain _ _ _ _ _ _ h0]
  have hne : ¬ (([] : List Char)
      ++ (programs.map (fun p => p ++ List.replicate 10 (Char.ofNat 1))).flatten).isEmpty
        = true := by
    cases programs with
    | nil => exact absurd rfl hk
    | cons p ps => simp [List.replicate]
  simp only [initial_options, hne]
  simp

/-- The command line `-e 1 a b`: the argument list holds `b` only. -/
theorem scan_arguments_drops_argument_witness :
    scan_arguments ⟨true, id, some⟩ [['p'], ['-', 'e'], ['1'], ['a'], ['b']] initial_options
      = .done { initial_options with
          inline_script := '1' :: List.replicate 10 (Char.ofNat 1),
          arguments := [['b']] } :=
  scan_arguments_drops_argument ⟨true, id, some⟩ ['p'] [['1']] 'a' [] [['b']] (by simp)
    (by decide)

/-- The switches `c` and `f` take no argument and end nothing. -/
theorem scan_switches_flags (b : Build) (cs : List Char) (rest : List (List Char)) :
    ∀ (flags : List Char) (o : Options), (∀ x ∈ flags, x = 'c' ∨ x = 'f') →
      ∃ o1 : Options, scan_switches b (flags ++ cs) rest o = scan_switches b cs rest o1 := by
  intro flags
  induction flags with
  | nil => intro o _; exact ⟨o, rfl⟩
  | cons x flags ih =>
    intro o h
    have hflags : ∀ y ∈ flags, y = 'c' ∨ y = 'f' := fun y hy => h y (List.mem_cons_of_mem x hy)
    rcases h x (List.mem_cons_self x flags) with rfl | rfl
    · obtain ⟨o1, h1⟩ := ih { o with flag_test_syntax := true } hflags
      exact ⟨o1, h1⟩
    · obtain ⟨o1, h1⟩ := ih { o with flag_fork := true } hflags
      exact ⟨o1, h1⟩

/-- When the loop over the characters of a switch, behind flags that take no
argument, stands at a character that ends the process, the first loop of
`scan_arguments` ends the process there. -/
theorem scan_loop_switch_exit (b : Build) (fuel : Nat) (flags : List Char) (c : Char)
    (post : List Char) (rest : List (List Char)) (o : Options) (status : Nat) (site : ExitSite)
    (hflags : ∀ x ∈ flags, x = 'c' ∨ x = 'f') (hc : flags ≠ [] ∨ c ≠ '-')
    (hexit : ∀ o1 : Options, scan_switches b (c :: post) rest o1 = .exit status site) :
    scan_loop b (fuel + 1) (('-' :: (flags ++ c :: post)) :: rest) o = .exit status site := by
  obtain ⟨o1, h1⟩ := scan_switches_flags b (c :: post) rest flags o hflags
  obtain ⟨c1, tail, hshape, hc1⟩ : ∃ c1 tail, flags ++ c :: post = c1 :: tail ∧ c1 ≠ '-' := by
    cases flags with
    | nil =>
      rcases hc with hc | hc
      · exact absurd rfl hc
      · exact ⟨c, post, rfl, hc⟩
    | cons x flags =>
      refine ⟨x, flags ++ c :: post, rfl, ?_⟩
      rcases hflags x (List.mem_cons_self x flags) with rfl | rfl <;> decide
  rw [hshape, scan_loop_cluster b fuel c1 tail rest o hc1, ← hshape, h1, hexit o1]

/-- C33: the exit status of `scan_arguments`. For every argument vector the
function comes to an end. When it ends the process, the status is 64 exactly
at the places of a usage error (a long or short switch that is not
recognized, `-e` or `-r` with no argument behind it), 0 exactly at the places
of `--help`, `-h` and `--version`, and 1 at the two places that are left, which
are no usage errors (a module path that cannot be decoded, and `-r` in a build
without modules). And whenever the first loop stands at an argument with a
usage error, behind switches that take no argument, it ends the process with
status 64; at `--help`, `-h` and `--version` it ends it with status 0. -/
theorem scan_arguments_exit_status (b : Build) :
    (∀ (argv : List (List Char)) (o : Options), scan_arguments b argv o ≠ .out_of_fuel) ∧
    (∀ (argv : List (List Char)) (o : Options) (status : Nat) (site : ExitSite),
      scan_arguments b argv o = .exit status site →
      (status = 64 ↔ site.usage_error = true) ∧
      (status = 0 ↔ site = .help ∨ site = .version) ∧
      (status = 64 ∨ status = 0 ∨ status = 1)) ∧
    (∀ (fuel : Nat) (tail : List Char) (rest : List (List Char)) (o : Options),
      tail ≠ ['h', 'e', 'l', 'p'] → tail ≠ ['v', 'e', 'r', 's', 'i', 'o', 'n'] → tail ≠ [] →
      scan_loop b (fuel + 1) (('-' :: '-' :: tail) :: rest) o
        = .exit 64 (.unrecognized_switch ('-' :: '-' :: tail))) ∧
    (∀ (fuel : Nat) (flags : List Char) (c : Char) (post : List Char)
        (rest : List (List Char)) (o : Options),
      (∀ x ∈ flags, x = 'c' ∨ x = 'f') → (flags ≠ [] ∨ c ≠ '-') →
      c ≠ 'c' → c ≠ 'e' → c ≠ 'f' → c ≠ 'r' → c ≠ 'h' →
      scan_loop b (fuel + 1) (('-' :: (flags ++ c :: post)) :: rest) o
        = .exit 64 (.unrecognized_switch [c])) ∧
    (∀ (fuel : Nat) (flags post : List Char) (o : Options),
      (∀ x ∈ flags, x = 'c' ∨ x = 'f') →
      scan_loop b (fuel + 1) [('-' :: (flags ++ 'e' :: post))] o
        = .exit 64 .argument_expected_e) ∧
    (b.enable_modules = true → ∀ (fuel : Nat) (flags post : List Char) (o : Options),
      (∀ x ∈ flags, x = 'c' ∨ x = 'f') →
      scan_loop b (fuel + 1) [('-' :: (flags ++ 'r' :: post))] o
        = .exit 64 .argument_expected_r) ∧
    (∀ (fuel : Nat) (rest : List (List Char)) (o : Options),
      scan_loop b (fuel + 1) (['-', '-', 'h', 'e', 'l', 'p'] :: rest) o = .exit 0 .help ∧
      scan_loop b (fuel + 1) (['-', '-', 'v', 'e', 'r', 's', 'i', 'o', 'n'] :: rest) o
        = .exit 0 .version) ∧
    (∀ (fuel : Nat) (flags post : List Char) (rest : List (List Char)) (o : Options),
      (∀ x ∈ flags, x = 'c' ∨ x = 'f') →
      scan_loop b (fuel + 1) (('-' :: (flags ++ 'h' :: post)) :: rest) o = .exit 0 .help) := by
  refine ⟨scan_arguments_ne_out_of_fuel b, ?_, ?_, ?_, ?_, ?_, ?_, ?_⟩
  · intro argv o status site h
    have hloop : scan_loop b (argv.length + 1) argv.tail o = .exit status site := by
      unfold scan_arguments at h
      cases hs : scan_loop b (argv.length + 1) argv.tail o with
      | done r => rw [hs] at h; cases h
      | exit s1 site1 => rw [hs] at h; cases h; rfl
      | out_of_fuel => rw [hs] at h; cases h
    rcases scan_loop_status b _ _ _ _ _ hloop with ⟨h1, rfl⟩ | ⟨h1, rfl⟩ | ⟨h1, rfl⟩
    · refine ⟨⟨fun _ => h1, fun _ => rfl⟩, ⟨fun h0 => absurd h0 (by decide), ?_⟩, Or.inl rfl⟩
      rintro (rfl | rfl) <;> simp [ExitSite.usage_error] at h1
    · refine ⟨⟨fun h0 => absurd h0 (by decide), ?_⟩, ⟨fun _ => h1, fun _ => rfl⟩,
        Or.inr (Or.inl rfl)⟩
      rcases h1 with rfl | rfl <;> simp [ExitSite.usage_error]
    · refine ⟨⟨fun h0 => absurd h0 (by decide), ?_⟩, ⟨fun h0 => absurd h0 (by decide), ?_⟩,
        Or.inr (Or.inr rfl)⟩
      · rcases h1 with rfl | rfl <;> simp [ExitSite.usage_error]
      · rcases h1 with rfl | rfl <;> simp
  · intro fuel tail rest o h1 h2 h3
    rw [scan_loop_long, if_neg (by simpa using h1), if_neg (by simpa using h2),
      if_neg (by simpa using h3)]
    rfl
  · intro fuel flags c post rest o hflags hc h1 h2 h3 h4 h5
    refine scan_loop_switch_exit b fuel flags c post rest o 64 _ hflags hc ?_
    intro o1
    rw [scan_switches_cons, if_neg h1, if_neg h2, if_neg h3, if_neg h4, if_neg h5]
    rfl
  · intro fuel flags post o hflags
    refine scan_loop_switch_exit b fuel flags 'e' post [] o 64 _ hflags (Or.inr (by decide)) ?_
    intro o1
    rfl
  · intro hm fuel flags post o hflags
    refine scan_loop_switch_exit b fuel flags 'r' post [] o 64 _ hflags (Or.inr (by decide)) ?_
    intro o1
    rw [scan_switches_cons, if_neg (by decide), if_neg (by decide), if_neg (by decide),
      if_pos rfl, if_pos hm]
    rfl
  · intro fuel rest o
    exact ⟨rfl, rfl⟩
  · intro fuel flags post rest o hflags
    refine scan_loop_switch_exit b fuel flags 'h' post rest o 0 _ hflags (Or.inr (by decide)) ?_
    intro o1
    rfl

/-! ## The module path -/

theorem segments_of_ne_nil (sep : Char) (text : List Char) : segments_of sep text ≠ [] := by
  cases text with
  | nil => simp [segments_of]
  | cons c rest =>
    rw [segments_of]
    split
    · simp
    · split <;> simp

theorem segments_of_no_separator (sep : Char) (text : List Char) (h : sep ∉ text) :
    segments_of sep text = [text] := by
  induction text with
  | nil => rfl
  | cons c rest ih =>
    have hc : c ≠ sep := fun e => h (by simp [e])
    have hr : sep ∉ rest := fun e => h (by simp [e])
    rw [segments_of, if_neg hc, ih hr]

theorem segments_of_append (sep : Char) (rest : List Char) :
    ∀ segment : List Char, sep ∉ segment →
      segments_of sep (segment ++ sep :: rest) = segment :: segments_of sep rest := by
  intro segment
  induction segment with
  | nil =>
    intro _
    rw [List.nil_append, segments_of, if_pos rfl]
  | cons c segment ih =>
    intro h
    have hc : c ≠ sep := fun e => h (by simp [e])
    have hr : sep ∉ segment := fun e => h (by simp [e])
    rw [List.cons_append, segments_of, if_neg hc, ih hr]

theorem path_entries_append (sep : Char) (segment rest : List Char) (h : sep ∉ segment) :
    path_entries sep (segment ++ sep :: rest)
      = (if segment.length > 0 then [segment] else []) ++ path_entries sep rest := by
  unfold path_entries
  rw [segments_of_append sep rest segment h]
  cases segment with
  | nil => simp
  | cons c cs => simp

theorem path_entries_no_separator (sep : Char) (segment : List Char) (h : sep ∉ segment) :
    path_entries sep segment = if segment.length > 0 then [segment] else [] := by
  unfold path_entries
  rw [segments_of_no_separator sep segment h]
  cases segment with
  | nil => simp
  | cons c cs => simp

/-- The loop of `scan_module_path` puts the segments of the text that are not
empty behind the module paths, in their order. -/
theorem scan_module_path_loop_eq (utf8_decode : List Char → List Char) (sep : Char) :
    ∀ (text segment : List Char) (module_paths : List (List Char)), sep ∉ segment →
      scan_module_path_loop utf8_decode sep text segment module_paths
        = module_paths ++ (path_entries sep (segment ++ text)).map utf8_decode := by
  intro text
  induction text with
  | nil =>
    intro segment module_paths h
    rw [scan_module_path_loop, List.append_nil, path_entries_no_separator sep segment h]
    split <;> simp
  | cons c rest ih =>
    intro segment module_paths h
    rw [scan_module_path_loop]
    by_cases hc : c = sep
    · subst hc
      rw [if_neg (by simp), ih [] _ (by simp), path_entries_append c segment rest h,
        List.nil_append]
      split <;> simp
    · rw [if_pos hc, ih (segment ++ [c]) module_paths (by simp [h, Ne.symm hc])]
      simp

/-- C32 (as the code has it): `scan_module_path`. The segments of `PLORTHPATH`
that are not empty are put behind the module paths of the runtime, in their
order. The path of the library that is built in is put behind them only when
the module paths are empty then, that is when the runtime had none and
`PLORTHPATH` is not set or has no segment that is not empty, and when the
build defines that path. -/
theorem scan_module_path_entries (utf8_decode : List Char → List Char) (sep : Char)
    (library_path : Option (List Char)) (module_paths : List (List Char)) :
    (∀ text : List Char,
      scan_module_path utf8_decode sep library_path (some text) module_paths
        = if module_paths ++ (path_entries sep text).map utf8_decode = [] then
            library_path.toList
          else module_paths ++ (path_entries sep text).map utf8_decode) ∧
    scan_module_path utf8_decode sep library_path none module_paths
      = (if module_paths = [] then library_path.toList else module_paths) ∧
    path_entries sep [] = [] ∧
    (∀ text : List Char, ∀ entry ∈ path_entries sep text, entry ≠ [] ∧ sep ∉ entry) := by
  refine ⟨?_, ?_, ?_, ?_⟩
  · intro text
    unfold scan_module_path
    simp only
    rw [scan_module_path_loop_eq utf8_decode sep text [] module_paths (by simp),
      List.nil_append]
    cases library_path with
    | none =>
      simp only [Option.toList]
      split <;> simp_all
    | some path =>
      simp only [Option.toList, List.isEmpty_iff]
      split <;> simp_all
  · unfold scan_module_path
    cases library_path with
    | none =>
      simp only [Option.toList]
      split <;> simp_all
    | some path =>
      simp only [Option.toList, List.isEmpty_iff]
      split <;> simp_all
  · rfl
  · intro text
    have hall : ∀ t : List Char, ∀ entry ∈ segments_of sep t, sep ∉ entry := by
      intro t
      induction t with
      | nil => simp [segments_of]
      | cons c rest ih =>
        intro entry hentry
        rw [segments_of] at hentry
        by_cases hc : c = sep
        · rw [if_pos hc] at hentry
          rcases List.mem_cons.mp hentry with rfl | hmem
          · simp
          · exact ih entry hmem
        · rw [if_neg hc] at hentry
          cases hs : segments_of sep rest with
          | nil => exact absurd hs (segments_of_ne_nil sep rest)
          | cons segment more =>
            rw [hs] at hentry ih
            simp only [List.mem_cons] at hentry
            rcases hentry with rfl | hmem
            · have := ih segment (by simp)
              simp [this, Ne.symm hc]
            · exact ih entry (by simp [hmem])
    intro entry hentry
    unfold path_entries at hentry
    rw [List.mem_filter] at hentry
    refine ⟨?_, hall text entry hentry.1⟩
    intro he
    subst he
    simp at hentry

/-- C32 (the claim as stated fails): with the one entry `a` in `PLORTHPATH`
and the library path `lib` built in, the module paths are the entry alone;
the library path is not behind it. Without an entry the library path is the
only module path. -/
theorem scan_module_path_without_default :
    scan_module_path id ':' (some ['l', 'i', 'b']) (some ['a']) [] = [['a']] ∧
    scan_module_path id ':' (some ['l', 'i', 'b']) (some ['a', ':', ':', 'b', ':']) []
      = [['a'], ['b']] ∧
    scan_module_path id ':' (some ['l', 'i', 'b']) (some [':']) [] = [['l', 'i', 'b']] ∧
    scan_module_path id ':' (some ['l', 'i', 'b']) none [] = [['l', 'i', 'b']] := by
  refine ⟨?_, ?_, ?_, ?_⟩ <;> decide

/-! ## The words `dip` and `2dip` -/

/-- C34: `w_dip` and `w_2dip`. With a quote `q` on top of the stack and a value
`v` below it, `dip` calls `q` on the context whose stack is the rest `s`, so
without `v` on it, and pushes `v` on the stack that `q` leaves. With two
values below the quote, `v2` on top of `v1`, `2dip` calls `q` on the rest `s`
and pushes `v1` and then `v2` on the stack that `q` leaves, so the two are
back in their order. -/
theorem w_dip_restores (rt : Runtime) (fuel : Nat) (q : Quote) (s : List Value)
    (d : List (String × Value)) (e : Option (ErrorCode × String)) (ok : Bool) (ctx1 : Context)
    (hq : Quote.call rt fuel q ⟨s, d, e⟩ = .ret (ok, ctx1)) :
    (∀ v : Value,
      w_dip rt fuel ⟨.quote q :: v :: s, d, e⟩ = .ret { ctx1 with stack := v :: ctx1.stack }) ∧
    (∀ v1 v2 : Value,
      w_2dip rt fuel ⟨.quote q :: v2 :: v1 :: s, d, e⟩
        = .ret { ctx1 with stack := v2 :: v1 :: ctx1.stack }) := by
  constructor
  · intro v
    simp only [w_dip, Context.pop_quote, Context.pop, hq, Context.push]
  · intro v1 v2
    simp only [w_2dip, Context.pop_quote, Context.pop, hq, Context.push]

/-- On the runtime with `dup` and `*`: `3 4 ( dup ) dip` leaves `3 3 4`, and
`3 4 5 ( dup ) 2dip` leaves `3 3 4 5` (the top of the stack is written
first). -/
theorem w_dip_restores_witness :
    w_dip arith_runtime 5
        ⟨[.quote (.compiled [⟨.word, "dup"⟩]), .number 4, .number 3], [], none⟩
      = .ret ⟨[.number 4, .number 3, .number 3], [], none⟩ ∧
    w_2dip arith_runtime 5
        ⟨[.quote (.compiled [⟨.word, "dup"⟩]), .number 5, .number 4, .number 3], [], none⟩
      = .ret ⟨[.number 5, .number 4, .number 3, .number 3], [], none⟩ :=
  ⟨(w_dip_restores arith_runtime 5 (.compiled [⟨.word, "dup"⟩]) [.number 3] [] none true
      ⟨[.number 3, .number 3], [], none⟩ rfl).1 (.number 4),
    (w_dip_restores arith_runtime 5 (.compiled [⟨.word, "dup"⟩]) [.number 3] [] none true
      ⟨[.number 3, .number 3], [], none⟩ rfl).2 (.number 4) (.number 5)⟩

/-! ## Folding an array -/

theorem w_reduce_loop_folds (call : Quote → Context → Run (Bool × Context)) (q : Quote)
    (f : Value → Value → Value) (tick : List (String × Value) → List (String × Value))
    (s : List Value) (e : Option (ErrorCode × String)) :
    ∀ (rest : List Value) (acc : Value) (d : List (String × Value)),
      (∀ i : Nat, i < rest.length →
        call q ⟨rest.getD i .null :: (rest.take i).foldl f acc :: s, tick^[i] d, e⟩
          = .ret (true, ⟨f ((rest.take i).foldl f acc) (rest.getD i .null) :: s,
              tick^[i + 1] d, e⟩)) →
      w_reduce_loop call q rest ⟨s, d, e⟩ acc
        = .ret ⟨rest.foldl f acc :: s, tick^[rest.length] d, e⟩ := by
  intro rest
  induction rest with
  | nil =>
    intro acc d _
    rfl
  | cons y rest ih =>
    intro acc d hq
    have hcall : call q ((Context.push ⟨s, d, e⟩ acc).push y)
        = .ret (true, ⟨f acc y :: s, tick d, e⟩) := hq 0 (by simp)
    rw [w_reduce_loop, hcall]
    have hpop : (⟨f acc y :: s, tick d, e⟩ : Context).pop = (some (f acc y), ⟨s, tick d, e⟩) :=
      rfl
    simp only [hpop]
    rw [ih (f acc y) (tick d)]
    · rfl
    · intro i hi
      have := hq (i + 1) (by simp only [List.length_cons]; omega)
      simpa [Function.iterate_succ_apply] using this

/-- C35: `w_reduce` on an array that is not empty. With the array
`[e0, e1, .., en-1]` on top of the stack and below it a quote whose call
replaces the two values on top of the stack, `x` below `y`, by `f x y`,
`reduce` replaces the two operands by the left fold
`f (.. f (f e0 e1) e2 ..) en-1`. The quote is asked for `n - 1` calls only,
the call `i` with the fold of the first `i + 1` elements below the element
`i + 1`; what else a call does to the context, here `tick` on the dictionary,
is found `n - 1` times in the result. For an array of one element the quote is
not called and `e0` is pushed. -/
theorem w_reduce_folds (call : Quote → Context → Run (Bool × Context)) (context : Context)
    (q : Quote) (f : Value → Value → Value)
    (tick : List (String × Value) → List (String × Value))
    (e0 : Value) (rest s : List Value)
    (hstack : context.stack = .array (e0 :: rest) :: .quote q :: s)
    (hq : ∀ i : Nat, i < rest.length →
      call q ⟨rest.getD i .null :: (rest.take i).foldl f e0 :: s, tick^[i] context.dictionary,
          context.error⟩
        = .ret (true, ⟨f ((rest.take i).foldl f e0) (rest.getD i .null) :: s,
            tick^[i + 1] context.dictionary, context.error⟩)) :
    w_reduce call context
      = .ret ⟨rest.foldl f e0 :: s, tick^[(e0 :: rest).length - 1] context.dictionary,
          context.error⟩ ∧
    (rest = [] → w_reduce call context = .ret { context with stack := e0 :: s }) := by
  have hrun : w_reduce call context
      = .ret ⟨rest.foldl f e0 :: s, tick^[rest.length] context.dictionary, context.error⟩ := by
    simp only [w_reduce, Context.pop_array, Context.pop_quote, Context.pop, hstack]
    exact w_reduce_loop_folds call q f tick s context.error rest e0 context.dictionary hq
  refine ⟨hrun, ?_⟩
  intro hrest
  subst hrest
  rw [hrun]
  rfl

/-- On the runtime with `dup` and `*`, the quote `( * )` below the array
`[2, 3, 4]` gives the product 24, by the two calls on `2 3` and on `6 4`. -/
theorem w_reduce_folds_witness :
    w_reduce (Quote.call arith_runtime 5)
        ⟨[.array [.number 2, .number 3, .number 4], .quote (.compiled [⟨.word, "*"⟩])],
          [], none⟩
      = .ret ⟨[.number 24], [], none⟩ :=
  (w_reduce_folds (Quote.call arith_runtime 5)
    ⟨[.array [.number 2, .number 3, .number 4], .quote (.compiled [⟨.word, "*"⟩])], [], none⟩
    (.compiled [⟨.word, "*"⟩])
    (fun x y => match x, y with
      | .number a, .number b => .number (a * b)
      | _, _ => .null)
    id (.number 2) [.number 3, .number 4] [] rfl
    (by
      intro i hi
      match i, hi with
      | 0, _ => rfl
      | 1, _ => rfl
      | n + 2, h => exact absurd h (by simp))).1

/-! ## Filtering an array -/

theorem w_filter_loop_filters (call : Quote → Context → Run (Bool × Context)) (q : Quote)
    (p : Value → Bool) (ctx : Context) :
    ∀ (elements result : List Value),
      (∀ x ∈ elements, call q (ctx.push x) = .ret (true, ctx.push (.boolean (p x)))) →
      w_filter_loop call q elements ctx result
        = .ret (ctx.push_array (result ++ elements.filter p)) := by
  intro elements
  induction elements with
  | nil =>
    intro result _
    simp [w_filter_loop]
  | cons x rest ih =>
    intro result h
    have hx := h x (List.mem_cons_self x rest)
    have hrest : ∀ y ∈ rest, call q (ctx.push y) = .ret (true, ctx.push (.boolean (p y))) :=
      fun y hy => h y (List.mem_cons_of_mem x hy)
    have hpop : (ctx.push (.boolean (p x))).pop_boolean = (some (p x), ctx) := rfl
    rw [w_filter_loop, hx]
    simp only [hpop]
    by_cases hp : p x = true
    · rw [if_pos hp, ih _ hrest, List.filter_cons_of_pos hp]
      simp
    · rw [if_neg hp, ih _ hrest, List.filter_cons_of_neg hp]

/-- The loop of `w_filter` stops at the first element for which the call of
the quote gives `false`, with the context of that call. -/
theorem w_filter_loop_call_fails (call : Quote → Context → Run (Bool × Context)) (q : Quote)
    (p : Value → Bool) (ctx ctx1 : Context) (x : Value) (post : List Value)
    (hx : call q (ctx.push x) = .ret (false, ctx1)) :
    ∀ (pre result : List Value),
      (∀ y ∈ pre, call q (ctx.push y) = .ret (true, ctx.push (.boolean (p y)))) →
      w_filter_loop call q (pre ++ x :: post) ctx result = .ret ctx1 := by
  intro pre
  induction pre with
  | nil =>
    intro result _
    rw [List.nil_append, w_filter_loop, hx]
  | cons y pre ih =>
    intro result h
    have hy := h y (List.mem_cons_self y pre)
    have hpre : ∀ z ∈ pre, call q (ctx.push z) = .ret (true, ctx.push (.boolean (p z))) :=
      fun z hz => h z (List.mem_cons_of_mem y hz)
    have hpop : (ctx.push (.boolean (p y))).pop_boolean = (some (p y), ctx) := rfl
    rw [List.cons_append, w_filter_loop, hy]
    simp only [hpop]
    split
    · exact ih _ hpre
    · exact ih _ hpre

/-- The loop of `w_filter` stops at the first element for which the quote
leaves no boolean on top of the stack, with the context of the typed pop. -/
theorem w_filter_loop_no_boolean (call : Quote → Context → Run (Bool × Context)) (q : Quote)
    (p : Value → Bool) (ctx ctx1 ctx2 : Context) (x : Value) (post : List Value)
    (hx : call q (ctx.push x) = .ret (true, ctx1)) (hpop : ctx1.pop_boolean = (none, ctx2)) :
    ∀ (pre result : List Value),
      (∀ y ∈ pre, call q (ctx.push y) = .ret (true, ctx.push (.boolean (p y)))) →
      w_filter_loop call q (pre ++ x :: post) ctx result = .ret ctx2 := by
  intro pre
  induction pre with
  | nil =>
    intro result _
    rw [List.nil_append, w_filter_loop, hx]
    simp only [hpop]
  | cons y pre ih =>
    intro result h
    have hy := h y (List.mem_cons_self y pre)
    have hpre : ∀ z ∈ pre, call q (ctx.push z) = .ret (true, ctx.push (.boolean (p z))) :=
      fun z hz => h z (List.mem_cons_of_mem y hz)
    have hpop1 : (ctx.push (.boolean (p y))).pop_boolean = (some (p y), ctx) := rfl
    rw [List.cons_append, w_filter_loop, hy]
    simp only [hpop1]
    split
    · exact ih _ hpre
    · exact ih _ hpre

/-- C36: `w_filter`. With the array on top of the stack and below it a quote
whose call replaces each element `x` on top of the stack by the boolean `p x`,
`filter` replaces the two operands by the array of the elements with `p x`
true, the elements themselves in their order, a sublist of the input. If for
some element the call of the quote gives `false`, the word ends with the
context of that call: no array is pushed and the error slot is the one the
call left. If the call leaves a value that is no boolean on top, the word ends
with the Type error of the typed pop and no array. In both cases the elements
behind that one play no part in the result. -/
theorem w_filter_filters (call : Quote → Context → Run (Bool × Context)) (context : Context)
    (q : Quote) (p : Value → Bool) (s : List Value) :
    (∀ elements : List Value, context.stack = .array elements :: .quote q :: s →
      (∀ x ∈ elements,
        call q ⟨x :: s, context.dictionary, context.error⟩
          = .ret (true, ⟨.boolean (p x) :: s, context.dictionary, context.error⟩)) →
      w_filter call context = .ret { context with stack := .array (elements.filter p) :: s } ∧
      (elements.filter p).Sublist elements) ∧
    (∀ (pre post : List Value) (x : Value) (ctx1 : Context),
      context.stack = .array (pre ++ x :: post) :: .quote q :: s →
      (∀ y ∈ pre,
        call q ⟨y :: s, context.dictionary, context.error⟩
          = .ret (true, ⟨.boolean (p y) :: s, context.dictionary, context.error⟩)) →
      call q ⟨x :: s, context.dictionary, context.error⟩ = .ret (false, ctx1) →
      w_filter call context = .ret ctx1) ∧
    (∀ (pre post : List Value) (x v : Value) (s1 : List Value)
        (d1 : List (String × Value)) (e1 : Option (ErrorCode × String)),
      context.stack = .array (pre ++ x :: post) :: .quote q :: s →
      (∀ y ∈ pre,
        call q ⟨y :: s, context.dictionary, context.error⟩
          = .ret (true, ⟨.boolean (p y) :: s, context.dictionary, context.error⟩)) →
      call q ⟨x :: s, context.dictionary, context.error⟩ = .ret (true, ⟨v :: s1, d1, e1⟩) →
      (∀ b : Bool, v ≠ .boolean b) →
      w_filter call context = .ret ⟨s1, d1, some (.type_error, "Expected boolean.")⟩) := by
  refine ⟨?_, ?_, ?_⟩
  · intro elements hstack hq
    refine ⟨?_, List.filter_sublist _⟩
    simp only [w_filter, Context.pop_array, Context.pop_quote, Context.pop, hstack]
    rw [w_filter_loop_filters call q p ⟨s, context.dictionary, context.error⟩ elements [] hq]
    rfl
  · intro pre post x ctx1 hstack hq hx
    simp only [w_filter, Context.pop_array, Context.pop_quote, Context.pop, hstack]
    exact w_filter_loop_call_fails call q p ⟨s, context.dictionary, context.error⟩ ctx1 x post
      hx pre [] hq
  · intro pre post x v s1 d1 e1 hstack hq hx hv
    simp only [w_filter, Context.pop_array, Context.pop_quote, Context.pop, hstack]
    refine w_filter_loop_no_boolean call q p ⟨s, context.dictionary, context.error⟩
      ⟨v :: s1, d1, e1⟩ _ x post hx ?_ pre [] hq
    cases v with
    | boolean b => exact absurd rfl (hv b)
    | _ => rfl

/-- A quote that asks whether the number on top of the stack is above 2, and
fails on a value that is no number: of `[1, 3, 5]` the elements 3 and 5 are
kept, and on `[3, "x", 5]` the word ends at the text with the context the
call left, without an array. -/
theorem w_filter_filters_witness :
    w_filter (fun _ ctx =>
        match ctx.stack with
        | .number n :: s => .ret (true, { ctx with stack := .boolean (decide (2 < n)) :: s })
        | _ => .ret (false, ctx.set_error .type_error "Expected number."))
        ⟨[.array [.number 1, .number 3, .number 5], .quote (.compiled [])], [], none⟩
      = .ret ⟨[.array [.number 3, .number 5]], [], none⟩ ∧
    w_filter (fun _ ctx =>
        match ctx.stack with
        | .number n :: s => .ret (true, { ctx with stack := .boolean (decide (2 < n)) :: s })
        | _ => .ret (false, ctx.set_error .type_error "Expected number."))
        ⟨[.array [.number 3, .string "x", .number 5], .quote (.compiled [])], [], none⟩
      = .ret ⟨[.string "x"], [], some (.type_error, "Expected number.")⟩ :=
  ⟨((w_filter_filters _
      ⟨[.array [.number 1, .number 3, .number 5], .quote (.compiled [])], [], none⟩
      (.compiled [])
      (fun v => match v with
        | .number n => decide (2 < n)
        | _ => false) []).1 [.number 1, .number 3, .number 5] rfl
      (by
        intro x hx
        simp only [List.mem_cons, List.mem_singleton, List.not_mem_nil, or_false] at hx
        rcases hx with rfl | rfl | rfl <;> rfl)).1,
    (w_filter_filters _
      ⟨[.array [.number 3, .string "x", .number 5], .quote (.compiled [])], [], none⟩
      (.compiled [])
      (fun v => match v with
        | .number n => decide (2 < n)
        | _ => false) []).2.1 [.number 3] [.number 5] (.string "x") _ rfl
      (by
        intro x hx
        simp only [List.mem_singleton] at hx
        subst hx
        rfl)
      rfl⟩

/-! ## The iterator never moves backwards -/

theorem parse_quote_loop_suffix (it : List Token) :
    ∀ (c : Int) (acc : List Token), (parse_quote_loop it c acc).1 <:+ it := by
  induction it with
  | nil => intro c acc; simp [parse_quote_loop]
  | cons t it ih =>
    intro c acc
    rw [parse_quote_loop]
    split
    · exact (ih _ _).trans (List.suffix_cons _ _)
    · split
      · split
        · exact List.suffix_cons _ _
        · exact (ih _ _).trans (List.suffix_cons _ _)
      · exact (ih _ _).trans (List.suffix_cons _ _)

theorem parse_quote_suffix (ctx ctx1 : Context) (it it1 : List Token) (r : Option Quote)
    (h : parse_quote ctx it = (r, ctx1, it1)) : it1 <:+ it := by
  have hl := parse_quote_loop_suffix it 1 []
  unfold parse_quote at h
  split at h
  rename_i it2 counter result heq
  rw [heq] at hl
  split at h <;>
  · simp only [Prod.mk.injEq] at h
    obtain ⟨-, -, rfl⟩ := h
    exact hl

theorem parse_fuel_suffix (rt : Runtime) (fuel : Nat) :
    (∀ ctx it r ctx1 it1, parse_value_fuel rt fuel ctx it = .ret (r, ctx1, it1) →
      it1 <:+ it) ∧
    (∀ ctx it els r ctx1 it1, parse_array_fuel rt fuel ctx it els = .ret (r, ctx1, it1) →
      it1 <:+ it) ∧
    (∀ ctx it ps r ctx1 it1, parse_object_fuel rt fuel ctx it ps = .ret (r, ctx1, it1) →
      it1 <:+ it) := by
  induction fuel with
  | zero =>
    refine ⟨?_, ?_, ?_⟩
    · intro ctx it r ctx1 it1 h
      simp [parse_value_fuel] at h
    · intro ctx it els r ctx1 it1 h
      simp [parse_array_fuel] at h
    · intro ctx it ps r ctx1 it1 h
      simp [parse_object_fuel] at h
  | succ fuel ih =>
    obtain ⟨ihv, iha, iho⟩ := ih
    refine ⟨?_, ?_, ?_⟩
    · intro ctx it r ctx1 it1 h
      cases it with
      | nil => simp [parse_value_fuel] at h
      | cons token it =>
        rw [parse_value_fuel] at h
        have fin : ∀ (a : Option Value) (c : Context),
            (Run.ret (a, c, it) : Run (Option Value × Context × List Token))
              = .ret (r, ctx1, it1) → it1 <:+ token :: it := by
          intro a c e
          simp only [Run.ret.injEq, Prod.mk.injEq] at e
          obtain ⟨-, -, rfl⟩ := e
          exact List.suffix_cons _ _
        split at h
        · exact fin _ _ h
        · split at h
          · rename_i hq
            simp only [Run.ret.injEq, Prod.mk.injEq] at h
            obtain ⟨-, -, rfl⟩ := h
            exact (parse_quote_suffix _ _ _ _ _ hq).trans (List.suffix_cons _ _)
          · rename_i hq
            simp only [Run.ret.injEq, Prod.mk.injEq] at h
            obtain ⟨-, -, rfl⟩ := h
            exact (parse_quote_suffix _ _ _ _ _ hq).trans (List.suffix_cons _ _)
        · exact (iha _ _ _ _ _ _ h).trans (List.suffix_cons _ _)
        · exact (iho _ _ _ _ _ _ h).trans (List.suffix_cons _ _)
        · split at h
          · exact fin _ _ h
          · split at h
            · exact fin _ _ h
            · split at h
              · exact fin _ _ h
              · split at h
                · split at h
                  · exact fin _ _ h
                  · exact fin _ _ h
                · split at h
                  · exact fin _ _ h
                  · exact fin _ _ h
        · exact fin _ _ h
    · intro ctx it els r ctx1 it1 h
      unfold parse_array_fuel at h
      have fin : ∀ (a : Option Value) (c : Context) (j : List Token),
          j <:+ it →
          (Run.ret (a, c, j) : Run (Option Value × Context × List Token))
            = .ret (r, ctx1, it1) → it1 <:+ it := by
        intro a c j hj e
        simp only [Run.ret.injEq, Prod.mk.injEq] at e
        obtain ⟨-, -, rfl⟩ := e
        exact hj
      split at h
      · exact fin _ _ _ (List.suffix_refl _) h
      · split at h
        · exact fin _ _ _ (List.suffix_cons _ _) h
        · split at h
          · rename_i hv
            exact fin _ _ _ (ihv _ _ _ _ _ hv) h
          · rename_i hv
            have hv1 := ihv _ _ _ _ _ hv
            split at h
            · exact fin _ _ _ hv1 h
            · split at h
              · exact (iha _ _ _ _ _ _ h).trans ((List.suffix_cons _ _).trans hv1)
              · split at h
                · exact fin _ _ _ hv1 h
                · exact (iha _ _ _ _ _ _ h).trans hv1
          · simp at h
          · simp at h
    · intro ctx it ps r ctx1 it1 h
      unfold parse_object_fuel at h
      have fin : ∀ (a : Option Value) (c : Context) (j : List Token),
          j <:+ it →
          (Run.ret (a, c, j) : Run (Option Value × Context × List Token))
            = .ret (r, ctx1, it1) → it1 <:+ it := by
        intro a c j hj e
        simp only [Run.ret.injEq, Prod.mk.injEq] at e
        obtain ⟨-, -, rfl⟩ := e
        exact hj
      split at h
      · exact fin _ _ _ (List.suffix_refl _) h
      · split at h
        · exact fin _ _ _ (List.suffix_cons _ _) h
        · split at h
          · exact fin _ _ _ (List.suffix_refl _) h
          · split at h
            · exact fin _ _ _ (List.suffix_cons _ _) h
            · have h2 : ∀ (a b : Token) (l : List Token), l <:+ a :: b :: l :=
                fun a b l => (List.suffix_cons b l).trans (List.suffix_cons a _)
              split at h
              · exact fin _ _ _ (h2 _ _ _) h
              · split at h
                · rename_i hv
                  have hv1 := ihv _ _ _ _ _ hv
                  exact fin _ _ _ (hv1.trans (h2 _ _ _)) h
                · rename_i hv
                  have hv1 := ihv _ _ _ _ _ hv
                  split at h
                  · exact fin _ _ _ (hv1.trans (h2 _ _ _)) h
                  · split at h
                    · exact (iho _ _ _ _ _ _ h).trans
                        ((List.suffix_cons _ _).trans (hv1.trans (h2 _ _ _)))
                    · split at h
                      · exact fin _ _ _ (hv1.trans (h2 _ _ _)) h
                      · exact (iho _ _ _ _ _ _ h).trans (hv1.trans (h2 _ _ _))
                · simp at h
                · simp at h

/-- When `parse_value` returns, the iterator stands behind at least one more
token of the range it was given, and behind none that it was behind before. -/
theorem parse_value_advances (rt : Runtime) (ctx ctx1 : Context) (it it1 : List Token)
    (r : Option Value) (h : parse_value rt ctx it = .ret (r, ctx1, it1)) :
    ∃ read : List Token, read ≠ [] ∧ it = read ++ it1 := by
  unfold parse_value at h
  obtain ⟨read, hread⟩ := (parse_fuel_suffix rt _).1 _ _ _ _ _ h
  have hlen := (parse_fuel_length rt _).1 _ _ _ _ _ h
  refine ⟨read, ?_, hread.symm⟩
  intro hnil
  subst hnil
  rw [← hread] at hlen
  simp at hlen

/-! ## Reading at the end of the tokens -/

/-- The loop of `parse_object` on a key and a colon with nothing behind them:
`parse_value` is called with the iterator at the end. -/
theorem parse_object_fuel_truncated (rt : Runtime) (fuel : Nat) (ctx : Context)
    (key colon : Token) (properties : List (String × Value))
    (hk : key.type = .string) (hc : colon.type = .colon) :
    parse_object_fuel rt (fuel + 2) ctx [key, colon] properties = .undefined := by
  have h1 : key.type ≠ .rbrace := by rw [hk]; decide
  unfold parse_object_fuel
  simp only
  rw [if_neg h1, if_neg (by simp [hk]), if_neg (by simp [hc])]
  rfl

theorem parse_value_truncated_object (rt : Runtime) (ctx : Context)
    (brace key colon : Token) (hb : brace.type = .lbrace)
    (hk : key.type = .string) (hc : colon.type = .colon) :
    parse_value rt ctx [brace, key, colon] = .undefined := by
  unfold parse_value parse_fuel
  show parse_value_fuel rt (7 + 1) ctx [brace, key, colon] = .undefined
  rw [parse_value_fuel]
  simp only [hb]
  exact parse_object_fuel_truncated rt 5 ctx key colon [] hk hc

theorem compiled_quote_call_truncated_object (rt : Runtime) (fuel : Nat) (ctx : Context)
    (brace key colon : Token) (hb : brace.type = .lbrace)
    (hk : key.type = .string) (hc : colon.type = .colon) :
    Quote.call rt (fuel + 2) (.compiled [brace, key, colon]) ctx = .undefined := by
  rw [Quote.call, compiled_quote_loop]
  simp only [hb, parse_value_truncated_object rt ctx brace key colon hb hk hc]

/-- C37 (refuted on the code): a compiled quote whose tokens end with an
object literal that stops behind the colon of a key. `parse_object` tests the
iterator against the end before it reads the key and before it reads the
colon, but not before it calls `parse_value`, whose first statement reads the
token at the iterator; here that is the end of the vector. The call has no
defined result, and no Syntax error is latched. -/
theorem compiled_quote_call_reads_past_end (rt : Runtime) (fuel : Nat) (ctx : Context)
    (brace key colon : Token) (hb : brace.type = .lbrace)
    (hk : key.type = .string) (hc : colon.type = .colon) :
    Quote.call rt (fuel + 2) (.compiled [brace, key, colon]) ctx = .undefined ∧
    parse_value rt ctx [brace, key, colon] = .undefined ∧
    (∀ properties : List (String × Value),
      parse_object_fuel rt (fuel + 2) ctx [key, colon] properties = .undefined) ∧
    parse_value rt ctx [] = .undefined :=
  ⟨compiled_quote_call_truncated_object rt fuel ctx brace key colon hb hk hc,
    parse_value_truncated_object rt ctx brace key colon hb hk hc,
    fun properties => parse_object_fuel_truncated rt fuel ctx key colon properties hk hc,
    rfl⟩

/-- The tokens of the text with an opening brace, the key "a" and a colon, on
the runtime without words. -/
theorem compiled_quote_call_reads_past_end_witness :
    Quote.call bare_runtime 2 (.compiled [⟨.lbrace, ""⟩, ⟨.string, "a"⟩, ⟨.colon, ""⟩])
      empty_context = .undefined :=
  (compiled_quote_call_reads_past_end bare_runtime 0 empty_context ⟨.lbrace, ""⟩
    ⟨.string, "a"⟩ ⟨.colon, ""⟩ rfl rfl rfl).1

theorem compiled_quote_loop_literals (rt : Runtime) :
    ∀ (fuel : Nat) (ctx : Context) (tokens : List Token),
      tokens.length ≤ fuel → (∀ t ∈ tokens, literal_token t) →
      compiled_quote_loop rt fuel ctx tokens ≠ .out_of_fuel := by
  intro fuel
  induction fuel with
  | zero =>
    intro ctx tokens hlen _
    cases tokens with
    | nil => simp [compiled_quote_loop]
    | cons t ts => simp at hlen
  | succ fuel ih =>
    intro ctx tokens hlen hlit
    cases tokens with
    | nil => simp [compiled_quote_loop]
    | cons token rest =>
      have hvalue : ∀ r, (match parse_value rt ctx (token :: rest) with
          | .ret (none, ctx1, _) => (.ret (false, ctx1) : Run (Bool × Context))
          | .ret (some val, ctx1, current) => compiled_quote_loop rt fuel (ctx1.push val) current
          | .undefined => .undefined
          | .out_of_fuel => .out_of_fuel) = r → r ≠ .out_of_fuel := by
        intro r hr
        subst hr
        split
        · simp
        · rename_i val ctx1 current hv
          obtain ⟨read, hne, hread⟩ := parse_value_advances rt ctx ctx1 _ current _ hv
          apply ih
          · have : (token :: rest).length = read.length + current.length := by
              rw [hread, List.length_append]
            have hpos : 0 < read.length := List.length_pos.mpr hne
            simp only [List.length_cons] at hlen this
            omega
          · intro t ht
            exact hlit t (by rw [hread]; exact List.mem_append_right _ ht)
        · simp
        · rename_i hv
          exact absurd hv (parse_ne_out_of_fuel rt ctx _).1
      have htoken := hlit token (List.mem_cons_self _ _)
      rw [compiled_quote_loop]
      cases htype : token.type <;> simp only [] <;>
        first
        | exact hvalue _ rfl
        | exact absurd htype htoken.1
        | exact absurd htype htoken.2
        | simp

/-- C39 (refuted on the code): `parse_value` with `parse_quote`,
`parse_array` and `parse_object` on a range of tokens. The parsing functions
never run on without end, and whenever `parse_value` returns, with a value or
without, the iterator stands behind at least one more token of the range and
behind none fewer; a compiled quote of tokens that are neither words nor
colons comes to an end when called. But not every call returns: on an object
literal that stops behind the colon of a key, a range of tokens none of which
is a word, `parse_value` reads the token at the end of the vector and has no
defined result, and so has the call of the compiled quote of these tokens. -/
theorem parse_value_progress (rt : Runtime) (ctx : Context) :
    (∀ it : List Token,
      parse_value rt ctx it ≠ .out_of_fuel ∧ parse_array rt ctx it ≠ .out_of_fuel ∧
      parse_object rt ctx it ≠ .out_of_fuel) ∧
    (∀ (it it1 : List Token) (r : Option Value) (ctx1 : Context),
      parse_value rt ctx it = .ret (r, ctx1, it1) →
      ∃ read : List Token, read ≠ [] ∧ it = read ++ it1) ∧
    (∀ (tokens : List Token) (fuel : Nat), tokens.length < fuel →
      (∀ t ∈ tokens, literal_token t) →
      Quote.call rt fuel (.compiled tokens) ctx ≠ .out_of_fuel) ∧
    (∀ key : String,
      (∀ t ∈ [(⟨.lbrace, ""⟩ : Token), ⟨.string, key⟩, ⟨.colon, ""⟩], t.type ≠ .word) ∧
      parse_value rt ctx [⟨.lbrace, ""⟩, ⟨.string, key⟩, ⟨.colon, ""⟩] = .undefined ∧
      Quote.call rt 4 (.compiled [⟨.lbrace, ""⟩, ⟨.string, key⟩, ⟨.colon, ""⟩]) ctx
        = .undefined) := by
  refine ⟨fun it => parse_ne_out_of_fuel rt ctx it,
    fun it it1 r ctx1 h => parse_value_advances rt ctx ctx1 it it1 r h, ?_, ?_⟩
  · intro tokens fuel hfuel hlit
    obtain ⟨f, rfl⟩ : ∃ f, fuel = f + 1 := ⟨fuel - 1, by omega⟩
    rw [Quote.call]
    exact compiled_quote_loop_literals rt f ctx tokens (by omega) hlit
  · intro key
    refine ⟨?_, parse_value_truncated_object rt ctx _ _ _ rfl rfl rfl,
      compiled_quote_call_truncated_object rt 2 ctx _ _ _ rfl rfl rfl⟩
    intro t ht
    simp only [List.mem_cons, List.mem_singleton, List.not_mem_nil, or_false] at ht
    rcases ht with rfl | rfl | rfl <;> simp

/-! ## Object literals -/

/-- One turn of the loop of `parse_object` over a key, a colon and a
well-formed value construct `c` that is followed by the token `next`. -/
theorem parse_object_fuel_step (rt : Runtime) (ctx ctx1 : Context) (key colon : Token)
    (c : List Token) (v : Value) (next : Token) (more : List Token)
    (ps : List (String × Value)) (fuel : Nat)
    (hk : key.type = .string) (hcolon : colon.type = .colon)
    (hc : parses_to rt ctx c v ctx1) (hf : 2 * (c ++ next :: more).length ≤ fuel) :
    parse_object_fuel rt (fuel + 1) ctx (key :: colon :: (c ++ next :: more)) ps
      = if next.type = .comma then
          parse_object_fuel rt fuel ctx1 more (dictionary_set key.text v ps)
        else if next.type ≠ .rbrace then
          .ret (none, ctx1.set_error .syntax_error
            ("Unexpected \x60" ++ next.to_source rt.json_stringify ++ "'; Missing \x60]'"),
            next :: more)
        else parse_object_fuel rt fuel ctx1 (next :: more) (dictionary_set key.text v ps) := by
  have hv : parse_value_fuel rt fuel ctx (c ++ next :: more)
      = .ret (some v, ctx1, next :: more) := by
    rw [parse_value_fuel_eq rt ctx _ fuel
      (by simp only [List.length_append, List.length_cons] at hf; omega) hf]
    exact hc (next :: more)
  have h1 : key.type ≠ .rbrace := by rw [hk]; decide
  conv_lhs => unfold parse_object_fuel
  simp only
  rw [if_neg h1, if_neg (by simp [hk]), if_neg (by simp [hcolon]), hv]

theorem parse_object_fuel_closing (rt : Runtime) (ctx : Context) (close : Token)
    (rest : List Token) (ps : List (String × Value)) (fuel : Nat)
    (hclose : close.type = .rbrace) :
    parse_object_fuel rt (fuel + 1) ctx (close :: rest) ps
      = .ret (some (.object ps), ctx, rest) := by
  unfold parse_object_fuel
  simp [hclose]

theorem object_tokens_cons_cons (colon sep : Token) (key : String) (c : List Token)
    (e2 : String × List Token) (es : List (String × List Token)) :
    object_tokens colon sep ((key, c) :: e2 :: es)
      = ⟨.string, key⟩ :: colon :: (c ++ sep :: object_tokens colon sep (e2 :: es)) := rfl

/-- The loop of `parse_object` over the entries of a well-formed object
literal, followed by the closing brace. -/
theorem parse_object_fuel_entries (rt : Runtime) (colon sep close : Token)
    (hcolon : colon.type = .colon) (hsep : sep.type = .comma) (hclose : close.type = .rbrace)
    (ctx1 : Context) (rest : List Token) :
    ∀ (entries : List (String × (List Token × Value))) (ctx : Context)
      (ps : List (String × Value)) (fuel : Nat),
      constructs_parse rt ctx (entries.map Prod.snd) ctx1 →
      2 * (object_tokens colon sep (entries.map (fun e => (e.1, e.2.1)))
        ++ close :: rest).length + 1 ≤ fuel →
      parse_object_fuel rt fuel ctx
          (object_tokens colon sep (entries.map (fun e => (e.1, e.2.1))) ++ close :: rest) ps
        = .ret (some (.object (entries.foldl (fun d e => dictionary_set e.1 e.2.2 d) ps)),
            ctx1, rest) := by
  have hcomma : ¬ close.type = .comma := by rw [hclose]; decide
  intro entries
  induction entries with
  | nil =>
    intro ctx ps fuel hcs hf
    simp only [List.map_nil, constructs_parse] at hcs
    subst hcs
    obtain ⟨f, rfl⟩ : ∃ f, fuel = f + 1 := ⟨fuel - 1, by omega⟩
    simp only [List.map_nil, object_tokens, List.nil_append, List.foldl_nil]
    exact parse_object_fuel_closing rt _ close rest ps f hclose
  | cons e es ih =>
    intro ctx ps fuel hcs hf
    obtain ⟨key, c, v⟩ := e
    obtain ⟨ctx2, hc, hrest⟩ := hcs
    obtain ⟨f, rfl⟩ : ∃ f, fuel = f + 1 := ⟨fuel - 1, by omega⟩
    cases es with
    | nil =>
      simp only [List.map_nil, constructs_parse] at hrest
      subst hrest
      simp only [List.map_cons, List.map_nil, object_tokens, List.cons_append,
        List.length_cons, List.length_append, List.foldl_cons, List.foldl_nil] at hf ⊢
      rw [parse_object_fuel_step rt ctx ctx1 ⟨.string, key⟩ colon c v close rest ps f rfl
        hcolon hc (by simp only [List.length_append, List.length_cons]; omega),
        if_neg hcomma, if_neg (by simp [hclose])]
      obtain ⟨g, rfl⟩ : ∃ g, f = g + 1 := ⟨f - 1, by omega⟩
      exact parse_object_fuel_closing rt ctx1 close rest _ g hclose
    | cons e2 es2 =>
      obtain ⟨key2, c2, v2⟩ := e2
      simp only [List.map_cons, object_tokens_cons_cons, List.cons_append, List.append_assoc,
        List.length_cons, List.length_append, List.foldl_cons] at hf ⊢
      rw [parse_object_fuel_step rt ctx ctx2 ⟨.string, key⟩ colon c v sep _ ps f rfl
        hcolon hc (by simp only [List.length_append, List.length_cons]; omega), if_pos hsep]
      have := ih ctx2 (dictionary_set key v ps) f hrest
        (by simp only [List.map_cons, List.length_append, List.length_cons]; omega)
      simp only [List.map_cons, List.foldl_cons] at this
      exact this

/-! ## What the properties of the parsed object are -/

theorem dictionary_set_keys (name : String) (v : Value) (d : List (String × Value)) :
    (dictionary_set name v d).map Prod.fst
      = if name ∈ d.map Prod.fst then d.map Prod.fst else d.map Prod.fst ++ [name] := by
  induction d with
  | nil => simp [dictionary_set]
  | cons e d ih =>
    obtain ⟨k, w⟩ := e
    by_cases h : k = name
    · subst h
      simp [dictionary_set]
    · have h2 : ¬ name = k := fun e => h e.symm
      simp only [dictionary_set, beq_iff_eq, h, if_false, List.map_cons, ih, List.mem_cons, h2,
        false_or]
      split <;> simp

theorem dictionary_set_nodup (name : String) (v : Value) (d : List (String × Value))
    (h : (d.map Prod.fst).Nodup) : ((dictionary_set name v d).map Prod.fst).Nodup := by
  rw [dictionary_set_keys]
  split
  · exact h
  · rename_i hn
    exact List.Nodup.append h (by simp) (by simpa using hn)

theorem dictionary_set_mem (name key : String) (v : Value) (d : List (String × Value)) :
    key ∈ (dictionary_set name v d).map Prod.fst ↔ key = name ∨ key ∈ d.map Prod.fst := by
  rw [dictionary_set_keys]
  split
  · rename_i hn
    constructor
    · exact Or.inr
    · rintro (rfl | h)
      · exact hn
      · exact h
  · simp [or_comm]

theorem dictionary_fold_nodup (entries : List (String × (List Token × Value))) :
    ∀ ps : List (String × Value), (ps.map Prod.fst).Nodup →
      ((entries.foldl (fun d e => dictionary_set e.1 e.2.2 d) ps).map Prod.fst).Nodup := by
  induction entries with
  | nil => intro ps h; exact h
  | cons e es ih =>
    intro ps h
    exact ih _ (dictionary_set_nodup _ _ _ h)

theorem dictionary_fold_mem (key : String) (entries : List (String × (List Token × Value))) :
    ∀ ps : List (String × Value),
      key ∈ (entries.foldl (fun d e => dictionary_set e.1 e.2.2 d) ps).map Prod.fst
        ↔ key ∈ entries.map Prod.fst ∨ key ∈ ps.map Prod.fst := by
  induction entries with
  | nil => intro ps; simp
  | cons e es ih =>
    intro ps
    rw [List.foldl_cons, ih, dictionary_set_mem]
    simp only [List.map_cons, List.mem_cons]
    tauto

theorem dictionary_fold_find (key : String) (entries : List (String × (List Token × Value))) :
    ∀ ps : List (String × Value),
      dictionary_find key (entries.foldl (fun d e => dictionary_set e.1 e.2.2 d) ps)
        = match last_value key (entries.map (fun e => (e.1, e.2.2))) with
          | some w => some w
          | none => dictionary_find key ps := by
  induction entries with
  | nil => intro ps; rfl
  | cons e es ih =>
    intro ps
    obtain ⟨k, c, v⟩ := e
    rw [List.foldl_cons, ih]
    simp only [List.map_cons, last_value]
    cases hl : last_value key (es.map (fun e => (e.1, e.2.2))) with
    | some w => rfl
    | none =>
      simp only
      by_cases hk : k = key
      · subst hk
        simp [dictionary_find_set_same]
      · have : ¬ (k == key) = true := by simpa using hk
        simp only [this, if_false, Bool.false_eq_true]
        exact dictionary_find_set_other k key v ps (fun e => hk e.symm)

/-- C40: `parse_object` behind the opening brace of a well-formed object
literal, that is entries `"k" : v` with well-formed value constructs `v`,
commas between them and the closing brace behind them. The object returned
holds each key of the literal once, has as many properties as the literal has
different keys, and its value for a key is the value parsed for the last entry
with that key; so a key that occurs once has the value of its entry. -/
theorem parse_object_last_wins (rt : Runtime) (ctx ctx1 : Context)
    (entries : List (String × (List Token × Value))) (colon sep close : Token)
    (rest : List Token)
    (hcolon : colon.type = .colon) (hsep : sep.type = .comma) (hclose : close.type = .rbrace)
    (hcs : constructs_parse rt ctx (entries.map Prod.snd) ctx1) :
    ∃ properties : List (String × Value),
      parse_object rt ctx
          (object_tokens colon sep (entries.map (fun e => (e.1, e.2.1))) ++ close :: rest)
        = .ret (some (.object properties), ctx1, rest) ∧
      (properties.map Prod.fst).Nodup ∧
      (∀ key : String, key ∈ properties.map Prod.fst ↔ key ∈ entries.map Prod.fst) ∧
      properties.length = (entries.map Prod.fst).dedup.length ∧
      (∀ key : String,
        dictionary_find key properties
          = last_value key (entries.map (fun e => (e.1, e.2.2)))) ∧
      (∀ (before behind : List (String × (List Token × Value))) (key : String)
          (c : List Token) (v : Value),
        entries = before ++ (key, c, v) :: behind → key ∉ behind.map Prod.fst →
        dictionary_find key properties = some v) := by
  have hmem : ∀ key : String,
      key ∈ (entries.foldl (fun d e => dictionary_set e.1 e.2.2 d) []).map Prod.fst
        ↔ key ∈ entries.map Prod.fst := by
    intro key
    rw [dictionary_fold_mem]
    simp
  have hnodup := dictionary_fold_nodup entries [] (by simp)
  have hfind : ∀ key : String,
      dictionary_find key (entries.foldl (fun d e => dictionary_set e.1 e.2.2 d) [])
        = last_value key (entries.map (fun e => (e.1, e.2.2))) := by
    intro key
    rw [dictionary_fold_find]
    cases last_value key (entries.map (fun e => (e.1, e.2.2))) <;> rfl
  refine ⟨entries.foldl (fun d e => dictionary_set e.1 e.2.2 d) [], ?_, hnodup, hmem, ?_,
    hfind, ?_⟩
  · rw [parse_object_eq]
    exact parse_object_fuel_entries rt colon sep close hcolon hsep hclose ctx1 rest entries ctx
      [] _ hcs (by omega)
  · have hperm : ((entries.foldl (fun d e => dictionary_set e.1 e.2.2 d) []).map Prod.fst).Perm
        (entries.map Prod.fst).dedup := by
      rw [List.perm_ext_iff_of_nodup hnodup (List.nodup_dedup _)]
      intro key
      rw [hmem, List.mem_dedup]
    have := hperm.length_eq
    simpa using this
  · intro before behind key c v hentries hlast
    rw [hfind, hentries]
    have hbehind : last_value key (behind.map (fun e => (e.1, e.2.2))) = none := by
      clear hentries
      induction behind with
      | nil => rfl
      | cons e es ih =>
        obtain ⟨k, c2, v2⟩ := e
        simp only [List.map_cons, List.mem_cons, not_or] at hlast
        simp only [List.map_cons, last_value, ih hlast.2]
        have : ¬ (k == key) = true := by simpa using fun e => hlast.1 e.symm
        simp [this]
    clear hentries hmem hnodup hfind hcs
    induction before with
    | nil => simp [last_value, hbehind]
    | cons e es ih =>
      obtain ⟨k, c2, v2⟩ := e
      have hstep : last_value key
          (((k, c2, v2) :: (es ++ (key, c, v) :: behind)).map (fun e => (e.1, e.2.2)))
          = some v := by
        rw [List.map_cons, last_value, ih]
      exact hstep

/-- The object literal with the entries "a": "1", "b": "2" and "a": "3" has
the two properties a, with the value "3", and b, with the value "2". -/
theorem parse_object_last_wins_witness :
    ∃ properties : List (String × Value),
      parse_object bare_runtime empty_context
          [⟨.string, "a"⟩, ⟨.colon, ""⟩, ⟨.string, "1"⟩, ⟨.comma, ""⟩,
            ⟨.string, "b"⟩, ⟨.colon, ""⟩, ⟨.string, "2"⟩, ⟨.comma, ""⟩,
            ⟨.string, "a"⟩, ⟨.colon, ""⟩, ⟨.string, "3"⟩, ⟨.rbrace, ""⟩]
        = .ret (some (.object properties), empty_context, []) ∧
      properties.length = 2 ∧
      dictionary_find "a" properties = some (.string "3") ∧
      dictionary_find "b" properties = some (.string "2") := by
  have hs : ∀ text : String,
      parses_to bare_runtime empty_context [⟨.string, text⟩] (.string text) empty_context := by
    intro text rest
    rw [List.singleton_append, parse_value_cons, parse_value_fuel]
  obtain ⟨properties, hparse, -, -, hlen, hfind, -⟩ :=
    parse_object_last_wins bare_runtime empty_context empty_context
      [("a", [⟨.string, "1"⟩], .string "1"), ("b", [⟨.string, "2"⟩], .string "2"),
        ("a", [⟨.string, "3"⟩], .string "3")]
      ⟨.colon, ""⟩ ⟨.comma, ""⟩ ⟨.rbrace, ""⟩ [] rfl rfl rfl
      ⟨empty_context, hs "1", empty_context, hs "2", empty_context, hs "3", rfl⟩
  refine ⟨properties, hparse, ?_, ?_, ?_⟩
  · rw [hlen]
    decide
  · rw [hfind]
    rfl
  · rw [hfind]
    rfl


end Plorth
